import Mathlib

/-!
# The directory service of zettelstore

A shallow embedding of `place/dirplace/directory` (`directory.go`, `service.go`):
the entry model, the index (`dirMap`), the file-event handlers, the client
commands and the actor loop `directoryService`, followed by theorems about them.

Conventions of the embedding:

* `domain.ZettelID` is an unsigned 64-bit number; no arithmetic is ever done on
  it here, so it is a `Nat`.  `domain.InvalidZettelID` is `ZettelID(0)`.
* a Go map value is either `nil` or an allocated map.  An allocated map is an
  `AList` (a finite map with unique keys); a map variable is an `Option` of it,
  `none` being `nil`.  Reading and `delete` work on `nil`; a store panics.
* the map stores `*Entry`, and every store puts a fresh pointer, so no two keys
  share an entry: the embedding stores the entries themselves, and a mutation
  through the pointer is a replacement under the same key.
* channel sends and callback calls are recorded as a trace of `Effect`s.
-/

namespace directory

/-! ## Entry model (`directory.go`) -/

/-- The type `domain.ZettelID`: an unsigned number. -/
abbrev ZettelID := Nat

/-- The constant `domain.InvalidZettelID`, which is `ZettelID(0)`. -/
def InvalidZettelID : ZettelID := 0

/-- MetaSpec defines all possibilities where meta data can be stored. -/
inductive MetaSpec
  | MetaSpecUnknown
  | MetaSpecNone
  | MetaSpecFile
  | MetaSpecHeader
  deriving DecidableEq

open MetaSpec

/-- Entry stores everything for a directory entry. -/
structure Entry where
  Zid : ZettelID
  MetaSpec : MetaSpec
  MetaPath : String
  ContentPath : String
  ContentExt : String
  Duplicates : Bool
  deriving DecidableEq

/-- The Go zero value of `Entry` with the given id: `Entry{Zid: zid}`.
`MetaSpecUnknown` is the zero value of `MetaSpec` (it is `iota` 0). -/
def Entry.zero (zid : ZettelID) : Entry :=
  { Zid := zid, MetaSpec := MetaSpecUnknown, MetaPath := "", ContentPath := "",
    ContentExt := "", Duplicates := false }

/-! ## File events -/

/-- The status of a file event, as switched on by `directoryService`. -/
inductive fileStatus
  | fileStatusReloadStart
  | fileStatusReloadEnd
  | fileStatusError
  | fileStatusUpdate
  | fileStatusDelete
  deriving DecidableEq

open fileStatus

/-- A file event, with the fields that `service.go` reads. -/
structure fileEvent where
  status : fileStatus
  path : String
  zid : ZettelID
  ext : String
  err : String
  deriving DecidableEq

/-- The function `updateEntry(de, ev)`; the result is the entry `de` points to afterwards. -/
def updateEntry (de : Entry) (ev : fileEvent) : Entry :=
  if ev.ext = "meta" then
    { de with MetaSpec := MetaSpecFile, MetaPath := ev.path }
  else if de.ContentExt.length ≠ 0 ∧ de.ContentExt ≠ ev.ext then
    { de with Duplicates := true }
  else
    let de1 : Entry :=
      if de.MetaSpec ≠ MetaSpecFile then
        if ev.ext = "zettel" then { de with MetaSpec := MetaSpecHeader }
        else { de with MetaSpec := MetaSpecNone }
      else de
    { de1 with ContentPath := ev.path, ContentExt := ev.ext }

/-- The function `newEntry(ev)`: a zero entry with the event's id, updated by the event. -/
def newEntry (ev : fileEvent) : Entry :=
  updateEntry (Entry.zero ev.zid) ev

/-! ## The index -/

/-- An allocated `dirMap`: a finite map from ids to entries, unique keys. -/
abbrev dirMap := AList (fun _ : ZettelID => Entry)

/-- A Go variable of type `dirMap`: `none` is the `nil` map. -/
abbrev dirMapVar := Option dirMap

/-- The result of `make(dirMap)`. -/
def dirMap.make : dirMap := ∅

/-- The Go expression `m[zid]` on a map variable (`none` for a missing key, also on `nil`). -/
def dirMapVar.get (m : dirMapVar) (zid : ZettelID) : Option Entry :=
  match m with
  | none => none
  | some dm => dm.lookup zid

/-- The Go statement `delete(m, zid)`: a no-op on `nil`. -/
def dirMapVar.delete (m : dirMapVar) (zid : ZettelID) : dirMapVar :=
  match m with
  | none => none
  | some dm => some (dm.erase zid)

/-- What stops the actor: a run-time panic, or a loop that was cut off. -/
inductive Fault
  | nilMapWrite
  | outOfFuel
  deriving DecidableEq

/-- The Go statement `m[zid] = &e`: panics on `nil`. -/
def dirMapVar.set (m : dirMapVar) (zid : ZettelID) (e : Entry) : Except Fault dirMapVar :=
  match m with
  | none => .error Fault.nilMapWrite
  | some dm => .ok (some (dm.insert zid e))

/-- The Go expression `len(m)`: 0 on `nil`. -/
def dirMapVar.len (m : dirMapVar) : Nat :=
  match m with
  | none => 0
  | some dm => dm.entries.length

/-- The function `dirMapUpdate(dm, ev)`. -/
def dirMapUpdate (dm : dirMapVar) (ev : fileEvent) : Except Fault dirMapVar :=
  match dm.get ev.zid with
  | none => dm.set ev.zid (newEntry ev)
  | some de => dm.set ev.zid (updateEntry de ev)

/-! ## Client commands (`service.go`)

Every `run` method takes the map variable it is called with and gives the map
variable afterwards together with the value sent on the command's result
channel, or the fault that stops it. -/

/-- The error `place.ErrInvalidID`, carrying the offending id. -/
structure ErrInvalidID where
  Zid : ZettelID
  deriving DecidableEq

/-- The method `cmdGetEntries.run`: a copy of every entry.  Go leaves the iteration
order of a map unspecified; the list here is in the order of the representation. -/
def cmdGetEntries.run (m : dirMapVar) : Except Fault (dirMapVar × List Entry) :=
  match m with
  | none => .ok (m, [])
  | some dm => .ok (m, dm.entries.map (fun p => p.2))

/-- The method `cmdGetEntry.run`: the stored entry, or `Entry{Zid: InvalidZettelID}`. -/
def cmdGetEntry.run (zid : ZettelID) (m : dirMapVar) : Except Fault (dirMapVar × Entry) :=
  match m.get zid with
  | none => .ok (m, Entry.zero InvalidZettelID)
  | some entry => .ok (m, entry)

/-- The `for` loop of `cmdNewEntry.run`: `gen k` is the value of the `k`-th call of
`domain.NewZettelID(true)`, `fuel` bounds the number of iterations. -/
def cmdNewEntry.loop (gen : Nat → ZettelID) (m : dirMapVar) :
    Nat → Nat → Except Fault (dirMapVar × Entry)
  | 0, _ => .error Fault.outOfFuel
  | fuel + 1, k =>
    match m.get (gen k) with
    | none =>
      match m.set (gen k) (Entry.zero (gen k)) with
      | .error f => .error f
      | .ok m1 => .ok (m1, Entry.zero (gen k))
    | some _ => cmdNewEntry.loop gen m fuel (k + 1)

/-- The method `cmdNewEntry.run`.  The id generator `domain.NewZettelID` reads the
clock; `gen` is the stream of ids it delivers during this call: `gen 0` for
`NewZettelID(false)`, then `gen 1`, `gen 2`, ... for the calls `NewZettelID(true)`. -/
def cmdNewEntry.run (gen : Nat → ZettelID) (fuel : Nat) (m : dirMapVar) :
    Except Fault (dirMapVar × Entry) :=
  match m.get (gen 0) with
  | none =>
    match m.set (gen 0) (Entry.zero (gen 0)) with
    | .error f => .error f
    | .ok m1 => .ok (m1, Entry.zero (gen 0))
  | some _ => cmdNewEntry.loop gen m fuel 1

/-- The method `cmdUpdateEntry.run`. -/
def cmdUpdateEntry.run (entry : Entry) (m : dirMapVar) : Except Fault (dirMapVar × Unit) :=
  match m.set entry.Zid entry with
  | .error f => .error f
  | .ok m1 => .ok (m1, ())

/-- The method `cmdRenameEntry.run`: the value sent is the error, `none` for `nil`. -/
def cmdRenameEntry.run (curEntry newEntry : Entry) (m : dirMapVar) :
    Except Fault (dirMapVar × Option ErrInvalidID) :=
  let newZid := newEntry.Zid
  match m.get newZid with
  | some _ => .ok (m, some { Zid := newZid })
  | none =>
    match (m.delete curEntry.Zid).set newZid newEntry with
    | .error f => .error f
    | .ok m1 => .ok (m1, none)

/-- The method `cmdDeleteEntry.run`. -/
def cmdDeleteEntry.run (zid : ZettelID) (m : dirMapVar) : Except Fault (dirMapVar × Unit) :=
  .ok (m.delete zid, ())

/-- The implementations of the interface `dirCmd`, without their result channels. -/
inductive dirCmd
  | cmdGetEntries
  | cmdGetEntry (zid : ZettelID)
  | cmdNewEntry (gen : Nat → ZettelID)
  | cmdUpdateEntry (entry : Entry)
  | cmdRenameEntry (curEntry newEntry : Entry)
  | cmdDeleteEntry (zid : ZettelID)

/-- The value a command sends on its result channel. -/
inductive Reply
  | resGetEntries (es : List Entry)
  | resGetEntry (e : Entry)
  | resNewEntry (e : Entry)
  | resUpdateEntry
  | resRenameEntry (err : Option ErrInvalidID)
  | resDeleteEntry
  deriving DecidableEq

/-- The interface method `dirCmd.run`, dispatched on the command. -/
def dirCmd.run (fuel : Nat) (m : dirMapVar) : dirCmd → Except Fault (dirMapVar × Reply)
  | .cmdGetEntries => (cmdGetEntries.run m).map (fun r => (r.1, Reply.resGetEntries r.2))
  | .cmdGetEntry zid => (cmdGetEntry.run zid m).map (fun r => (r.1, Reply.resGetEntry r.2))
  | .cmdNewEntry gen => (cmdNewEntry.run gen fuel m).map (fun r => (r.1, Reply.resNewEntry r.2))
  | .cmdUpdateEntry entry =>
    (cmdUpdateEntry.run entry m).map (fun r => (r.1, Reply.resUpdateEntry))
  | .cmdRenameEntry curEntry newEntry =>
    (cmdRenameEntry.run curEntry newEntry m).map (fun r => (r.1, Reply.resRenameEntry r.2))
  | .cmdDeleteEntry zid => (cmdDeleteEntry.run zid m).map (fun r => (r.1, Reply.resDeleteEntry))

/-! ## The actor (`Service.directoryService`) -/

/-- A subscriber callback `place.ObserverFunc`, known by its identity only. -/
abbrev ObserverFunc := Nat

/-- The part of `Service` that the actor reads: the subscribed callbacks. -/
structure Service where
  changeFuncs : List ObserverFunc

/-- What the actor does to the outside, in order. -/
inductive Effect
  | call (changeF : ObserverFunc) (all : Bool) (zid : ZettelID)
  | ready (n : Nat)
  | log (err : String)
  | result (r : Reply)
  deriving DecidableEq

/-- The method `Service.notifyChange`: every callback is called once, in order. -/
def Service.notifyChange (srv : Service) (all : Bool) (zid : ZettelID) : List Effect :=
  srv.changeFuncs.map (fun changeF => Effect.call changeF all zid)

/-- The local variables of `directoryService`; `ready` is true while the channel
`ready` is not `nil`. -/
structure ActorState where
  curMap : dirMapVar
  newMap : dirMapVar
  ready : Bool
  deriving DecidableEq

/-- The state in which the loop of `directoryService` starts, as called by `Start`. -/
def ActorState.init : ActorState :=
  { curMap := some dirMap.make, newMap := none, ready := true }

/-- What the `select` of the actor loop dequeues: a file event or a command. -/
inductive Item
  | event (ev : fileEvent)
  | command (cmd : dirCmd)

/-- One iteration of the loop of `directoryService` for a file event. -/
def directoryService.onEvent (srv : Service) (s : ActorState) (ev : fileEvent) :
    Except Fault (ActorState × List Effect) :=
  match ev.status with
  | fileStatusReloadStart => .ok ({ s with newMap := some dirMap.make }, [])
  | fileStatusReloadEnd =>
    let s1 : ActorState := { s with curMap := s.newMap, newMap := none }
    if s.ready then
      .ok ({ s1 with ready := false },
        Effect.ready s1.curMap.len :: srv.notifyChange true InvalidZettelID)
    else
      .ok (s1, srv.notifyChange true InvalidZettelID)
  | fileStatusError => .ok (s, [Effect.log ev.err])
  | fileStatusUpdate =>
    match s.newMap with
    | some _ =>
      match dirMapUpdate s.newMap ev with
      | .error f => .error f
      | .ok nm => .ok ({ s with newMap := nm }, [])
    | none =>
      match dirMapUpdate s.curMap ev with
      | .error f => .error f
      | .ok cm => .ok ({ s with curMap := cm }, srv.notifyChange false ev.zid)
  | fileStatusDelete =>
    match s.newMap with
    | some _ => .ok ({ s with newMap := s.newMap.delete ev.zid }, [])
    | none => .ok ({ s with curMap := s.curMap.delete ev.zid }, srv.notifyChange false ev.zid)

/-- One iteration of the loop of `directoryService`: the item is applied to the state. -/
def directoryService.step (srv : Service) (fuel : Nat) (s : ActorState) :
    Item → Except Fault (ActorState × List Effect)
  | .event ev => directoryService.onEvent srv s ev
  | .command cmd =>
    match cmd.run fuel s.curMap with
    | .error f => .error f
    | .ok (cm, r) => .ok ({ s with curMap := cm }, [Effect.result r])

/-- The loop of `directoryService` over the items in the order they are dequeued:
the final state and the trace of effects, or the fault that stops the actor.
The order is the input: which channel the `select` serves next is not modelled,
and neither is the closing of the channels. -/
def directoryService (srv : Service) (fuel : Nat) (s : ActorState) :
    List Item → Except Fault (ActorState × List Effect)
  | [] => .ok (s, [])
  | item :: rest =>
    match directoryService.step srv fuel s item with
    | .error f => .error f
    | .ok (s1, out1) =>
      match directoryService srv fuel s1 rest with
      | .error f => .error f
      | .ok (s2, out2) => .ok (s2, out1 ++ out2)

/-! ## Replaying file events -/

/-- The file events among the dequeued items, in order. -/
def Item.events : List Item → List fileEvent
  | [] => []
  | .event ev :: rest => ev :: Item.events rest
  | .command _ :: rest => Item.events rest

/-- Applying file events to an index, in order: an update event as `dirMapUpdate`
does, a delete event as `delete` does; the other events do not touch an index. -/
def applyEvents (m : dirMapVar) : List fileEvent → Except Fault dirMapVar
  | [] => .ok m
  | ev :: rest =>
    match ev.status with
    | fileStatusUpdate =>
      match dirMapUpdate m ev with
      | .error f => .error f
      | .ok m1 => applyEvents m1 rest
    | fileStatusDelete => applyEvents (m.delete ev.zid) rest
    | _ => applyEvents m rest

/-- The ids that the `NewEntry` commands of a trace sent to their callers, in order. -/
def newEntryIds : List Effect → List ZettelID
  | [] => []
  | .result (.resNewEntry e) :: rest => e.Zid :: newEntryIds rest
  | _ :: rest => newEntryIds rest

/-- Whether the item is a `NewEntry` command. -/
def Item.isNewEntry : Item → Bool
  | .command (.cmdNewEntry _) => true
  | _ => false

/-- Whether the item is neither a delete (event or command), nor a rename, nor the
start or end of a reload. -/
def Item.keepsIds : Item → Bool
  | .event ev =>
    match ev.status with
    | fileStatusUpdate => true
    | fileStatusError => true
    | _ => false
  | .command (.cmdDeleteEntry _) => false
  | .command (.cmdRenameEntry _ _) => false
  | .command _ => true

/-! ## Sequences of file events for one entry -/

/-- Applying file events to an entry, in order, each by `updateEntry`. -/
def updateEntries (de : Entry) (evs : List fileEvent) : Entry :=
  evs.foldl updateEntry de

/-- The first extension in a sequence of events that is neither `meta` nor empty. -/
def firstContentExt : List fileEvent → Option String
  | [] => none
  | ev :: rest =>
    if ev.ext ≠ "meta" ∧ ev.ext ≠ "" then some ev.ext else firstContentExt rest

/-! ## Reading the trace -/

/-- Whether the effect is the call of a subscriber callback. -/
def Effect.isCall : Effect → Bool
  | .call _ _ _ => true
  | _ => false

/-- Whether the item is a file event with the status error. -/
def Item.isErrorEvent : Item → Bool
  | .event ev =>
    match ev.status with
    | fileStatusError => true
    | _ => false
  | .command _ => false

/-! ## Invariants of the actor -/

/-- Every entry of the map variable carries the id it is stored under. -/
def dirMapVar.Keyed (m : dirMapVar) : Prop :=
  ∀ zid e, m.get zid = some e → e.Zid = zid

/-- The reload protocol over the dequeued items: `open` tells whether a reload-start
has been seen that no reload-end has closed yet.  The result is the flag after
the items, or `none` when some reload-end comes without such a reload-start. -/
def reloadProtocol : Bool → List Item → Option Bool
  | isOpen, [] => some isOpen
  | isOpen, .command _ :: rest => reloadProtocol isOpen rest
  | isOpen, .event ev :: rest =>
    match ev.status with
    | fileStatusReloadStart => reloadProtocol true rest
    | fileStatusReloadEnd => if isOpen then reloadProtocol false rest else none
    | _ => reloadProtocol isOpen rest

/-! ## Example inputs -/

/-- An update event for the file `path` of the id `zid` with the extension `ext`. -/
def exampleUpdate (zid : ZettelID) (path ext : String) : fileEvent :=
  fileEvent.mk fileStatusUpdate path zid ext ""

/-- A marker or delete event of the given status for the id `zid`. -/
def exampleEvent (status : fileStatus) (zid : ZettelID) : fileEvent :=
  fileEvent.mk status "" zid "" ""

/-- What arrives during an example reload: `1.md`, an `UpdateEntry` for id 9, `2.txt`,
the removal of id 1, a `NewEntry` whose candidates are 5, 6, ..., a scan error. -/
def exampleReloadItems : List Item :=
  [.event (exampleUpdate 1 "1.md" "md"),
   .command (.cmdUpdateEntry (Entry.zero 9)),
   .event (exampleUpdate 2 "2.txt" "txt"),
   .event (exampleEvent fileStatusDelete 1),
   .command (.cmdNewEntry (fun k => 5 + k)),
   .event (fileEvent.mk fileStatusError "" 0 "" "read error")]

/-- Two `NewEntry` commands within one clock tick: both get the candidates 5, 6, ... -/
def exampleNewEntries : List Item :=
  [.command (.cmdNewEntry (fun k => 5 + k)), .command (.cmdNewEntry (fun k => 5 + k))]

/-- Two `NewEntry` commands that are offered the candidate 5 and nothing else. -/
def exampleConstantStream : List Item :=
  [.command (.cmdNewEntry (fun _ => 5)), .command (.cmdNewEntry (fun _ => 5))]

/-- A `NewEntry` command that is offered the invalid id as its first candidate, and
a `GetEntry` for that id. -/
def exampleInvalidCandidate : List Item :=
  [.command (.cmdNewEntry (fun k => k)), .command (.cmdGetEntry InvalidZettelID)]

/-- Two `NewEntry` commands within one clock tick, with a forced candidate that
moves on with every tenth call only: 5, ..., 5, 6, ..., 6, 7, ... -/
def exampleSlowClock : List Item :=
  [.command (.cmdNewEntry (fun k => 5 + k / 10)), .command (.cmdNewEntry (fun k => 5 + k / 10))]

/-- The events `X.` (empty extension) and `X.md` for the id 1. -/
def exampleEmptyExt : List fileEvent :=
  [exampleUpdate 1 "1." "", exampleUpdate 1 "1.md" "md"]

/-- The events `1.zettel` then `1.md`. -/
def exampleZettelMd : List fileEvent :=
  [exampleUpdate 1 "1.zettel" "zettel", exampleUpdate 1 "1.md" "md"]

/-- The events `1.md` then `1.zettel`. -/
def exampleMdZettel : List fileEvent :=
  [exampleUpdate 1 "1.md" "md", exampleUpdate 1 "1.zettel" "zettel"]

/-- The events `1.meta`, `1.md`, `1.txt`, `1.md`. -/
def exampleMetaMdTxt : List fileEvent :=
  [exampleUpdate 1 "1.meta" "meta", exampleUpdate 1 "1.md" "md",
   exampleUpdate 1 "1.txt" "txt", exampleUpdate 1 "1.md" "md"]

/-- A reload interrupted by scan errors: `1.md`, an error, `2.txt`, an error. -/
def exampleReloadWithErrors : List Item :=
  [.event (exampleEvent fileStatusReloadStart 0),
   .event (exampleUpdate 1 "1.md" "md"),
   .event (fileEvent.mk fileStatusError "" 0 "" "read error"),
   .event (exampleUpdate 2 "2.txt" "txt"),
   .event (fileEvent.mk fileStatusError "" 0 "" "read error"),
   .event (exampleEvent fileStatusReloadEnd 0)]

/-- An update event for `1.md`, then a rename of the id 1 to the id 3. -/
def exampleUpdateRename : List Item :=
  [.event (exampleUpdate 1 "1.md" "md"),
   .command (.cmdRenameEntry (Entry.zero 1) (Entry.mk 3 MetaSpecNone "" "3.md" "md" false))]

end directory

/-! # Package `domain`: zettel identifiers -/

namespace domain

/-- Whether the character is one of the ASCII digits `0` to `9`. -/
def isDigit (c : Char) : Bool :=
  decide (48 ≤ c.toNat ∧ c.toNat ≤ 57)

/-- The number that a sequence of digits denotes, read from the left. -/
def digitsValue (cs : List Char) : Nat :=
  cs.foldl (fun acc c => 10 * acc + (c.toNat - 48)) 0

/-- Modelled from the spec: the function `domain.ParseZettelID`, whose source is not
part of the repository files at hand (only its test `id_test.go` is).  A string
is accepted exactly when it is 14 ASCII digits and not all zero; the identifier
is the number the digits denote.  `none` stands for the error. -/
def ParseZettelID (s : String) : Option directory.ZettelID :=
  if s.length = 14 ∧ s.data.all isDigit = true then
    if digitsValue s.data = 0 then none else some (digitsValue s.data)
  else none

/-- The last `width` decimal digits of a number, most significant first. -/
def formatDigits : Nat → Nat → List Char
  | 0, _ => []
  | width + 1, n => formatDigits width (n / 10) ++ [Char.ofNat (48 + n % 10)]

/-- Modelled from the spec: the method `ZettelID.Format`, whose source is not part
of the repository files at hand.  The identifier is rendered as 14 decimal
digits, with leading zeros. -/
def Format (zid : directory.ZettelID) : String :=
  String.mk (formatDigits 14 zid)

/-- The strings that `TestIsValid` of `id_test.go` expects to be accepted. -/
def validIDs : List String :=
  ["00000000000001", "00000000000020", "00000000000300", "00000000004000",
   "00000000050000", "00000000600000", "00000007000000", "00000080000000",
   "00000900000000", "00001000000000", "00020000000000", "00300000000000",
   "04000000000000", "50000000000000", "99999999999999", "00001007030200",
   "20200310195100"]

/-- The strings that `TestIsValid` of `id_test.go` expects to be rejected. -/
def invalidIDs : List String :=
  ["", "0", "a", "00000000000000", "000000000000000", "99999999999999a",
   "20200310T195100"]

end domain

/-! # Package `config`: the token lifetimes -/

namespace config

/-- The type `time.Duration`: a signed 64-bit number of nanoseconds. -/
abbrev Duration := Int

/-- The constant `time.Minute`. -/
def Minute : Duration := 60000000000

/-- The constant `time.Hour`. -/
def Hour : Duration := 60 * Minute

/-- The value of a number as a signed 64-bit integer: Go's conversion to `int64` and
the result of its wrapping arithmetic. -/
def wrapInt64 (x : Int) : Int :=
  (x + 2 ^ 63) % 2 ^ 64 - 2 ^ 63

/-- The function `strconv.ParseUint(s, 10, 64)` of Go's library: a non-empty string
of decimal digits whose value is below `2^64`; `none` stands for the error. -/
def ParseUint (s : String) : Option Nat :=
  if s.data ≠ [] ∧ s.data.all domain.isDigit = true then
    if domain.digitsValue s.data < 2 ^ 64 then some (domain.digitsValue s.data) else none
  else none

/-- The function `getDuration`.  `domain.Meta` is not part of the repository files
at hand: `value` is what `cfg.Get(key)` returns, `none` when the key is missing. -/
def getDuration (value : Option String) (defDur minDur maxDur : Duration) : Duration :=
  match value with
  | some s =>
    if s.length > 0 then
      match ParseUint s with
      | some d =>
        let secs := wrapInt64 (wrapInt64 d * Minute)
        if secs < minDur then minDur
        else if secs > maxDur then maxDur
        else secs
      | none => defDur
    else defDur
  | none => defDur

/-- The call of `getDuration` for `token-lifetime-html` in `SetupStartup`. -/
def htmlLifetime (value : Option String) : Duration :=
  getDuration value (1 * Hour) (1 * Minute) (30 * 24 * Hour)

/-- The call of `getDuration` for `token-lifetime-api` in `SetupStartup`. -/
def apiLifetime (value : Option String) : Duration :=
  getDuration value (10 * Minute) 0 (1 * Hour)

end config

/-! # Package `input`: the input source of the parsers (`input.go`) -/

namespace input

/-- A byte of a Go string. -/
abbrev Byte := Fin 256

/-- The type `rune`: a signed 32-bit number; every value here is small. -/
abbrev Rune := Int

/-- The rune of a character literal such as `'&'`. -/
def rune (c : Char) : Rune := (c.toNat : Int)

/-- The constant `EOS`: end of source. -/
def EOS : Rune := -1

/-- The constant `utf8.RuneSelf`. -/
def RuneSelf : Rune := 0x80

/-- The constant `utf8.RuneError`: the replacement character U+FFFD. -/
def RuneError : Rune := 0xFFFD

/-- The constant `unicode.MaxRune`. -/
def MaxRune : Rune := 0x10FFFF

/-- The bytes of a string of ASCII characters, to write example sources. -/
def ascii (s : String) : List Byte :=
  s.data.map (fun c => Fin.ofNat c.toNat)

/-- The function `utf8.DecodeRuneInString` of Go's library: the first rune of the
bytes and its width.  An empty string gives `(RuneError, 0)`, an invalid or
incomplete encoding `(RuneError, 1)`.  The bit operations of the library are
written as arithmetic: `b % 64` for `b & 0x3F`, `* 64` for `<< 6`. -/
def DecodeRuneInString : List Byte → Rune × Nat
  | [] => (RuneError, 0)
  | s0 :: rest =>
    if s0.val < 0x80 then ((s0.val : Int), 1)
    else if s0.val < 0xC2 then (RuneError, 1)
    else if s0.val < 0xE0 then
      match rest with
      | s1 :: _ =>
        if 0x80 ≤ s1.val ∧ s1.val ≤ 0xBF then
          ((((s0.val % 32) * 64 + s1.val % 64 : Nat) : Int), 2)
        else (RuneError, 1)
      | [] => (RuneError, 1)
    else if s0.val < 0xF0 then
      match rest with
      | s1 :: s2 :: _ =>
        if (if s0.val = 0xE0 then 0xA0 else 0x80) ≤ s1.val ∧
            s1.val ≤ (if s0.val = 0xED then 0x9F else 0xBF) ∧
            0x80 ≤ s2.val ∧ s2.val ≤ 0xBF then
          ((((s0.val % 16) * 4096 + (s1.val % 64) * 64 + s2.val % 64 : Nat) : Int), 3)
        else (RuneError, 1)
      | _ => (RuneError, 1)
    else if s0.val < 0xF5 then
      match rest with
      | s1 :: s2 :: s3 :: _ =>
        if (if s0.val = 0xF0 then 0x90 else 0x80) ≤ s1.val ∧
            s1.val ≤ (if s0.val = 0xF4 then 0x8F else 0xBF) ∧
            0x80 ≤ s2.val ∧ s2.val ≤ 0xBF ∧ 0x80 ≤ s3.val ∧ s3.val ≤ 0xBF then
          ((((s0.val % 8) * 262144 + (s1.val % 64) * 4096 + (s2.val % 64) * 64
            + s3.val % 64 : Nat) : Int), 4)
        else (RuneError, 1)
      | _ => (RuneError, 1)
    else (RuneError, 1)

/-- The UTF-8 encoding of the code point `i`, as `utf8.EncodeRune` of Go's library
writes it for a valid rune: one byte up to 0x7F, two up to 0x7FF, three up to
0xFFFF, four beyond.  The bit operations are written as arithmetic. -/
def encodeRune (i : Nat) : List Byte :=
  if i ≤ 0x7F then [Fin.ofNat i]
  else if i ≤ 0x7FF then [Fin.ofNat (0xC0 + i / 64), Fin.ofNat (0x80 + i % 64)]
  else if i ≤ 0xFFFF then
    [Fin.ofNat (0xE0 + i / 4096), Fin.ofNat (0x80 + (i / 64) % 64), Fin.ofNat (0x80 + i % 64)]
  else
    [Fin.ofNat (0xF0 + i / 262144), Fin.ofNat (0x80 + (i / 4096) % 64),
     Fin.ofNat (0x80 + (i / 64) % 64), Fin.ofNat (0x80 + i % 64)]

/-- The conversion `string(rune(code))` of Go: the UTF-8 encoding of the code point;
a value that is no Unicode scalar value (negative, above `MaxRune`, or a
surrogate) is converted to the encoding of U+FFFD. -/
def runeToString (code : Int) : List Byte :=
  if code < 0 ∨ MaxRune < code ∨ (0xD800 ≤ code ∧ code ≤ 0xDFFF) then encodeRune 0xFFFD
  else encodeRune code.toNat

/-- Input is an abstract input source.  `Pos` and `readPos` are of type `int` in Go
and never negative. -/
structure Input where
  Src : List Byte
  Ch : Rune
  Pos : Nat
  readPos : Nat
  deriving DecidableEq

/-- The method `Input.Next`: reads the next rune into `Ch`.  `Src[readPos]?` is
`none` exactly when `readPos < len(Src)` fails. -/
def Input.Next (inp : Input) : Input :=
  match inp.Src[inp.readPos]? with
  | some b =>
    let rw : Rune × Nat :=
      if RuneSelf ≤ (b.val : Int) then DecodeRuneInString (inp.Src.drop inp.readPos)
      else ((b.val : Int), 1)
    { inp with Pos := inp.readPos, readPos := inp.readPos + rw.2, Ch := rw.1 }
  | none => { inp with Pos := inp.Src.length, Ch := EOS }

/-- The function `NewInput`. -/
def NewInput (src : List Byte) : Input :=
  Input.Next { Src := src, Ch := 0, Pos := 0, readPos := 0 }

/-- The method `Input.PeekN`, with the input it leaves behind. -/
def Input.PeekN (inp : Input) (n : Nat) : Input × Rune :=
  let pos := inp.readPos + n
  match inp.Src[pos]? with
  | some b =>
    let r : Rune :=
      if RuneSelf ≤ (b.val : Int) then (DecodeRuneInString (inp.Src.drop pos)).1
      else (b.val : Int)
    if r = rune '\t' then (inp, rune ' ') else (inp, r)
  | none => (inp, EOS)

/-- The method `Input.Peek`. -/
def Input.Peek (inp : Input) : Input × Rune :=
  inp.PeekN 0

/-- The method `Input.EatEOL`. -/
def Input.EatEOL (inp : Input) : Input :=
  if inp.Ch = rune '\r' then
    let inp1 := if inp.Peek.2 = rune '\n' then inp.Peek.1.Next else inp.Peek.1
    Input.Next { inp1 with Ch := rune '\n' }
  else if inp.Ch = rune '\n' then inp.Next
  else inp

/-- The method `Input.SetPos`. -/
def Input.SetPos (inp : Input) (pos : Nat) : Input :=
  Input.Next { inp with readPos := pos }

/-- The value of a decimal digit, as the `switch` of the base 10 loop finds it. -/
def decDigit (ch : Rune) : Option Int :=
  if rune '0' ≤ ch ∧ ch ≤ rune '9' then some (ch - rune '0') else none

/-- The value of a hexadecimal digit, as the `switch` of the base 16 loop finds it. -/
def hexDigit (ch : Rune) : Option Int :=
  if rune '0' ≤ ch ∧ ch ≤ rune '9' then some (ch - rune '0')
  else if rune 'a' ≤ ch ∧ ch ≤ rune 'f' then some (ch - rune 'a' + 10)
  else if rune 'A' ≤ ch ∧ ch ≤ rune 'F' then some (ch - rune 'A' + 10)
  else none

/-- The two `for` loops of `ScanEntity` for numbered entities, which differ in the
base and in the digits only: `;` ends the number, a digit is added to `code`,
anything else and a code above `MaxRune` fail.  `fuel` bounds the iterations;
`none` is given when it runs out. -/
def scanCode (base : Int) (digit : Rune → Option Int) :
    Nat → Input → Int → Option (Input × List Byte × Bool)
  | 0, _, _ => none
  | fuel + 1, inp, code =>
    if inp.Ch = rune ';' then some (inp.Next, runeToString code, true)
    else
      match digit inp.Ch with
      | none => some (inp, [], false)
      | some d =>
        if MaxRune < base * code + d then some (inp, [], false)
        else scanCode base digit fuel inp.Next (base * code + d)

/-- The last `for` loop of `ScanEntity`, for named entities.  `unescape` is the
function `html.UnescapeString` of Go's library. -/
def scanNamed (unescape : List Byte → List Byte) (pos : Nat) :
    Nat → Input → Option (Input × List Byte × Bool)
  | 0, _ => none
  | fuel + 1, inp =>
    if inp.Ch = EOS ∨ inp.Ch = rune '\n' ∨ inp.Ch = rune '\r' then some (inp, [], false)
    else if inp.Ch = rune ';' then
      let inp1 := inp.Next
      let es := (inp1.Src.drop pos).take (inp1.Pos - pos)
      let ues := unescape es
      if es = ues then some (inp1, [], false) else some (inp1, ues, true)
    else scanNamed unescape pos fuel inp.Next

/-- The method `Input.ScanEntity`: the input afterwards, the string and the success
flag.  Every iteration of its loops reads on, so `len(Src) + 1` iterations are
allowed. -/
def Input.ScanEntity (unescape : List Byte → List Byte) (inp : Input) :
    Option (Input × List Byte × Bool) :=
  if inp.Ch ≠ rune '&' then some (inp, [], false)
  else
    let pos := inp.Pos
    let inp1 := inp.Next
    if inp1.Ch = rune '#' then
      let inp2 := inp1.Next
      if inp2.Ch = rune 'x' ∨ inp2.Ch = rune 'X' then
        let inp3 := inp2.Next
        if inp3.Ch = rune ';' then some (inp3, [], false)
        else scanCode 16 hexDigit (inp.Src.length + 1) inp3 0
      else if inp2.Ch = rune ';' then some (inp2, [], false)
      else scanCode 10 decDigit (inp.Src.length + 1) inp2 0
    else scanNamed unescape pos (inp.Src.length + 1) inp1

/-- A byte that is one of the decimal digits `0` to `9`. -/
def isDecDigit (b : Byte) : Prop := 48 ≤ b.val ∧ b.val ≤ 57

/-- A byte that is a hexadecimal digit: `0` to `9`, `a` to `f` or `A` to `F`. -/
def isHexDigit (b : Byte) : Prop :=
  (48 ≤ b.val ∧ b.val ≤ 57) ∨ (97 ≤ b.val ∧ b.val ≤ 102) ∨ (65 ≤ b.val ∧ b.val ≤ 70)

/-- The value of a digit, zero for a byte that is none. -/
def digitVal (b : Byte) : Int :=
  if 48 ≤ b.val ∧ b.val ≤ 57 then (b.val : Int) - 48
  else if 97 ≤ b.val ∧ b.val ≤ 102 then (b.val : Int) - 87
  else if 65 ≤ b.val ∧ b.val ≤ 70 then (b.val : Int) - 55
  else 0

/-- The number that the digits `ds` denote in the given base, after the digits
that gave `code`. -/
def digitsFrom (base : Int) (code : Int) (ds : List Byte) : Int :=
  ds.foldl (fun acc b => base * acc + digitVal b) code

/-- The number that the digits `ds` denote in the given base. -/
def numberValue (base : Int) (ds : List Byte) : Int :=
  digitsFrom base 0 ds

/-- A surrogate code point, which is no character. -/
def isSurrogate (v : Int) : Prop := 0xD800 ≤ v ∧ v ≤ 0xDFFF

instance (b : Byte) : Decidable (isDecDigit b) := by
  unfold isDecDigit
  infer_instance

instance (b : Byte) : Decidable (isHexDigit b) := by
  unfold isHexDigit
  infer_instance

instance (v : Int) : Decidable (isSurrogate v) := by
  unfold isSurrogate
  infer_instance

/-- What a well-formed numbered entity with the number `v`, whose `;` is the byte
before `pos`, makes of the input `inp`, for the outcome `out` of `ScanEntity`:
a number above `MaxRune` gives the empty string and `false`; every other one
gives `true`, the input positioned on `pos`, and the string of the bytes
`encodeRune v`, which `DecodeRuneInString` reads back as the one rune `v`, or,
when `v` is a surrogate, the three bytes of U+FFFD. -/
def numberedOutcome (inp : Input) (out : Option (Input × List Byte × Bool))
    (v : Int) (pos : Nat) : Prop :=
  (MaxRune < v → ∃ i, out = some (i, [], false)) ∧
  (v ≤ MaxRune → ∃ res, out = some (inp.SetPos pos, res, true) ∧
    (inp.SetPos pos).Pos = pos ∧
    (¬ isSurrogate v →
      res = encodeRune v.toNat ∧ DecodeRuneInString res = (v, res.length)) ∧
    (isSurrogate v → res = [0xEF, 0xBF, 0xBD]))

end input

namespace directory

open MetaSpec fileStatus

/-! ## Basic facts about map variables -/

theorem dirMapVar.get_some (dm : dirMap) (zid : ZettelID) :
    dirMapVar.get (some dm) zid = dm.lookup zid := rfl

theorem dirMapVar.set_some (dm : dirMap) (zid : ZettelID) (e : Entry) :
    dirMapVar.set (some dm) zid e = .ok (some (dm.insert zid e)) := rfl

theorem dirMapVar.delete_some (dm : dirMap) (zid : ZettelID) :
    dirMapVar.delete (some dm) zid = some (dm.erase zid) := rfl

theorem dirMapUpdate_some (dm : dirMap) (ev : fileEvent) :
    dirMapUpdate (some dm) ev = .ok (some (dm.insert ev.zid
      ((dm.lookup ev.zid).elim (newEntry ev) (fun de => updateEntry de ev)))) := by
  unfold dirMapUpdate
  rw [dirMapVar.get_some]
  cases dm.lookup ev.zid <;> rfl

theorem String.length_eq_zero_iff_empty (s : String) : s.length = 0 ↔ s = "" := by
  constructor
  · intro h
    obtain ⟨l⟩ := s
    cases l with
    | nil => rfl
    | cons a t => simp [String.length] at h
  · intro h
    subst h
    rfl

/-! ## RenameEntry -/

/-- C1: `RenameEntry(curEntry, newEntry)` sends an `ErrInvalidID` exactly when the
id of `newEntry` is a key of the index; the error then carries that id and the
index is the one before the call, so every id maps as before. -/
theorem C1_rename_collision (m : dirMapVar) (curEntry newEntry : Entry) :
    ((∃ m1 err, cmdRenameEntry.run curEntry newEntry m = .ok (m1, some err))
        ↔ (m.get newEntry.Zid).isSome) ∧
    ((m.get newEntry.Zid).isSome →
      cmdRenameEntry.run curEntry newEntry m = .ok (m, some { Zid := newEntry.Zid })) ∧
    (∀ m1 err, cmdRenameEntry.run curEntry newEntry m = .ok (m1, some err) →
      err.Zid = newEntry.Zid ∧ m1 = m ∧ ∀ zid, m1.get zid = m.get zid) := by
  have key : (m.get newEntry.Zid).isSome →
      cmdRenameEntry.run curEntry newEntry m = .ok (m, some { Zid := newEntry.Zid }) := by
    intro h
    obtain ⟨e, he⟩ := Option.isSome_iff_exists.mp h
    simp [cmdRenameEntry.run, he]
  have nokey : ∀ m1 err, cmdRenameEntry.run curEntry newEntry m = .ok (m1, some err) →
      (m.get newEntry.Zid).isSome := by
    intro m1 err h
    cases hg : m.get newEntry.Zid with
    | some e => rfl
    | none =>
      exfalso
      simp only [cmdRenameEntry.run, hg] at h
      cases hs : (m.delete curEntry.Zid).set newEntry.Zid newEntry with
      | error f => simp [hs] at h
      | ok m2 => simp [hs] at h
  refine ⟨⟨fun ⟨m1, err, h⟩ => nokey m1 err h, fun h => ⟨m, _, key h⟩⟩, key, ?_⟩
  intro m1 err h
  have h2 := key (nokey m1 err h)
  rw [h2] at h
  injection h with h
  injection h with h3 h4
  injection h4 with h4
  subst h3
  subst h4
  exact ⟨rfl, rfl, fun _ => rfl⟩

/-- C2 as stated fails when the old id equals the new id: renaming id 1 to id 1 in
an empty index returns no error, and afterwards the old id 1 has an entry. -/
theorem C2_rename_same_id_counterexample :
    (1 : ZettelID) ∉ dirMap.make ∧
    cmdRenameEntry.run (Entry.zero 1) (Entry.zero 1) (some dirMap.make)
      = .ok (some (dirMap.make.insert 1 (Entry.zero 1)), none) ∧
    (dirMap.make.insert 1 (Entry.zero 1)).lookup 1 = some (Entry.zero 1) :=
  ⟨by decide, rfl, rfl⟩

/-- C2 (amended): when the id `b` of the replacement entry is not a key of `m`,
`RenameEntry(a, e)` sends no error and gives an allocated index in which `b` maps
to exactly `e`, `a` has no entry unless `a = b`, and every other id maps as in `m`. -/
theorem C2_rename_success (m : dirMap) (curEntry newEntry : Entry)
    (hb : newEntry.Zid ∉ m) :
    ∃ m1 : dirMap,
      cmdRenameEntry.run curEntry newEntry (some m) = .ok (some m1, none) ∧
      m1.lookup newEntry.Zid = some newEntry ∧
      (curEntry.Zid ≠ newEntry.Zid → m1.lookup curEntry.Zid = none) ∧
      (∀ zid, zid ≠ curEntry.Zid → zid ≠ newEntry.Zid → m1.lookup zid = m.lookup zid) := by
  refine ⟨(m.erase curEntry.Zid).insert newEntry.Zid newEntry, ?_, ?_, ?_, ?_⟩
  · have hn : m.lookup newEntry.Zid = none := AList.lookup_eq_none.mpr hb
    simp [cmdRenameEntry.run, dirMapVar.get, dirMapVar.set, dirMapVar.delete, hn]
  · exact AList.lookup_insert _
  · intro hne
    rw [AList.lookup_insert_ne hne]
    exact AList.lookup_erase _ _
  · intro zid h1 h2
    rw [AList.lookup_insert_ne h2, AList.lookup_erase_ne h1]

/-- C2 witness: renaming id 1 to id 2 in an index that holds id 1 and id 3. -/
theorem C2_rename_success_witness :
    ∃ m1 : dirMap,
      cmdRenameEntry.run (Entry.zero 1) (Entry.zero 2)
        (some ((dirMap.make.insert 1 (Entry.zero 1)).insert 3 (Entry.zero 3)))
        = .ok (some m1, none) ∧
      m1.lookup (Entry.zero 2).Zid = some (Entry.zero 2) ∧
      ((Entry.zero 1).Zid ≠ (Entry.zero 2).Zid → m1.lookup (Entry.zero 1).Zid = none) ∧
      (∀ zid, zid ≠ (Entry.zero 1).Zid → zid ≠ (Entry.zero 2).Zid →
        m1.lookup zid
          = ((dirMap.make.insert 1 (Entry.zero 1)).insert 3 (Entry.zero 3)).lookup zid) :=
  C2_rename_success ((dirMap.make.insert 1 (Entry.zero 1)).insert 3 (Entry.zero 3))
    (Entry.zero 1) (Entry.zero 2) (by decide)

/-! ## Reload: the shadow index -/

/-- Replaying events on an allocated index never faults and gives an allocated index. -/
theorem applyEvents_some (evs : List fileEvent) :
    ∀ m : dirMap, ∃ m1 : dirMap, applyEvents (some m) evs = .ok (some m1) := by
  induction evs with
  | nil => exact fun m => ⟨m, rfl⟩
  | cons ev rest ih =>
    intro m
    cases hst : ev.status with
    | fileStatusUpdate =>
      obtain ⟨m1, h1⟩ := ih (m.insert ev.zid
        ((m.lookup ev.zid).elim (newEntry ev) (fun de => updateEntry de ev)))
      exact ⟨m1, by simp only [applyEvents, hst, dirMapUpdate_some, h1]⟩
    | fileStatusDelete =>
      obtain ⟨m1, h1⟩ := ih (m.erase ev.zid)
      exact ⟨m1, by simp only [applyEvents, hst, dirMapVar.delete_some, h1]⟩
    | fileStatusReloadStart =>
      obtain ⟨m1, h1⟩ := ih m
      exact ⟨m1, by simp only [applyEvents, hst, h1]⟩
    | fileStatusReloadEnd =>
      obtain ⟨m1, h1⟩ := ih m
      exact ⟨m1, by simp only [applyEvents, hst, h1]⟩
    | fileStatusError =>
      obtain ⟨m1, h1⟩ := ih m
      exact ⟨m1, by simp only [applyEvents, hst, h1]⟩

/-- An id that no update event of the replay names is absent afterwards when it was
absent before. -/
theorem applyEvents_lookup_none (zid : ZettelID) (evs : List fileEvent) :
    ∀ m m1 : dirMap, m.lookup zid = none →
      (∀ ev ∈ evs, ev.status = fileStatusUpdate → ev.zid ≠ zid) →
      applyEvents (some m) evs = .ok (some m1) → m1.lookup zid = none := by
  induction evs with
  | nil =>
    intro m m1 hm _ h
    simp only [applyEvents] at h
    injection h with h
    injection h with h
    subst h
    exact hm
  | cons ev rest ih =>
    intro m m1 hm hevs h
    have hrest : ∀ ev1 ∈ rest, ev1.status = fileStatusUpdate → ev1.zid ≠ zid :=
      fun ev1 h1 => hevs ev1 (List.mem_cons_of_mem _ h1)
    cases hst : ev.status with
    | fileStatusUpdate =>
      simp only [applyEvents, hst, dirMapUpdate_some] at h
      have hne : zid ≠ ev.zid := fun h2 => hevs ev (List.mem_cons_self _ _) hst h2.symm
      exact ih _ m1 (by rw [AList.lookup_insert_ne hne]; exact hm) hrest h
    | fileStatusDelete =>
      simp only [applyEvents, hst, dirMapVar.delete_some] at h
      refine ih _ m1 ?_ hrest h
      by_cases hz : zid = ev.zid
      · rw [hz]
        exact AList.lookup_erase _ _
      · rw [AList.lookup_erase_ne hz]
        exact hm
    | fileStatusReloadStart =>
      simp only [applyEvents, hst] at h
      exact ih m m1 hm hrest h
    | fileStatusReloadEnd =>
      simp only [applyEvents, hst] at h
      exact ih m m1 hm hrest h
    | fileStatusError =>
      simp only [applyEvents, hst] at h
      exact ih m m1 hm hrest h

/-! ## The actor loop over a list of items -/

theorem directoryService.cons_inv (srv : Service) (fuel : Nat) (s s2 : ActorState)
    (item : Item) (rest : List Item) (out : List Effect)
    (h : directoryService srv fuel s (item :: rest) = .ok (s2, out)) :
    ∃ s1 out1 out2, directoryService.step srv fuel s item = .ok (s1, out1) ∧
      directoryService srv fuel s1 rest = .ok (s2, out2) ∧ out = out1 ++ out2 := by
  unfold directoryService at h
  cases h1 : directoryService.step srv fuel s item with
  | error f => simp [h1] at h
  | ok r1 =>
    obtain ⟨s1, out1⟩ := r1
    simp only [h1] at h
    cases h2 : directoryService srv fuel s1 rest with
    | error f => simp [h2] at h
    | ok r2 =>
      obtain ⟨s3, out2⟩ := r2
      simp only [h2] at h
      injection h with h
      injection h with h3 h4
      exact ⟨s1, out1, out2, rfl, by rw [h2, h3], h4.symm⟩

theorem directoryService.cons_ok (srv : Service) (fuel : Nat) (s s1 s2 : ActorState)
    (item : Item) (rest : List Item) (out1 out2 : List Effect)
    (h1 : directoryService.step srv fuel s item = .ok (s1, out1))
    (h2 : directoryService srv fuel s1 rest = .ok (s2, out2)) :
    directoryService srv fuel s (item :: rest) = .ok (s2, out1 ++ out2) := by
  simp only [directoryService, h1, h2]

theorem directoryService.append_inv (srv : Service) (fuel : Nat) (l1 l2 : List Item) :
    ∀ (s s2 : ActorState) (out : List Effect),
      directoryService srv fuel s (l1 ++ l2) = .ok (s2, out) →
      ∃ s1 out1 out2, directoryService srv fuel s l1 = .ok (s1, out1) ∧
        directoryService srv fuel s1 l2 = .ok (s2, out2) ∧ out = out1 ++ out2 := by
  induction l1 with
  | nil => exact fun s s2 out h => ⟨s, [], out, rfl, h, rfl⟩
  | cons item rest ih =>
    intro s s2 out h
    obtain ⟨sa, outa, outb, ha, hb, hab⟩ :=
      directoryService.cons_inv srv fuel s s2 item (rest ++ l2) out h
    obtain ⟨s1, out1, out2, hc, hd, hcd⟩ := ih sa s2 outb hb
    refine ⟨s1, outa ++ out1, out2, directoryService.cons_ok srv fuel s sa s1 item rest
      outa out1 ha hc, hd, ?_⟩
    rw [hab, hcd, List.append_assoc]

theorem directoryService.append_ok (srv : Service) (fuel : Nat) (l1 l2 : List Item) :
    ∀ (s s1 s2 : ActorState) (out1 out2 : List Effect),
      directoryService srv fuel s l1 = .ok (s1, out1) →
      directoryService srv fuel s1 l2 = .ok (s2, out2) →
      directoryService srv fuel s (l1 ++ l2) = .ok (s2, out1 ++ out2) := by
  induction l1 with
  | nil =>
    intro s s1 s2 out1 out2 h1 h2
    simp only [directoryService] at h1
    injection h1 with h1
    injection h1 with ha hb
    subst ha
    subst hb
    exact h2
  | cons item rest ih =>
    intro s s1 s2 out1 out2 h1 h2
    obtain ⟨sa, outa, outb, ha, hb, hab⟩ :=
      directoryService.cons_inv srv fuel s s1 item rest out1 h1
    have := ih sa s1 s2 outb out2 hb h2
    rw [hab, List.append_assoc]
    exact directoryService.cons_ok srv fuel s sa s2 item (rest ++ l2) outa (outb ++ out2) ha this

/-- A command changes neither the shadow index nor the ready flag. -/
theorem directoryService.step_command (srv : Service) (fuel : Nat) (s s1 : ActorState)
    (cmd : dirCmd) (out : List Effect)
    (h : directoryService.step srv fuel s (.command cmd) = .ok (s1, out)) :
    ∃ cm r, cmd.run fuel s.curMap = .ok (cm, r) ∧
      s1 = { s with curMap := cm } ∧ out = [Effect.result r] := by
  unfold directoryService.step at h
  cases hr : cmd.run fuel s.curMap with
  | error f => simp [hr] at h
  | ok r1 =>
    obtain ⟨cm, r⟩ := r1
    simp only [hr] at h
    injection h with h
    injection h with h1 h2
    exact ⟨cm, r, rfl, h1.symm, h2.symm⟩

/-- During a reload the shadow index receives the update and delete events. -/
theorem directoryService.onEvent_reloading (srv : Service) (s : ActorState) (nm : dirMap)
    (ev : fileEvent) (hnm : s.newMap = some nm)
    (hst : ev.status ≠ fileStatusReloadStart ∧ ev.status ≠ fileStatusReloadEnd) :
    ∃ (nm1 : dirMap) (out : List Effect),
      directoryService.onEvent srv s ev = .ok ({ s with newMap := some nm1 }, out) ∧
      applyEvents (some nm) [ev] = .ok (some nm1) := by
  obtain ⟨cm, nm0, rdy⟩ := s
  simp only at hnm
  subst hnm
  cases h : ev.status with
  | fileStatusReloadStart => exact absurd h hst.1
  | fileStatusReloadEnd => exact absurd h hst.2
  | fileStatusError =>
    exact ⟨nm, [Effect.log ev.err], by simp [directoryService.onEvent, h],
      by simp [applyEvents, h]⟩
  | fileStatusUpdate =>
    exact ⟨nm.insert ev.zid ((nm.lookup ev.zid).elim (newEntry ev)
        (fun de => updateEntry de ev)), [],
      by simp [directoryService.onEvent, h, dirMapUpdate_some],
      by simp [applyEvents, h, dirMapUpdate_some]⟩
  | fileStatusDelete =>
    exact ⟨nm.erase ev.zid, [], by simp [directoryService.onEvent, h, dirMapVar.delete],
      by simp [applyEvents, h, dirMapVar.delete]⟩

theorem applyEvents_cons (m : dirMapVar) (ev : fileEvent) (rest : List fileEvent)
    (m1 : dirMapVar) (h : applyEvents m [ev] = .ok m1) :
    applyEvents m (ev :: rest) = applyEvents m1 rest := by
  cases hst : ev.status with
  | fileStatusUpdate =>
    simp only [applyEvents, hst] at h ⊢
    cases hu : dirMapUpdate m ev with
    | error f => simp [hu] at h
    | ok m2 =>
      simp only [hu] at h ⊢
      injection h with h
      rw [h]
  | fileStatusDelete =>
    simp only [applyEvents, hst] at h ⊢
    injection h with h
    rw [h]
  | fileStatusReloadStart =>
    simp only [applyEvents, hst] at h ⊢
    injection h with h
    rw [h]
  | fileStatusReloadEnd =>
    simp only [applyEvents, hst] at h ⊢
    injection h with h
    rw [h]
  | fileStatusError =>
    simp only [applyEvents, hst] at h ⊢
    injection h with h
    rw [h]

/-- From a state with a reload in progress, items other than reload-start and
reload-end leave a reload in progress, and the shadow index is the replay of
their file events on the shadow index at the start. -/
theorem directoryService.shadow (srv : Service) (fuel : Nat) (items : List Item) :
    ∀ (s s1 : ActorState) (nm : dirMap) (out : List Effect), s.newMap = some nm →
      (∀ ev, Item.event ev ∈ items →
        ev.status ≠ fileStatusReloadStart ∧ ev.status ≠ fileStatusReloadEnd) →
      directoryService srv fuel s items = .ok (s1, out) →
      ∃ nm1 : dirMap, s1.newMap = some nm1 ∧
        applyEvents (some nm) (Item.events items) = .ok (some nm1) := by
  induction items with
  | nil =>
    intro s s1 nm out hnm _ h
    simp only [directoryService] at h
    injection h with h
    injection h with h1 h2
    subst h1
    exact ⟨nm, hnm, rfl⟩
  | cons item rest ih =>
    intro s s1 nm out hnm hitems h
    obtain ⟨sa, outa, outb, ha, hb, _⟩ :=
      directoryService.cons_inv srv fuel s s1 item rest out h
    have hrest : ∀ ev, Item.event ev ∈ rest →
        ev.status ≠ fileStatusReloadStart ∧ ev.status ≠ fileStatusReloadEnd :=
      fun ev hev => hitems ev (List.mem_cons_of_mem _ hev)
    cases item with
    | command cmd =>
      obtain ⟨cm, r, _, hs, _⟩ := directoryService.step_command srv fuel s sa cmd outa ha
      have hsa : sa.newMap = some nm := by rw [hs]; exact hnm
      exact ih sa s1 nm outb hsa hrest hb
    | event ev =>
      obtain ⟨nm1, out1, h1, h2⟩ := directoryService.onEvent_reloading srv s nm ev hnm
        (hitems ev (List.mem_cons_self _ _))
      have h3 : directoryService.step srv fuel s (.event ev)
          = .ok ({ s with newMap := some nm1 }, out1) := h1
      rw [h3] at ha
      injection ha with ha
      injection ha with ha1 ha2
      have hsa : sa.newMap = some nm1 := by rw [← ha1]
      obtain ⟨nm2, h4, h5⟩ := ih sa s1 nm1 outb hsa hrest hb
      refine ⟨nm2, h4, ?_⟩
      simp only [Item.events]
      rw [applyEvents_cons (some nm) ev (Item.events rest) (some nm1) h2]
      exact h5

/-! ## NewEntry: the search for a fresh id -/

/-- The loop stops at the first candidate from `k` on that is not a key, when the
fuel reaches that far. -/
theorem cmdNewEntry.loop_eq (gen : Nat → ZettelID) (m : dirMap) :
    ∀ (fuel k j : Nat), k ≤ j → j < k + fuel → gen j ∉ m →
      (∀ i, k ≤ i → i < j → gen i ∈ m) →
      cmdNewEntry.loop gen (some m) fuel k
        = .ok (some (m.insert (gen j) (Entry.zero (gen j))), Entry.zero (gen j)) := by
  intro fuel
  induction fuel with
  | zero => intro k j h1 h2; omega
  | succ n ih =>
    intro k j h1 h2 hj hlt
    by_cases hk : gen k ∈ m
    · have hkj : k ≠ j := fun h => hj (h ▸ hk)
      obtain ⟨e, he⟩ := Option.isSome_iff_exists.mp (AList.lookup_isSome.mpr hk)
      have := ih (k + 1) j (by omega) (by omega) hj (fun i hi1 hi2 => hlt i (by omega) hi2)
      simp only [cmdNewEntry.loop, dirMapVar.get_some, he]
      exact this
    · have hkj : k = j := by
        by_contra hne
        exact hk (hlt k (le_refl k) (by omega))
      subst hkj
      have h : m.lookup (gen k) = none := AList.lookup_eq_none.mpr hk
      simp [cmdNewEntry.loop, dirMapVar.get, dirMapVar.set, h]

/-- When every candidate the fuel reaches is a key, the loop is cut off. -/
theorem cmdNewEntry.loop_out_of_fuel (gen : Nat → ZettelID) (m : dirMap) :
    ∀ (fuel k : Nat), (∀ i, k ≤ i → i < k + fuel → gen i ∈ m) →
      cmdNewEntry.loop gen (some m) fuel k = .error Fault.outOfFuel := by
  intro fuel
  induction fuel with
  | zero => intro k _; rfl
  | succ n ih =>
    intro k h
    obtain ⟨e, he⟩ := Option.isSome_iff_exists.mp
      (AList.lookup_isSome.mpr (h k (le_refl k) (by omega)))
    simp only [cmdNewEntry.loop, dirMapVar.get_some, he]
    exact ih (k + 1) (fun i h1 h2 => h i (by omega) (by omega))

/-- The first candidate that is not a key, when it is among `gen 0 .. gen fuel`, is
the id of the placeholder that `NewEntry` stores and sends. -/
theorem cmdNewEntry.run_eq (gen : Nat → ZettelID) (fuel : Nat) (m : dirMap) (j : Nat)
    (hj : j ≤ fuel) (hfresh : gen j ∉ m) (hfirst : ∀ i, i < j → gen i ∈ m) :
    cmdNewEntry.run gen fuel (some m)
      = .ok (some (m.insert (gen j) (Entry.zero (gen j))), Entry.zero (gen j)) := by
  by_cases h0 : gen 0 ∈ m
  · have hj0 : j ≠ 0 := fun h => hfresh (h ▸ h0)
    obtain ⟨e, he⟩ := Option.isSome_iff_exists.mp (AList.lookup_isSome.mpr h0)
    simp only [cmdNewEntry.run, dirMapVar.get_some, he]
    exact cmdNewEntry.loop_eq gen m fuel 1 j (by omega) (by omega) hfresh
      (fun i _ hi => hfirst i hi)
  · have hj0 : j = 0 := by
      by_contra hne
      exact h0 (hfirst 0 (by omega))
    subst hj0
    have h : m.lookup (gen 0) = none := AList.lookup_eq_none.mpr h0
    simp [cmdNewEntry.run, dirMapVar.get, dirMapVar.set, h]

/-- Without a fresh candidate among `gen 0 .. gen fuel`, `NewEntry` does not return. -/
theorem cmdNewEntry.run_out_of_fuel (gen : Nat → ZettelID) (fuel : Nat) (m : dirMap)
    (h : ∀ i, i ≤ fuel → gen i ∈ m) :
    cmdNewEntry.run gen fuel (some m) = .error Fault.outOfFuel := by
  obtain ⟨e, he⟩ := Option.isSome_iff_exists.mp (AList.lookup_isSome.mpr (h 0 (by omega)))
  simp only [cmdNewEntry.run, dirMapVar.get_some, he]
  exact cmdNewEntry.loop_out_of_fuel gen m fuel 1 (fun i h1 h2 => h i (by omega))

/-- The least index of a fresh candidate, when there is one up to `fuel`. -/
theorem cmdNewEntry.first_fresh (gen : Nat → ZettelID) (fuel : Nat) (m : dirMap)
    (h : ∃ j, j ≤ fuel ∧ gen j ∉ m) :
    ∃ j, j ≤ fuel ∧ gen j ∉ m ∧ ∀ i, i < j → gen i ∈ m := by
  classical
  have h2 : ∃ j, gen j ∉ m := h.elim (fun j hj => ⟨j, hj.2⟩)
  obtain ⟨j, hj1, hj2⟩ := h
  refine ⟨Nat.find h2, le_trans (Nat.find_min' h2 hj2) hj1, Nat.find_spec h2, ?_⟩
  intro i hi
  by_contra hni
  exact Nat.find_min h2 hi hni

/-- Every outcome of `NewEntry` on an allocated index: either the placeholder of the
first fresh candidate, or the loop is cut off and no candidate was fresh. -/
theorem cmdNewEntry.run_cases (gen : Nat → ZettelID) (fuel : Nat) (m : dirMap) :
    (∃ j, j ≤ fuel ∧ gen j ∉ m ∧ (∀ i, i < j → gen i ∈ m) ∧
      cmdNewEntry.run gen fuel (some m)
        = .ok (some (m.insert (gen j) (Entry.zero (gen j))), Entry.zero (gen j))) ∨
    ((∀ i, i ≤ fuel → gen i ∈ m) ∧
      cmdNewEntry.run gen fuel (some m) = .error Fault.outOfFuel) := by
  by_cases h : ∃ j, j ≤ fuel ∧ gen j ∉ m
  · obtain ⟨j, h1, h2, h3⟩ := cmdNewEntry.first_fresh gen fuel m h
    exact Or.inl ⟨j, h1, h2, h3, cmdNewEntry.run_eq gen fuel m j h1 h2 h3⟩
  · have h2 : ∀ i, i ≤ fuel → gen i ∈ m := by
      intro i hi
      by_contra hni
      exact h ⟨i, hi, hni⟩
    exact Or.inr ⟨h2, cmdNewEntry.run_out_of_fuel gen fuel m h2⟩

/-! ## Termination of the commands on an allocated index -/

theorem dirMap.length_insert_le (m : dirMap) (zid : ZettelID) (e : Entry) :
    (m.insert zid e).entries.length ≤ m.entries.length + 1 := by
  rw [AList.insert_entries, List.length_cons]
  exact Nat.succ_le_succ (List.kerase_sublist zid m.entries).length_le

theorem dirMap.length_erase_le (m : dirMap) (zid : ZettelID) :
    (m.erase zid).entries.length ≤ m.entries.length :=
  (List.kerase_sublist zid m.entries).length_le

/-- An injective stream of candidates holds an id that is not a key among its first
`fuel + 1` values, when the index has at most `fuel` keys. -/
theorem dirMap.exists_fresh (gen : Nat → ZettelID) (hgen : Function.Injective gen)
    (m : dirMap) (fuel : Nat) (hlen : m.entries.length ≤ fuel) :
    ∃ j, j ≤ fuel ∧ gen j ∉ m := by
  by_contra hall
  have hsub : (List.range (fuel + 1)).map gen ⊆ m.keys := by
    intro z hz
    obtain ⟨j, hj, rfl⟩ := List.mem_map.mp hz
    have hj2 : j ≤ fuel := Nat.lt_succ_iff.mp (List.mem_range.mp hj)
    by_contra hz2
    exact hall ⟨j, hj2, fun h => hz2 (AList.mem_keys.mp h)⟩
  have hnd : ((List.range (fuel + 1)).map gen).Nodup :=
    List.Nodup.map hgen (List.nodup_range _)
  have hle := (List.subperm_of_subset hnd hsub).length_le
  have hk : m.keys.length = m.entries.length := by
    simp [AList.keys, List.keys]
  rw [List.length_map, List.length_range, hk] at hle
  omega

/-- On an allocated index with at most `fuel` keys every command returns, `NewEntry`
when its candidates are pairwise distinct; the index stays allocated and grows
by at most one key. -/
theorem dirCmd_run_completes (fuel : Nat) (cm : dirMap) (cmd : dirCmd)
    (hgen : ∀ gen, cmd = .cmdNewEntry gen → Function.Injective gen)
    (hlen : cm.entries.length ≤ fuel) :
    ∃ (cm1 : dirMap) (r : Reply), cmd.run fuel (some cm) = .ok (some cm1, r) ∧
      cm1.entries.length ≤ cm.entries.length + 1 := by
  cases cmd with
  | cmdGetEntries => exact ⟨cm, _, rfl, Nat.le_succ _⟩
  | cmdGetEntry zid =>
    cases h : cm.lookup zid with
    | none =>
      exact ⟨cm, Reply.resGetEntry (Entry.zero InvalidZettelID),
        by simp [dirCmd.run, cmdGetEntry.run, dirMapVar.get, h, Except.map], Nat.le_succ _⟩
    | some e =>
      exact ⟨cm, Reply.resGetEntry e,
        by simp [dirCmd.run, cmdGetEntry.run, dirMapVar.get, h, Except.map], Nat.le_succ _⟩
  | cmdNewEntry gen =>
    obtain ⟨j, h1, h2, h3⟩ := cmdNewEntry.first_fresh gen fuel cm
      (dirMap.exists_fresh gen (hgen gen rfl) cm fuel hlen)
    exact ⟨cm.insert (gen j) (Entry.zero (gen j)), Reply.resNewEntry (Entry.zero (gen j)),
      by simp [dirCmd.run, cmdNewEntry.run_eq gen fuel cm j h1 h2 h3, Except.map],
      dirMap.length_insert_le _ _ _⟩
  | cmdUpdateEntry entry =>
    exact ⟨cm.insert entry.Zid entry, Reply.resUpdateEntry,
      by simp [dirCmd.run, cmdUpdateEntry.run, dirMapVar.set, Except.map],
      dirMap.length_insert_le _ _ _⟩
  | cmdRenameEntry curEntry newEntry =>
    cases h : cm.lookup newEntry.Zid with
    | some e =>
      exact ⟨cm, Reply.resRenameEntry (some { Zid := newEntry.Zid }),
        by simp [dirCmd.run, cmdRenameEntry.run, dirMapVar.get, h, Except.map],
        Nat.le_succ _⟩
    | none =>
      exact ⟨(cm.erase curEntry.Zid).insert newEntry.Zid newEntry, Reply.resRenameEntry none,
        by simp [dirCmd.run, cmdRenameEntry.run, dirMapVar.get, dirMapVar.set,
          dirMapVar.delete, h, Except.map],
        le_trans (dirMap.length_insert_le _ _ _)
          (Nat.succ_le_succ (dirMap.length_erase_le _ _))⟩
  | cmdDeleteEntry zid =>
    exact ⟨cm.erase zid, Reply.resDeleteEntry,
      by simp [dirCmd.run, cmdDeleteEntry.run, dirMapVar.delete, Except.map],
      le_trans (dirMap.length_erase_le _ _) (Nat.le_succ _)⟩

/-- One iteration on an allocated current index with at most `fuel` keys completes
for every item but a reload-end; the current index stays allocated, grows by at
most one key, and a reload in progress stays in progress. -/
theorem directoryService.step_completes (srv : Service) (fuel : Nat) (s : ActorState)
    (cm : dirMap) (item : Item) (hcm : s.curMap = some cm)
    (hend : ∀ ev, item = .event ev → ev.status ≠ fileStatusReloadEnd)
    (hgen : ∀ gen, item = .command (.cmdNewEntry gen) → Function.Injective gen)
    (hlen : cm.entries.length ≤ fuel) :
    ∃ (s1 : ActorState) (out : List Effect) (cm1 : dirMap),
      directoryService.step srv fuel s item = .ok (s1, out) ∧ s1.curMap = some cm1 ∧
      cm1.entries.length ≤ cm.entries.length + 1 ∧
      (s.newMap ≠ none → s1.newMap ≠ none) := by
  obtain ⟨cm0, nm0, rdy⟩ := s
  simp only at hcm
  subst hcm
  cases item with
  | command cmd =>
    obtain ⟨cm1, r, h1, h2⟩ := dirCmd_run_completes fuel cm cmd
      (fun gen h => hgen gen (by rw [h])) hlen
    refine ⟨ActorState.mk (some cm1) nm0 rdy, [Effect.result r], cm1, ?_, rfl, h2,
      fun h => h⟩
    simp only [directoryService.step, h1]
  | event ev =>
    cases h : ev.status with
    | fileStatusReloadEnd => exact absurd h (hend ev rfl)
    | fileStatusReloadStart =>
      refine ⟨ActorState.mk (some cm) (some dirMap.make) rdy, [], cm, ?_, rfl,
        Nat.le_succ _, fun _ => by simp⟩
      simp only [directoryService.step, directoryService.onEvent, h]
    | fileStatusError =>
      refine ⟨ActorState.mk (some cm) nm0 rdy, [Effect.log ev.err], cm, ?_, rfl,
        Nat.le_succ _, fun h => h⟩
      simp only [directoryService.step, directoryService.onEvent, h]
    | fileStatusUpdate =>
      cases nm0 with
      | some nm =>
        refine ⟨ActorState.mk (some cm) (some (nm.insert ev.zid
          ((nm.lookup ev.zid).elim (newEntry ev) (fun de => updateEntry de ev)))) rdy, [],
          cm, ?_, rfl, Nat.le_succ _, fun _ => by simp⟩
        simp only [directoryService.step, directoryService.onEvent, h, dirMapUpdate_some]
      | none =>
        refine ⟨ActorState.mk (some (cm.insert ev.zid
          ((cm.lookup ev.zid).elim (newEntry ev) (fun de => updateEntry de ev)))) none rdy,
          srv.notifyChange false ev.zid, _, ?_, rfl, dirMap.length_insert_le _ _ _,
          fun h => absurd rfl h⟩
        simp only [directoryService.step, directoryService.onEvent, h, dirMapUpdate_some]
    | fileStatusDelete =>
      cases nm0 with
      | some nm =>
        refine ⟨ActorState.mk (some cm) (some (nm.erase ev.zid)) rdy, [], cm, ?_, rfl,
          Nat.le_succ _, fun _ => by simp⟩
        simp only [directoryService.step, directoryService.onEvent, h, dirMapVar.delete]
      | none =>
        refine ⟨ActorState.mk (some (cm.erase ev.zid)) none rdy,
          srv.notifyChange false ev.zid, cm.erase ev.zid, ?_, rfl,
          le_trans (dirMap.length_erase_le _ _) (Nat.le_succ _), fun h => absurd rfl h⟩
        simp only [directoryService.step, directoryService.onEvent, h, dirMapVar.delete]

/-- The loop completes on every list of items without a reload-end, from an
allocated current index, when the candidates of every `NewEntry` are pairwise
distinct and the fuel covers the keys at the start plus one for every item. -/
theorem directoryService.completes (srv : Service) (fuel : Nat) (items : List Item) :
    ∀ (s : ActorState) (cm : dirMap), s.curMap = some cm →
      (∀ ev, Item.event ev ∈ items → ev.status ≠ fileStatusReloadEnd) →
      (∀ gen, Item.command (.cmdNewEntry gen) ∈ items → Function.Injective gen) →
      cm.entries.length + items.length ≤ fuel →
      ∃ (s1 : ActorState) (out : List Effect) (cm1 : dirMap),
        directoryService srv fuel s items = .ok (s1, out) ∧ s1.curMap = some cm1 ∧
        (s.newMap ≠ none → s1.newMap ≠ none) := by
  induction items with
  | nil => exact fun s cm hcm _ _ _ => ⟨s, [], cm, rfl, hcm, fun h => h⟩
  | cons item rest ih =>
    intro s cm hcm hend hgen hlen
    rw [List.length_cons] at hlen
    obtain ⟨sa, outa, cma, h1, h2, h3, h4⟩ := directoryService.step_completes srv fuel s cm
      item hcm (fun ev h => hend ev (by rw [h]; exact List.mem_cons_self _ _))
      (fun gen h => hgen gen (by rw [h]; exact List.mem_cons_self _ _)) (by omega)
    obtain ⟨s1, out1, cm1, h5, h6, h7⟩ := ih sa cma h2
      (fun ev h => hend ev (List.mem_cons_of_mem _ h))
      (fun gen h => hgen gen (List.mem_cons_of_mem _ h)) (by omega)
    exact ⟨s1, outa ++ out1, cm1,
      directoryService.cons_ok srv fuel s sa s1 item rest outa out1 h1 h5, h6,
      fun h => h7 (h4 h)⟩

/-- C3: while a reload is in progress (`newMap` is not `nil`), an update or delete
event is applied without fault and leaves the current index as it is, so
`GetEntry` for every id and `GetEntries` answer as before the event; the reload
is still in progress afterwards. -/
theorem C3_event_during_reload_keeps_current (srv : Service) (fuel : Nat) (s : ActorState)
    (ev : fileEvent) (hre : s.newMap ≠ none)
    (hev : ev.status = fileStatusUpdate ∨ ev.status = fileStatusDelete) :
    ∃ s1 out, directoryService.step srv fuel s (.event ev) = .ok (s1, out) ∧
      s1.curMap = s.curMap ∧
      (∀ zid, cmdGetEntry.run zid s1.curMap = cmdGetEntry.run zid s.curMap) ∧
      cmdGetEntries.run s1.curMap = cmdGetEntries.run s.curMap ∧
      s1.newMap ≠ none := by
  obtain ⟨cm, nm, rdy⟩ := s
  cases nm with
  | none => exact absurd rfl hre
  | some nm =>
    rcases hev with h | h
    · refine ⟨ActorState.mk cm (some (nm.insert ev.zid
          ((nm.lookup ev.zid).elim (newEntry ev) (fun de => updateEntry de ev)))) rdy,
          [], ?_, rfl, fun _ => rfl, rfl, by simp⟩
      simp [directoryService.step, directoryService.onEvent, h, dirMapUpdate_some]
    · refine ⟨ActorState.mk cm (some (nm.erase ev.zid)) rdy, [],
        ?_, rfl, fun _ => rfl, rfl, by simp⟩
      simp [directoryService.step, directoryService.onEvent, h, dirMapVar.delete]

/-- C3 witness: during a reload with id 1 in the current index, an update event for
`2.md` leaves the current index alone. -/
theorem C3_event_during_reload_witness :
    ∃ s1 out, directoryService.step { changeFuncs := [0] } 0
        { curMap := some (dirMap.make.insert 1 (Entry.zero 1)), newMap := some dirMap.make,
          ready := false }
        (.event (fileEvent.mk fileStatusUpdate "2.md" 2 "md" ""))
        = .ok (s1, out) ∧
      s1.curMap = some (dirMap.make.insert 1 (Entry.zero 1)) ∧
      (∀ zid, cmdGetEntry.run zid s1.curMap
        = cmdGetEntry.run zid (some (dirMap.make.insert 1 (Entry.zero 1)))) ∧
      cmdGetEntries.run s1.curMap
        = cmdGetEntries.run (some (dirMap.make.insert 1 (Entry.zero 1))) ∧
      s1.newMap ≠ none :=
  C3_event_during_reload_keeps_current { changeFuncs := [0] } 0
    { curMap := some (dirMap.make.insert 1 (Entry.zero 1)), newMap := some dirMap.make,
      ready := false }
    (fileEvent.mk fileStatusUpdate "2.md" 2 "md" "")
    (by simp) (Or.inl rfl)

/-! ## File events on one entry: `updateEntry` -/

/-- C8: when the entry has a content extension already and the event brings another
one (not `meta`), `updateEntry` sets `Duplicates` and keeps every other field:
the first extension wins. -/
theorem C8_second_extension_sets_duplicates (de : Entry) (ev : fileEvent)
    (hext : de.ContentExt ≠ "") (hmeta : ev.ext ≠ "meta") (hne : ev.ext ≠ de.ContentExt) :
    (updateEntry de ev).Duplicates = true ∧
    (updateEntry de ev).Zid = de.Zid ∧
    (updateEntry de ev).MetaSpec = de.MetaSpec ∧
    (updateEntry de ev).MetaPath = de.MetaPath ∧
    (updateEntry de ev).ContentPath = de.ContentPath ∧
    (updateEntry de ev).ContentExt = de.ContentExt := by
  have hlen : de.ContentExt.length ≠ 0 := fun h =>
    hext ((String.length_eq_zero_iff_empty _).mp h)
  have hne2 : de.ContentExt ≠ ev.ext := fun h => hne h.symm
  simp [updateEntry, hmeta, hlen, hne2]

/-- C8 witness: the entry of `1.md` receives an event for `1.txt`. -/
theorem C8_second_extension_witness :
    let de : Entry := (Entry.mk 1 MetaSpecNone "" "1.md" "md" false)
    let ev : fileEvent :=
      (fileEvent.mk fileStatusUpdate "1.txt" 1 "txt" "")
    (updateEntry de ev).Duplicates = true ∧
    (updateEntry de ev).Zid = de.Zid ∧
    (updateEntry de ev).MetaSpec = de.MetaSpec ∧
    (updateEntry de ev).MetaPath = de.MetaPath ∧
    (updateEntry de ev).ContentPath = de.ContentPath ∧
    (updateEntry de ev).ContentExt = de.ContentExt :=
  C8_second_extension_sets_duplicates
    (Entry.mk 1 MetaSpecNone "" "1.md" "md" false)
    (fileEvent.mk fileStatusUpdate "1.txt" 1 "txt" "")
    (by decide) (by decide) (by decide)

/-- C9: when the entry has no content extension yet and the event is not for a
`meta` file, `updateEntry` takes the event's path and extension as content path
and extension and keeps `Zid`, `MetaPath` and `Duplicates`; `MetaSpec` stays
`MetaSpecFile` when it was that, and otherwise becomes `MetaSpecHeader` for the
extension `zettel` and `MetaSpecNone` for any other.  In particular, for an id
absent from the index, the events `X.meta` then `X.md` applied by `dirMapUpdate`
make `GetEntry(X)` answer with `MetaSpecFile`, extension `md`, no duplicates. -/
theorem C9_first_content_extension :
    (∀ (de : Entry) (ev : fileEvent), de.ContentExt = "" → ev.ext ≠ "meta" →
      (updateEntry de ev).ContentPath = ev.path ∧
      (updateEntry de ev).ContentExt = ev.ext ∧
      (updateEntry de ev).MetaPath = de.MetaPath ∧
      (updateEntry de ev).Duplicates = de.Duplicates ∧
      (updateEntry de ev).Zid = de.Zid ∧
      (de.MetaSpec = MetaSpecFile → (updateEntry de ev).MetaSpec = MetaSpecFile) ∧
      (de.MetaSpec ≠ MetaSpecFile → ev.ext = "zettel" →
        (updateEntry de ev).MetaSpec = MetaSpecHeader) ∧
      (de.MetaSpec ≠ MetaSpecFile → ev.ext ≠ "zettel" →
        (updateEntry de ev).MetaSpec = MetaSpecNone)) ∧
    (∀ (m : dirMap) (evMeta evMd : fileEvent), evMeta.zid ∉ m →
      evMd.zid = evMeta.zid → evMeta.ext = "meta" → evMd.ext = "md" →
      ∃ m1 m2 e,
        dirMapUpdate (some m) evMeta = .ok m1 ∧ dirMapUpdate m1 evMd = .ok m2 ∧
        cmdGetEntry.run evMeta.zid m2 = .ok (m2, e) ∧
        e.Zid = evMeta.zid ∧ e.MetaSpec = MetaSpecFile ∧ e.MetaPath = evMeta.path ∧
        e.ContentPath = evMd.path ∧ e.ContentExt = "md" ∧ e.Duplicates = false) := by
  constructor
  · intro de ev hext hmeta
    have hlen : ¬ (de.ContentExt.length ≠ 0 ∧ de.ContentExt ≠ ev.ext) := by
      rw [hext]
      simp
    refine ⟨?_, ?_, ?_, ?_, ?_, ?_, ?_, ?_⟩ <;>
      (simp only [updateEntry, if_neg hmeta, if_neg hlen]; try split_ifs <;> simp_all)
  · intro m evMeta evMd hnot hzid hmeta hmd
    have hl : m.lookup evMeta.zid = none := AList.lookup_eq_none.mpr hnot
    refine ⟨_, _, updateEntry (newEntry evMeta) evMd, dirMapUpdate_some m evMeta,
      dirMapUpdate_some _ evMd, ?_, ?_⟩
    · have h1 : (m.insert evMeta.zid (newEntry evMeta)).lookup evMd.zid
          = some (newEntry evMeta) := by
        rw [hzid]
        exact AList.lookup_insert _
      simp [cmdGetEntry.run, dirMapVar.get_some, hl, h1, hzid, AList.lookup_insert]
    · simp [newEntry, updateEntry, hmeta, hmd, Entry.zero]

/-- C9 witness: a fresh entry receives `1.zettel`; and the events `1.meta`, `1.md`
arrive for the id 1 in an empty index. -/
theorem C9_first_content_extension_witness :
    ((updateEntry (Entry.zero 1)
        (fileEvent.mk fileStatusUpdate "1.zettel" 1 "zettel" "")).MetaSpec = MetaSpecHeader) ∧
    (∃ m1 m2 e,
      dirMapUpdate (some dirMap.make)
        (fileEvent.mk fileStatusUpdate "1.meta" 1 "meta" "")
        = .ok m1 ∧
      dirMapUpdate m1
        (fileEvent.mk fileStatusUpdate "1.md" 1 "md" "")
        = .ok m2 ∧
      cmdGetEntry.run 1 m2 = .ok (m2, e) ∧
      e.Zid = 1 ∧ e.MetaSpec = MetaSpecFile ∧ e.MetaPath = "1.meta" ∧
      e.ContentPath = "1.md" ∧ e.ContentExt = "md" ∧ e.Duplicates = false) :=
  ⟨(C9_first_content_extension.1 (Entry.zero 1)
      (fileEvent.mk fileStatusUpdate "1.zettel" 1 "zettel" "")
      rfl (by decide)).2.2.2.2.2.2.1 (by decide) rfl,
   C9_first_content_extension.2 dirMap.make
      (fileEvent.mk fileStatusUpdate "1.meta" 1 "meta" "")
      (fileEvent.mk fileStatusUpdate "1.md" 1 "md" "")
      (by decide) rfl rfl rfl⟩

/-- C10: for an event with the extension `meta`, `updateEntry` sets `MetaSpec` to
`MetaSpecFile` and `MetaPath` to the event's path and keeps every other field. -/
theorem C10_meta_event (de : Entry) (ev : fileEvent) (hmeta : ev.ext = "meta") :
    updateEntry de ev = { de with MetaSpec := MetaSpecFile, MetaPath := ev.path } ∧
    (updateEntry de ev).MetaSpec = MetaSpecFile ∧
    (updateEntry de ev).MetaPath = ev.path ∧
    (updateEntry de ev).Zid = de.Zid ∧
    (updateEntry de ev).ContentPath = de.ContentPath ∧
    (updateEntry de ev).ContentExt = de.ContentExt ∧
    (updateEntry de ev).Duplicates = de.Duplicates := by
  simp [updateEntry, hmeta]

/-- C10 witness: the entry of `1.md`, marked as duplicated, receives `1.meta`. -/
theorem C10_meta_event_witness :
    let de : Entry := (Entry.mk 1 MetaSpecNone "" "1.md" "md" true)
    let ev : fileEvent :=
      (fileEvent.mk fileStatusUpdate "1.meta" 1 "meta" "")
    updateEntry de ev = { de with MetaSpec := MetaSpecFile, MetaPath := ev.path } ∧
    (updateEntry de ev).MetaSpec = MetaSpecFile ∧
    (updateEntry de ev).MetaPath = ev.path ∧
    (updateEntry de ev).Zid = de.Zid ∧
    (updateEntry de ev).ContentPath = de.ContentPath ∧
    (updateEntry de ev).ContentExt = de.ContentExt ∧
    (updateEntry de ev).Duplicates = de.Duplicates :=
  C10_meta_event
    (Entry.mk 1 MetaSpecNone "" "1.md" "md" true)
    (fileEvent.mk fileStatusUpdate "1.meta" 1 "meta" "") rfl

/-- A reload-end installs the shadow index as the current one, whatever the state. -/
theorem directoryService.step_reloadEnd (srv : Service) (fuel : Nat) (s : ActorState)
    (ev : fileEvent) (h : ev.status = fileStatusReloadEnd) :
    ∃ out, directoryService.step srv fuel s (.event ev)
      = .ok (ActorState.mk s.newMap none false, out) := by
  obtain ⟨cm, nm, rdy⟩ := s
  cases rdy with
  | true =>
    exact ⟨Effect.ready (dirMapVar.len nm) :: srv.notifyChange true InvalidZettelID,
      by simp [directoryService.step, directoryService.onEvent, h]⟩
  | false =>
    exact ⟨srv.notifyChange true InvalidZettelID,
      by simp [directoryService.step, directoryService.onEvent, h]⟩

theorem directoryService.step_reloadStart (srv : Service) (fuel : Nat) (s : ActorState)
    (ev : fileEvent) (h : ev.status = fileStatusReloadStart) :
    directoryService.step srv fuel s (.event ev)
      = .ok (ActorState.mk s.curMap (some dirMap.make) s.ready, []) := by
  simp [directoryService.step, directoryService.onEvent, h]

/-- C4: for every state and every list of items without reload-start and reload-end
(update, delete and error events and commands), placed between a reload-start
and a reload-end: the replay of the list's update and delete events on an empty
index gives an index `idx`; whenever the actor gets through the reload,
the current index is `idx` and no reload is in progress; an id that no update
event of the list names is not a key of `idx`, whatever the earlier index held
and whatever the commands did meanwhile.  The actor does get through when the
current index is allocated, the candidates of every `NewEntry` are pairwise
distinct and the fuel covers the keys at the start plus one for every item. -/
theorem C4_reload_end_installs_replay (srv : Service) (fuel : Nat) (s : ActorState)
    (evStart evEnd : fileEvent) (items : List Item)
    (hStart : evStart.status = fileStatusReloadStart)
    (hEnd : evEnd.status = fileStatusReloadEnd)
    (hitems : ∀ ev, Item.event ev ∈ items →
      ev.status ≠ fileStatusReloadStart ∧ ev.status ≠ fileStatusReloadEnd) :
    ∃ idx : dirMap,
      applyEvents (some dirMap.make) (Item.events items) = .ok (some idx) ∧
      (∀ s1 out,
        directoryService srv fuel s (.event evStart :: items ++ [.event evEnd]) = .ok (s1, out) →
        s1.curMap = some idx ∧ s1.newMap = none) ∧
      (∀ zid, (∀ ev ∈ Item.events items, ev.status = fileStatusUpdate → ev.zid ≠ zid) →
        idx.lookup zid = none) ∧
      (s.curMap ≠ none →
        (∀ gen, Item.command (.cmdNewEntry gen) ∈ items → Function.Injective gen) →
        s.curMap.len + items.length ≤ fuel →
        ∃ s1 out,
          directoryService srv fuel s (.event evStart :: items ++ [.event evEnd])
            = .ok (s1, out)) := by
  obtain ⟨idx, hidx⟩ := applyEvents_some (Item.events items) dirMap.make
  have hs0 := directoryService.step_reloadStart srv fuel s evStart hStart
  refine ⟨idx, hidx, ?_, ?_, ?_⟩
  · intro s1 out hrun
    obtain ⟨sa, outa, outb, ha, hb, _⟩ :=
      directoryService.cons_inv srv fuel s s1 _ _ out hrun
    rw [hs0] at ha
    injection ha with ha
    injection ha with ha1 _
    obtain ⟨sb, outc, outd, hc, hd, _⟩ :=
      directoryService.append_inv srv fuel items [.event evEnd] sa s1 outb hb
    have hsa : sa.newMap = some dirMap.make := by rw [← ha1]
    obtain ⟨nm1, hn1, hn2⟩ :=
      directoryService.shadow srv fuel items sa sb dirMap.make outc hsa hitems hc
    rw [hidx] at hn2
    injection hn2 with hn2
    injection hn2 with hn2
    obtain ⟨se, oute, outf, he, hf, _⟩ :=
      directoryService.cons_inv srv fuel sb s1 _ _ outd hd
    obtain ⟨outg, hg⟩ := directoryService.step_reloadEnd srv fuel sb evEnd hEnd
    rw [hg] at he
    injection he with he
    injection he with he1 _
    simp only [directoryService] at hf
    injection hf with hf
    injection hf with hf1 _
    rw [← hf1, ← he1, hn1, hn2]
    exact ⟨rfl, rfl⟩
  · intro zid hz
    exact applyEvents_lookup_none zid (Item.events items) dirMap.make idx
      (AList.lookup_empty zid) hz hidx
  · intro hcur hgen hlen
    cases hcm : s.curMap with
    | none => exact absurd hcm hcur
    | some cm =>
      rw [hcm] at hlen
      obtain ⟨sb, outb, cmb, hb, _, _⟩ := directoryService.completes srv fuel items
        (ActorState.mk s.curMap (some dirMap.make) s.ready) cm hcm
        (fun ev h => (hitems ev h).2) hgen hlen
      obtain ⟨outg, hg⟩ := directoryService.step_reloadEnd srv fuel sb evEnd hEnd
      have hlast : directoryService srv fuel sb [.event evEnd]
          = .ok (ActorState.mk sb.newMap none false, outg ++ []) :=
        directoryService.cons_ok srv fuel sb _ _ _ [] outg [] hg rfl
      exact ⟨_, _, directoryService.cons_ok srv fuel s _ _ _ _ [] _ hs0
        (directoryService.append_ok srv fuel items [.event evEnd] _ sb _ outb _ hb hlast)⟩

/-! ## Ids are kept by everything but delete, rename and reload -/

theorem updateEntry_Zid (de : Entry) (ev : fileEvent) : (updateEntry de ev).Zid = de.Zid := by
  unfold updateEntry
  split_ifs <;> rfl

theorem newEntryIds_append (out1 out2 : List Effect) :
    newEntryIds (out1 ++ out2) = newEntryIds out1 ++ newEntryIds out2 := by
  induction out1 with
  | nil => rfl
  | cons eff rest ih =>
    cases eff with
    | call f a z => simpa [newEntryIds] using ih
    | ready n => simpa [newEntryIds] using ih
    | log err => simpa [newEntryIds] using ih
    | result r => cases r <;> simpa [newEntryIds] using ih

theorem newEntryIds_notifyChange (srv : Service) (all : Bool) (zid : ZettelID) :
    newEntryIds (srv.notifyChange all zid) = [] := by
  unfold Service.notifyChange
  induction srv.changeFuncs with
  | nil => rfl
  | cons f rest ih => simpa [newEntryIds] using ih

/-- A store keeps every key; an entry that carried its own id still does, when the
entry stored under that key carries it too. -/
theorem dirMap.insert_keeps (m : dirMap) (k : ZettelID) (v : Entry)
    (zid : ZettelID) (e : Entry) (he : m.lookup zid = some e)
    (hv : zid = k → e.Zid = zid → v.Zid = k) :
    ∃ e1, (m.insert k v).lookup zid = some e1 ∧ (e.Zid = zid → e1.Zid = zid) := by
  by_cases h : zid = k
  · have hvk := hv h
    subst h
    exact ⟨v, AList.lookup_insert _, hvk⟩
  · exact ⟨e, by rw [AList.lookup_insert_ne h]; exact he, fun hz => hz⟩

/-- One iteration for an item that is no delete, rename or reload marker keeps
every key of the current index, and an entry that carried its own id still does;
a `NewEntry` sends one id, which was not a key and is one afterwards, and no
other item sends a new id. -/
theorem directoryService.step_keepsIds (srv : Service) (fuel : Nat) (s s1 : ActorState)
    (item : Item) (out : List Effect) (hk : item.keepsIds = true)
    (h : directoryService.step srv fuel s item = .ok (s1, out)) :
    (∀ zid e, s.curMap.get zid = some e →
      ∃ e1, s1.curMap.get zid = some e1 ∧ (e.Zid = zid → e1.Zid = zid)) ∧
    ((newEntryIds out = [] ∧ item.isNewEntry = false) ∨
      (∃ z, newEntryIds out = [z] ∧ item.isNewEntry = true ∧ s.curMap.get z = none ∧
        s1.curMap.get z = some (Entry.zero z))) := by
  obtain ⟨cm0, nm0, rdy⟩ := s
  cases item with
  | event ev =>
    cases hst : ev.status with
    | fileStatusReloadStart => simp [Item.keepsIds, hst] at hk
    | fileStatusReloadEnd => simp [Item.keepsIds, hst] at hk
    | fileStatusDelete => simp [Item.keepsIds, hst] at hk
    | fileStatusError =>
      simp only [directoryService.step, directoryService.onEvent, hst] at h
      injection h with h
      injection h with h1 h2
      subst h1
      subst h2
      exact ⟨fun zid e he => ⟨e, he, fun hz => hz⟩, Or.inl ⟨rfl, rfl⟩⟩
    | fileStatusUpdate =>
      cases nm0 with
      | some nm =>
        simp only [directoryService.step, directoryService.onEvent, hst,
          dirMapUpdate_some] at h
        injection h with h
        injection h with h1 h2
        subst h1
        subst h2
        exact ⟨fun zid e he => ⟨e, he, fun hz => hz⟩, Or.inl ⟨rfl, rfl⟩⟩
      | none =>
        cases cm0 with
        | none =>
          simp [directoryService.step, directoryService.onEvent, hst, dirMapUpdate,
            dirMapVar.get, dirMapVar.set] at h
        | some cm =>
          simp only [directoryService.step, directoryService.onEvent, hst,
            dirMapUpdate_some] at h
          injection h with h
          injection h with h1 h2
          subst h1
          subst h2
          refine ⟨?_, Or.inl ⟨newEntryIds_notifyChange srv false ev.zid, rfl⟩⟩
          intro zid e he
          refine dirMap.insert_keeps cm ev.zid _ zid e he ?_
          intro hzz hz
          subst hzz
          simp only [dirMapVar.get] at he
          rw [he]
          simp only [Option.elim, updateEntry_Zid]
          exact hz
  | command cmd =>
    obtain ⟨cm, r, hrun, hs, hout⟩ := directoryService.step_command srv fuel _ s1 cmd out h
    subst hs
    subst hout
    simp only at hrun ⊢
    cases cmd with
    | cmdDeleteEntry zid => simp [Item.keepsIds] at hk
    | cmdRenameEntry curEntry newEntry => simp [Item.keepsIds] at hk
    | cmdGetEntries =>
      have hcm : cm = cm0 ∧ ∃ es, r = Reply.resGetEntries es := by
        cases cm0 <;>
          · simp only [dirCmd.run, cmdGetEntries.run, Except.map] at hrun
            injection hrun with hrun
            injection hrun with h1 h2
            exact ⟨h1.symm, _, h2.symm⟩
      obtain ⟨h1, es, h2⟩ := hcm
      subst h1
      subst h2
      exact ⟨fun zid e he => ⟨e, he, fun hz => hz⟩, Or.inl ⟨rfl, rfl⟩⟩
    | cmdGetEntry zid0 =>
      have hcm : cm = cm0 ∧ ∃ e0, r = Reply.resGetEntry e0 := by
        simp only [dirCmd.run, cmdGetEntry.run] at hrun
        cases hg : dirMapVar.get cm0 zid0 <;>
          · simp only [hg, Except.map] at hrun
            injection hrun with hrun
            injection hrun with h1 h2
            exact ⟨h1.symm, _, h2.symm⟩
      obtain ⟨h1, e0, h2⟩ := hcm
      subst h1
      subst h2
      exact ⟨fun zid e he => ⟨e, he, fun hz => hz⟩, Or.inl ⟨rfl, rfl⟩⟩
    | cmdUpdateEntry entry =>
      cases cm0 with
      | none => simp [dirCmd.run, cmdUpdateEntry.run, dirMapVar.set, Except.map] at hrun
      | some m =>
        simp only [dirCmd.run, cmdUpdateEntry.run, dirMapVar.set, Except.map] at hrun
        injection hrun with hrun
        injection hrun with h1 h2
        subst h1
        subst h2
        exact ⟨fun zid e he => dirMap.insert_keeps m entry.Zid entry zid e he
          (fun _ _ => rfl), Or.inl ⟨rfl, rfl⟩⟩
    | cmdNewEntry gen =>
      cases cm0 with
      | none =>
        simp [dirCmd.run, cmdNewEntry.run, dirMapVar.get, dirMapVar.set, Except.map] at hrun
      | some m =>
        simp only [dirCmd.run] at hrun
        rcases cmdNewEntry.run_cases gen fuel m with ⟨j, _, hj2, _, hj4⟩ | ⟨_, hf⟩
        · rw [hj4] at hrun
          simp only [Except.map] at hrun
          injection hrun with hrun
          injection hrun with h1 h2
          subst h1
          subst h2
          refine ⟨?_, Or.inr ⟨gen j, rfl, rfl, AList.lookup_eq_none.mpr hj2,
            AList.lookup_insert _⟩⟩
          intro zid e he
          exact dirMap.insert_keeps m (gen j) _ zid e he (fun _ _ => rfl)
        · rw [hf] at hrun
          simp [Except.map] at hrun

/-- Over a list of items without delete, rename and reload markers: every key of
the current index stays one, the ids sent by the `NewEntry` commands are
pairwise distinct, as many as there are `NewEntry` commands, were not keys at
the start and are keys at the end, of entries that carry them. -/
theorem directoryService.keepsIds (srv : Service) (fuel : Nat) (items : List Item) :
    ∀ (s s1 : ActorState) (out : List Effect), (∀ it ∈ items, Item.keepsIds it = true) →
      directoryService srv fuel s items = .ok (s1, out) →
      (∀ zid e, s.curMap.get zid = some e →
        ∃ e1, s1.curMap.get zid = some e1 ∧ (e.Zid = zid → e1.Zid = zid)) ∧
      (newEntryIds out).Nodup ∧
      (newEntryIds out).length = (items.filter Item.isNewEntry).length ∧
      (∀ z ∈ newEntryIds out, s.curMap.get z = none ∧
        ∃ e1, s1.curMap.get z = some e1 ∧ e1.Zid = z) := by
  induction items with
  | nil =>
    intro s s1 out _ h
    simp only [directoryService] at h
    injection h with h
    injection h with h1 h2
    subst h1
    subst h2
    exact ⟨fun zid e he => ⟨e, he, fun hz => hz⟩, List.nodup_nil, rfl,
      fun z hz => absurd hz (List.not_mem_nil z)⟩
  | cons item rest ih =>
    intro s s1 out hk h
    obtain ⟨sa, outa, outb, ha, hb, hab⟩ :=
      directoryService.cons_inv srv fuel s s1 item rest out h
    obtain ⟨hkeep, hnew⟩ := directoryService.step_keepsIds srv fuel s sa item outa
      (hk item (List.mem_cons_self _ _)) ha
    obtain ⟨ih1, ih2, ih3, ih4⟩ := ih sa s1 outb
      (fun it hit => hk it (List.mem_cons_of_mem _ hit)) hb
    have hkeep2 : ∀ zid e, s.curMap.get zid = some e →
        ∃ e1, s1.curMap.get zid = some e1 ∧ (e.Zid = zid → e1.Zid = zid) := by
      intro zid e he
      obtain ⟨ea, hea, hza⟩ := hkeep zid e he
      obtain ⟨e1, he1, hz1⟩ := ih1 zid ea hea
      exact ⟨e1, he1, fun hz => hz1 (hza hz)⟩
    have hfresh : ∀ z ∈ newEntryIds outb, s.curMap.get z = none := by
      intro z hz
      cases hg : s.curMap.get z with
      | none => rfl
      | some e =>
        obtain ⟨ea, hea, _⟩ := hkeep z e hg
        rw [(ih4 z hz).1] at hea
        cases hea
    subst hab
    rw [newEntryIds_append]
    rcases hnew with ⟨hn1, hn2⟩ | ⟨z, hn1, hn2, hn3, hn4⟩
    · rw [hn1, List.nil_append, List.filter_cons_of_neg (by simp [hn2])]
      exact ⟨hkeep2, ih2, ih3, fun z hz => ⟨hfresh z hz, (ih4 z hz).2⟩⟩
    · rw [hn1, List.filter_cons_of_pos hn2]
      refine ⟨hkeep2, ?_, ?_, ?_⟩
      · refine List.nodup_cons.mpr ⟨?_, ih2⟩
        intro hz
        rw [(ih4 z hz).1] at hn4
        cases hn4
      · simp only [List.singleton_append, List.length_cons, ih3]
      · intro z1 hz1
        rcases List.mem_cons.mp hz1 with h1 | h1
        · subst h1
          obtain ⟨e1, he1, hze⟩ := ih1 z1 (Entry.zero z1) hn4
          exact ⟨hn3, e1, he1, hze rfl⟩
        · exact ⟨hfresh z1 h1, (ih4 z1 h1).2⟩

/-- C4 witness: the example reload, started from the index that holds the id 5,
is got through; afterwards the index holds `2.txt` and nothing else: the id 5 of
the earlier index, the id 9 stored by the command and the id 1 that was removed
again are absent. -/
theorem C4_reload_end_installs_replay_witness :
    ∃ s1 out,
      directoryService { changeFuncs := [0] } 8
        (ActorState.mk (some (dirMap.make.insert 5 (Entry.zero 5))) none false)
        (.event (exampleEvent fileStatusReloadStart 0) :: exampleReloadItems
          ++ [.event (exampleEvent fileStatusReloadEnd 0)]) = .ok (s1, out) ∧
      s1.curMap = some (dirMap.make.insert 2 (newEntry (exampleUpdate 2 "2.txt" "txt"))) ∧
      s1.newMap = none ∧
      s1.curMap.get 5 = none ∧ s1.curMap.get 9 = none ∧ s1.curMap.get 1 = none := by
  obtain ⟨idx, h1, h2, h3, h4⟩ := C4_reload_end_installs_replay { changeFuncs := [0] } 8
    (ActorState.mk (some (dirMap.make.insert 5 (Entry.zero 5))) none false)
    (exampleEvent fileStatusReloadStart 0) (exampleEvent fileStatusReloadEnd 0)
    exampleReloadItems rfl rfl
    (by
      intro ev h
      simp only [exampleReloadItems, List.mem_cons, Item.event.injEq, List.mem_singleton,
        List.not_mem_nil, or_false, false_or, reduceCtorEq] at h
      rcases h with h | h | h | h <;> subst h <;> exact ⟨by decide, by decide⟩)
  obtain ⟨s1, out, hrun⟩ := h4 (by simp)
    (by
      intro gen h
      simp only [exampleReloadItems, List.mem_cons, Item.command.injEq,
        dirCmd.cmdNewEntry.injEq, List.mem_singleton, List.not_mem_nil, or_false, false_or,
        reduceCtorEq] at h
      subst h
      exact fun a b hab => Nat.add_left_cancel hab)
    (by decide)
  obtain ⟨hc, hn⟩ := h2 s1 out hrun
  have hrep : applyEvents (some dirMap.make) (Item.events exampleReloadItems)
      = .ok (some (dirMap.make.insert 2 (newEntry (exampleUpdate 2 "2.txt" "txt")))) := rfl
  rw [hrep] at h1
  injection h1 with h1
  injection h1 with h1
  subst h1
  refine ⟨s1, out, hrun, hc, hn, ?_, ?_, ?_⟩ <;>
    · rw [hc]
      rfl

/-! ## NewEntry: the claims -/

/-- C6: when `NewEntry` returns on an index `m`, the id of the entry it sends was
not a key of `m` and is one of the generator's candidates, the entry is the
placeholder (`MetaSpecUnknown`, empty paths and extension, no duplicates), the
index afterwards maps that id to the same placeholder and every other id as `m`
did.  It returns exactly when one of the candidates `gen 0 .. gen fuel` is not a
key of `m`. -/
theorem C6_new_entry_placeholder (gen : Nat → ZettelID) (fuel : Nat) (m : dirMap) :
    (∀ m1 e, cmdNewEntry.run gen fuel (some m) = .ok (m1, e) →
      e.Zid ∉ m ∧
      (∃ j, j ≤ fuel ∧ e.Zid = gen j) ∧
      (e.MetaSpec = MetaSpecUnknown ∧ e.MetaPath = "" ∧ e.ContentPath = "" ∧
        e.ContentExt = "" ∧ e.Duplicates = false) ∧
      m1.get e.Zid = some e ∧
      (∀ zid, zid ≠ e.Zid → m1.get zid = m.lookup zid)) ∧
    ((∃ j, j ≤ fuel ∧ gen j ∉ m) ↔
      ∃ m1 e, cmdNewEntry.run gen fuel (some m) = .ok (m1, e)) := by
  constructor
  · intro m1 e hrun
    rcases cmdNewEntry.run_cases gen fuel m with ⟨j, h1, h2, _, h4⟩ | ⟨_, h⟩
    · rw [h4] at hrun
      injection hrun with hrun
      injection hrun with hm he
      subst hm
      subst he
      refine ⟨h2, ⟨j, h1, rfl⟩, ⟨rfl, rfl, rfl, rfl, rfl⟩, ?_, ?_⟩
      · exact AList.lookup_insert _
      · intro zid hz
        exact AList.lookup_insert_ne hz
    · rw [h] at hrun
      cases hrun
  · constructor
    · intro h
      obtain ⟨j, h1, h2, h3⟩ := cmdNewEntry.first_fresh gen fuel m h
      exact ⟨_, _, cmdNewEntry.run_eq gen fuel m j h1 h2 h3⟩
    · rintro ⟨m1, e, hrun⟩
      rcases cmdNewEntry.run_cases gen fuel m with ⟨j, h1, h2, _, _⟩ | ⟨_, h⟩
      · exact ⟨j, h1, h2⟩
      · rw [h] at hrun
        cases hrun

/-- C6 witness: the index holds the ids 5 and 6, the clock gives 5 and the forced
candidates are 6, 7, ...: `NewEntry` sends the placeholder with id 7. -/
theorem C6_new_entry_placeholder_witness :
    (7 : ZettelID) ∉ (dirMap.make.insert 5 (Entry.zero 5)).insert 6 (Entry.zero 6) ∧
    (∃ j, j ≤ 4 ∧ (Entry.zero 7).Zid = (fun k => 5 + k) j) ∧
    ((Entry.zero 7).MetaSpec = MetaSpecUnknown ∧ (Entry.zero 7).MetaPath = "" ∧
      (Entry.zero 7).ContentPath = "" ∧ (Entry.zero 7).ContentExt = "" ∧
      (Entry.zero 7).Duplicates = false) ∧
    dirMapVar.get (some (((dirMap.make.insert 5 (Entry.zero 5)).insert 6 (Entry.zero 6)).insert
      7 (Entry.zero 7))) 7 = some (Entry.zero 7) ∧
    (∀ zid, zid ≠ 7 →
      dirMapVar.get (some (((dirMap.make.insert 5 (Entry.zero 5)).insert 6
        (Entry.zero 6)).insert 7 (Entry.zero 7))) zid
      = ((dirMap.make.insert 5 (Entry.zero 5)).insert 6 (Entry.zero 6)).lookup zid) :=
  (C6_new_entry_placeholder (fun k => 5 + k) 4
    ((dirMap.make.insert 5 (Entry.zero 5)).insert 6 (Entry.zero 6))).1
    (some (((dirMap.make.insert 5 (Entry.zero 5)).insert 6 (Entry.zero 6)).insert
      7 (Entry.zero 7)))
    (Entry.zero 7) (by rfl)

/-! ## NewEntry: the fuel of the search is no limit -/

/-- More fuel does not change what the loop of `NewEntry` returns. -/
theorem cmdNewEntry.loop_mono (gen : Nat → ZettelID) (m : dirMapVar) :
    ∀ (fuel fuel2 k : Nat) (r : dirMapVar × Entry), fuel ≤ fuel2 →
      cmdNewEntry.loop gen m fuel k = .ok r → cmdNewEntry.loop gen m fuel2 k = .ok r := by
  intro fuel
  induction fuel with
  | zero =>
    intro fuel2 k r _ h
    simp [cmdNewEntry.loop] at h
  | succ n ih =>
    intro fuel2 k r hle h
    obtain ⟨n2, rfl⟩ : ∃ n2, fuel2 = n2 + 1 := ⟨fuel2 - 1, by omega⟩
    cases hg : m.get (gen k) with
    | none =>
      simp only [cmdNewEntry.loop, hg] at h
      simp only [cmdNewEntry.loop, hg]
      exact h
    | some e =>
      simp only [cmdNewEntry.loop, hg] at h
      simp only [cmdNewEntry.loop, hg]
      exact ih n2 (k + 1) r (by omega) h

/-- More fuel does not change what a command returns. -/
theorem dirCmd_run_mono (fuel fuel2 : Nat) (m : dirMapVar) (cmd : dirCmd)
    (r : dirMapVar × Reply) (hle : fuel ≤ fuel2) (h : cmd.run fuel m = .ok r) :
    cmd.run fuel2 m = .ok r := by
  cases cmd with
  | cmdNewEntry gen =>
    cases hg : m.get (gen 0) with
    | none =>
      simp only [dirCmd.run, cmdNewEntry.run, hg] at h
      simp only [dirCmd.run, cmdNewEntry.run, hg]
      exact h
    | some e =>
      simp only [dirCmd.run, cmdNewEntry.run, hg] at h
      simp only [dirCmd.run, cmdNewEntry.run, hg]
      cases hl : cmdNewEntry.loop gen m fuel 1 with
      | error f =>
        rw [hl] at h
        simp [Except.map] at h
      | ok r1 =>
        rw [hl] at h
        rw [cmdNewEntry.loop_mono gen m fuel fuel2 1 r1 hle hl]
        exact h
  | cmdGetEntries => exact h
  | cmdGetEntry zid => exact h
  | cmdUpdateEntry entry => exact h
  | cmdRenameEntry curEntry newEntry => exact h
  | cmdDeleteEntry zid => exact h

/-- More fuel does not change what one iteration of the actor gives. -/
theorem directoryService.step_mono (srv : Service) (fuel fuel2 : Nat) (s : ActorState)
    (item : Item) (r : ActorState × List Effect) (hle : fuel ≤ fuel2)
    (h : directoryService.step srv fuel s item = .ok r) :
    directoryService.step srv fuel2 s item = .ok r := by
  cases item with
  | event ev => exact h
  | command cmd =>
    cases hr : cmd.run fuel s.curMap with
    | error f =>
      simp only [directoryService.step, hr] at h
      simp at h
    | ok r1 =>
      simp only [directoryService.step, hr] at h
      simp only [directoryService.step, dirCmd_run_mono fuel fuel2 s.curMap cmd r1 hle hr]
      exact h

/-- More fuel does not change what the actor gives over a list of items. -/
theorem directoryService.fuel_mono (srv : Service) (fuel fuel2 : Nat) (hle : fuel ≤ fuel2)
    (items : List Item) :
    ∀ (s s1 : ActorState) (out : List Effect),
      directoryService srv fuel s items = .ok (s1, out) →
      directoryService srv fuel2 s items = .ok (s1, out) := by
  induction items with
  | nil =>
    intro s s1 out h
    exact h
  | cons item rest ih =>
    intro s s1 out h
    obtain ⟨sa, outa, outb, ha, hb, hout⟩ :=
      directoryService.cons_inv srv fuel s s1 item rest out h
    rw [hout]
    exact directoryService.cons_ok srv fuel2 s sa s1 item rest outa outb
      (directoryService.step_mono srv fuel fuel2 s item (sa, outa) hle ha)
      (ih sa s1 outb hb)

/-- One iteration on an allocated current index returns with some fuel for every
item but a reload-end, when a `NewEntry` is offered a candidate that is not a
key; the current index stays allocated. -/
theorem directoryService.step_returns (srv : Service) (s : ActorState) (cm : dirMap)
    (item : Item) (hcm : s.curMap = some cm)
    (hend : ∀ ev, item = .event ev → ev.status ≠ fileStatusReloadEnd)
    (hgen : ∀ gen, item = .command (.cmdNewEntry gen) → ∃ j, gen j ∉ cm) :
    ∃ (fuel : Nat) (s1 : ActorState) (out : List Effect) (cm1 : dirMap),
      directoryService.step srv fuel s item = .ok (s1, out) ∧ s1.curMap = some cm1 := by
  by_cases hnew : ∃ gen, item = .command (.cmdNewEntry gen)
  · obtain ⟨gen, rfl⟩ := hnew
    obtain ⟨j0, hj0⟩ := hgen gen rfl
    obtain ⟨j, h1, h2, h3⟩ := cmdNewEntry.first_fresh gen j0 cm ⟨j0, le_refl j0, hj0⟩
    have hrun := cmdNewEntry.run_eq gen j0 cm j h1 h2 h3
    refine ⟨j0, { s with curMap := some (cm.insert (gen j) (Entry.zero (gen j))) },
      [Effect.result (Reply.resNewEntry (Entry.zero (gen j)))],
      cm.insert (gen j) (Entry.zero (gen j)), ?_, rfl⟩
    simp only [directoryService.step, dirCmd.run, hcm, hrun, Except.map]
  · obtain ⟨s1, out, cm1, h1, h2, _, _⟩ := directoryService.step_completes srv
      cm.entries.length s cm item hcm hend
      (fun gen h => absurd ⟨gen, h⟩ hnew) (le_refl _)
    exact ⟨cm.entries.length, s1, out, cm1, h1, h2⟩

/-- The actor gets through every list of items without a reload-end, from an
allocated current index, with enough fuel, when the candidates of every
`NewEntry` leave every finite set of ids. -/
theorem directoryService.returns (srv : Service) (items : List Item) :
    ∀ (s : ActorState) (cm : dirMap), s.curMap = some cm →
      (∀ ev, Item.event ev ∈ items → ev.status ≠ fileStatusReloadEnd) →
      (∀ gen, Item.command (.cmdNewEntry gen) ∈ items →
        ∀ l : List ZettelID, ∃ j, gen j ∉ l) →
      ∃ (fuel : Nat) (s1 : ActorState) (out : List Effect),
        directoryService srv fuel s items = .ok (s1, out) := by
  induction items with
  | nil => exact fun s cm _ _ _ => ⟨0, s, [], rfl⟩
  | cons item rest ih =>
    intro s cm hcm hend hgen
    obtain ⟨fa, sa, outa, cma, h1, h2⟩ := directoryService.step_returns srv s cm item hcm
      (fun ev h => hend ev (by rw [h]; exact List.mem_cons_self _ _))
      (fun gen h => by
        obtain ⟨j, hj⟩ := hgen gen (by rw [h]; exact List.mem_cons_self _ _) cm.keys
        exact ⟨j, fun hin => hj (AList.mem_keys.mp hin)⟩)
    obtain ⟨fb, s1, out1, h3⟩ := ih sa cma h2
      (fun ev h => hend ev (List.mem_cons_of_mem _ h))
      (fun gen h => hgen gen (List.mem_cons_of_mem _ h))
    exact ⟨max fa fb, s1, outa ++ out1,
      directoryService.cons_ok srv (max fa fb) s sa s1 item rest outa out1
        (directoryService.step_mono srv fa (max fa fb) s item (sa, outa) (le_max_left _ _) h1)
        (directoryService.fuel_mono srv fb (max fa fb) (le_max_right _ _) rest sa s1 out1 h3)⟩

/-- A stream of candidates that grows beyond every number leaves every finite set
of ids. -/
theorem exists_candidate_not_mem (gen : Nat → ZettelID) (h : ∀ n : Nat, ∃ j, n < gen j)
    (l : List ZettelID) : ∃ j, gen j ∉ l := by
  obtain ⟨j, hj⟩ := h (l.foldr max 0)
  refine ⟨j, fun hin => ?_⟩
  have hle : ∀ (l : List ZettelID) (z : ZettelID), z ∈ l → z ≤ l.foldr max 0 := by
    intro l
    induction l with
    | nil => exact fun z hz => absurd hz (List.not_mem_nil z)
    | cons a l ih =>
      intro z hz
      rcases List.mem_cons.mp hz with h1 | h1
      · rw [h1]
        exact le_max_left _ _
      · exact le_trans (ih z h1) (le_max_right _ _)
  exact absurd (hle l (gen j) hin) (not_le.mpr hj)

/-- C7 as stated fails for a stream of candidates that never moves on: with the
candidate 5 and nothing else, the first `NewEntry` takes 5 and the second one
does not return, whatever the fuel.  It also fails for a stream that delivers
the invalid id: `NewEntry` stores its placeholder under it, and the `GetEntry`
for that id returns an entry that is equal to the sentinel of an absent id. -/
theorem C7_constant_stream_counterexample :
    (∀ fuel : Nat,
      directoryService { changeFuncs := [] } fuel ActorState.init exampleConstantStream
        = .error Fault.outOfFuel) ∧
    directoryService { changeFuncs := [] } 0 ActorState.init exampleInvalidCandidate
      = .ok (ActorState.mk (some (dirMap.make.insert 0 (Entry.zero 0))) none true,
          [Effect.result (Reply.resNewEntry (Entry.zero InvalidZettelID)),
           Effect.result (Reply.resGetEntry (Entry.zero InvalidZettelID))]) := by
  refine ⟨?_, rfl⟩
  intro fuel
  have h1 : directoryService.step { changeFuncs := [] } fuel ActorState.init
      (.command (.cmdNewEntry (fun _ => 5)))
      = .ok (ActorState.mk (some (dirMap.make.insert 5 (Entry.zero 5))) none true,
          [Effect.result (Reply.resNewEntry (Entry.zero 5))]) := rfl
  have hmem : (5 : ZettelID) ∈ dirMap.make.insert 5 (Entry.zero 5) := by
    rw [AList.mem_insert]
    exact Or.inl rfl
  have h2 : directoryService.step { changeFuncs := [] } fuel
      (ActorState.mk (some (dirMap.make.insert 5 (Entry.zero 5))) none true)
      (.command (.cmdNewEntry (fun _ => 5))) = .error Fault.outOfFuel := by
    simp only [directoryService.step, dirCmd.run,
      cmdNewEntry.run_out_of_fuel (fun _ => 5) fuel (dirMap.make.insert 5 (Entry.zero 5))
        (fun _ _ => hmem), Except.map]
  simp only [exampleConstantStream, directoryService, h1, h2]

/-- C7 (amended): over any list of items without delete, rename and reload markers,
started in any state.  Whenever the actor gets through the list, the
`NewEntry` commands of the list have sent as many ids as there are such
commands, pairwise distinct, none of them a key at the start; and `GetEntry`
for each of them afterwards finds an entry stored under it, which carries that
id and so differs from the sentinel of an absent id whenever the id is valid.
The actor gets through, with the same outcome for every fuel from some number
on, when the current index is allocated and the candidates of every `NewEntry`
leave every finite set of ids. -/
theorem C7_new_entries_distinct_and_visible (srv : Service) (s : ActorState)
    (items : List Item) (hitems : ∀ it ∈ items, Item.keepsIds it = true) :
    (∀ fuel s1 out, directoryService srv fuel s items = .ok (s1, out) →
      (newEntryIds out).length = (items.filter Item.isNewEntry).length ∧
      (newEntryIds out).Nodup ∧
      ∀ z ∈ newEntryIds out, s.curMap.get z = none ∧
        ∃ e, s1.curMap.get z = some e ∧ cmdGetEntry.run z s1.curMap = .ok (s1.curMap, e) ∧
          e.Zid = z ∧ (z ≠ InvalidZettelID → e ≠ Entry.zero InvalidZettelID)) ∧
    (s.curMap ≠ none →
      (∀ gen, Item.command (.cmdNewEntry gen) ∈ items →
        ∀ l : List ZettelID, ∃ j, gen j ∉ l) →
      ∃ fuel0 s1 out, ∀ fuel, fuel0 ≤ fuel →
        directoryService srv fuel s items = .ok (s1, out)) := by
  constructor
  · intro fuel s1 out hrun
    obtain ⟨_, h2, h3, h4⟩ := directoryService.keepsIds srv fuel items s s1 out hitems hrun
    refine ⟨h3, h2, ?_⟩
    intro z hz
    obtain ⟨hfresh, e, he, hze⟩ := h4 z hz
    refine ⟨hfresh, e, he, ?_, hze, ?_⟩
    · simp only [cmdGetEntry.run, he]
    · intro hvalid heq
      rw [heq] at hze
      exact hvalid hze.symm
  · intro hcur hgen
    cases hcm : s.curMap with
    | none => exact absurd hcm hcur
    | some cm =>
      have hend : ∀ ev, Item.event ev ∈ items → ev.status ≠ fileStatusReloadEnd := by
        intro ev hev hst
        have := hitems _ hev
        simp [Item.keepsIds, hst] at this
      obtain ⟨fuel0, s1, out, h⟩ := directoryService.returns srv items s cm hcm hend hgen
      exact ⟨fuel0, s1, out, fun fuel hle =>
        directoryService.fuel_mono srv fuel0 fuel hle items s s1 out h⟩

/-- C7 witness: two `NewEntry` commands in the same clock tick, on an empty index,
are got through and send the ids 5 and 6, both visible afterwards; and with
forced candidates that move on with every tenth call only, the two commands
are got through for every fuel from some number on. -/
theorem C7_new_entries_witness :
    (∃ s1 out,
      directoryService { changeFuncs := [] } 2 ActorState.init exampleNewEntries
        = .ok (s1, out) ∧
      newEntryIds out = [5, 6] ∧ (newEntryIds out).Nodup ∧
      ∀ z ∈ newEntryIds out,
        ∃ e, cmdGetEntry.run z s1.curMap = .ok (s1.curMap, e) ∧ e.Zid = z ∧
          e ≠ Entry.zero InvalidZettelID) ∧
    (∃ fuel0 s1 out, ∀ fuel, fuel0 ≤ fuel →
      directoryService { changeFuncs := [] } fuel ActorState.init exampleSlowClock
        = .ok (s1, out)) := by
  have h := C7_new_entries_distinct_and_visible { changeFuncs := [] } ActorState.init
    exampleNewEntries
    (by
      intro it h
      simp only [exampleNewEntries, List.mem_cons, List.mem_singleton, List.not_mem_nil,
        or_false, or_self] at h
      subst h
      rfl)
  have hslow := (C7_new_entries_distinct_and_visible { changeFuncs := [] } ActorState.init
    exampleSlowClock
    (by
      intro it h
      simp only [exampleSlowClock, List.mem_cons, List.mem_singleton, List.not_mem_nil,
        or_false, or_self] at h
      subst h
      rfl)).2 (by simp [ActorState.init])
    (by
      intro gen hgen
      simp only [exampleSlowClock, List.mem_cons, List.mem_singleton, List.not_mem_nil,
        or_false, or_self, Item.command.injEq, dirCmd.cmdNewEntry.injEq] at hgen
      subst hgen
      exact exists_candidate_not_mem _ (fun n => ⟨10 * n, by
        show n < 5 + 10 * n / 10
        omega⟩))
  refine ⟨?_, hslow⟩
  have hrun : directoryService { changeFuncs := [] } 2 ActorState.init exampleNewEntries
      = .ok (ActorState.mk
          (some ((dirMap.make.insert 5 (Entry.zero 5)).insert 6 (Entry.zero 6))) none true,
        [Effect.result (Reply.resNewEntry (Entry.zero 5)),
         Effect.result (Reply.resNewEntry (Entry.zero 6))]) := rfl
  obtain ⟨_, h2, h3⟩ := h.1 2 _ _ hrun
  refine ⟨_, _, hrun, rfl, h2, ?_⟩
  intro z hz
  obtain ⟨_, e, _, he2, he3, he4⟩ := h3 z hz
  refine ⟨e, he2, he3, he4 ?_⟩
  have hz2 : z = 5 ∨ z = 6 := by
    simpa [newEntryIds] using hz
  rcases hz2 with h5 | h6
  · rw [h5]
    decide
  · rw [h6]
    decide


/-! ## One entry under a sequence of file events -/

theorem updateEntries_nil (de : Entry) : updateEntries de [] = de := rfl

theorem updateEntries_cons (de : Entry) (ev : fileEvent) (rest : List fileEvent) :
    updateEntries de (ev :: rest) = updateEntries (updateEntry de ev) rest := rfl

/-- The branch of `updateEntry` for a `meta` file. -/
theorem updateEntry_of_meta (de : Entry) (ev : fileEvent) (h : ev.ext = "meta") :
    (updateEntry de ev).MetaSpec = MetaSpecFile ∧
    (updateEntry de ev).ContentExt = de.ContentExt ∧
    (updateEntry de ev).Duplicates = de.Duplicates := by
  simp [updateEntry, h]

/-- The branch of `updateEntry` for a further, different content extension. -/
theorem updateEntry_of_other (de : Entry) (ev : fileEvent) (hmeta : ev.ext ≠ "meta")
    (hext : de.ContentExt ≠ "") (hne : ev.ext ≠ de.ContentExt) :
    (updateEntry de ev).MetaSpec = de.MetaSpec ∧
    (updateEntry de ev).ContentExt = de.ContentExt ∧
    (updateEntry de ev).Duplicates = true := by
  have hlen : de.ContentExt.length ≠ 0 := fun h =>
    hext ((String.length_eq_zero_iff_empty _).mp h)
  have hne2 : de.ContentExt ≠ ev.ext := fun h => hne h.symm
  simp [updateEntry, hmeta, hlen, hne2]

/-- The branch of `updateEntry` that records the content file. -/
theorem updateEntry_of_content (de : Entry) (ev : fileEvent) (hmeta : ev.ext ≠ "meta")
    (hext : de.ContentExt = "" ∨ de.ContentExt = ev.ext) :
    (updateEntry de ev).MetaSpec
      = (if de.MetaSpec = MetaSpecFile then MetaSpecFile
         else if ev.ext = "zettel" then MetaSpecHeader else MetaSpecNone) ∧
    (updateEntry de ev).ContentExt = ev.ext ∧
    (updateEntry de ev).Duplicates = de.Duplicates := by
  have hlen : ¬ (de.ContentExt.length ≠ 0 ∧ de.ContentExt ≠ ev.ext) := by
    rcases hext with h | h
    · rw [h]
      simp
    · simp [h]
  refine ⟨?_, ?_, ?_⟩ <;>
    (simp only [updateEntry, if_neg hmeta, if_neg hlen]; try split_ifs <;> simp_all)

/-- Once a content extension is recorded it stays, and `Duplicates` is set by exactly
the later events that bring another extension which is not `meta`. -/
theorem updateEntries_recorded (evs : List fileEvent) :
    ∀ de : Entry, de.ContentExt ≠ "" →
      (updateEntries de evs).ContentExt = de.ContentExt ∧
      ((updateEntries de evs).Duplicates = true ↔
        de.Duplicates = true ∨ ∃ ev ∈ evs, ev.ext ≠ "meta" ∧ ev.ext ≠ de.ContentExt) := by
  induction evs with
  | nil =>
    intro de _
    simp [updateEntries_nil]
  | cons ev rest ih =>
    intro de hext
    rw [updateEntries_cons]
    by_cases hmeta : ev.ext = "meta"
    · obtain ⟨_, h2, h3⟩ := updateEntry_of_meta de ev hmeta
      obtain ⟨i1, i2⟩ := ih (updateEntry de ev) (by rw [h2]; exact hext)
      rw [h2] at i1 i2
      rw [h3] at i2
      refine ⟨i1, i2.trans ?_⟩
      simp [hmeta]
    · by_cases hne : ev.ext = de.ContentExt
      · obtain ⟨_, h2, h3⟩ := updateEntry_of_content de ev hmeta (Or.inr hne.symm)
        have h2b : (updateEntry de ev).ContentExt = de.ContentExt := by rw [h2, hne]
        obtain ⟨i1, i2⟩ := ih (updateEntry de ev) (by rw [h2b]; exact hext)
        rw [h2b] at i1 i2
        rw [h3] at i2
        refine ⟨i1, i2.trans ?_⟩
        simp [hne]
      · obtain ⟨_, h2, h3⟩ := updateEntry_of_other de ev hmeta hext hne
        obtain ⟨i1, i2⟩ := ih (updateEntry de ev) (by rw [h2]; exact hext)
        rw [h2] at i1 i2
        rw [h3] at i2
        refine ⟨i1, i2.trans ?_⟩
        constructor
        · intro _
          exact Or.inr ⟨ev, List.mem_cons_self _ _, hmeta, hne⟩
        · intro _
          exact Or.inl rfl

/-- Before any content extension is recorded, and when no event has the empty
extension, `Duplicates` is set by exactly two events with different extensions
that are not `meta`. -/
theorem updateEntries_unrecorded (evs : List fileEvent) :
    ∀ de : Entry, de.ContentExt = "" → (∀ ev ∈ evs, ev.ext ≠ "") →
      ((updateEntries de evs).Duplicates = true ↔
        de.Duplicates = true ∨
          ∃ e1 ∈ evs, ∃ e2 ∈ evs, e1.ext ≠ "meta" ∧ e2.ext ≠ "meta" ∧ e1.ext ≠ e2.ext) := by
  induction evs with
  | nil =>
    intro de _ _
    simp [updateEntries_nil]
  | cons ev rest ih =>
    intro de hext hnonempty
    have hrest : ∀ e ∈ rest, e.ext ≠ "" := fun e he => hnonempty e (List.mem_cons_of_mem _ he)
    rw [updateEntries_cons]
    by_cases hmeta : ev.ext = "meta"
    · obtain ⟨_, h2, h3⟩ := updateEntry_of_meta de ev hmeta
      have i := ih (updateEntry de ev) (by rw [h2]; exact hext) hrest
      rw [h3] at i
      refine i.trans (or_congr Iff.rfl ?_)
      constructor
      · rintro ⟨e1, h1, e2, hm2, ha, hb, hc⟩
        exact ⟨e1, List.mem_cons_of_mem _ h1, e2, List.mem_cons_of_mem _ hm2, ha, hb, hc⟩
      · rintro ⟨e1, h1, e2, hm2, ha, hb, hc⟩
        rcases List.mem_cons.mp h1 with r1 | r1
        · rw [r1] at ha
          exact absurd hmeta ha
        · rcases List.mem_cons.mp hm2 with r2 | r2
          · rw [r2] at hb
            exact absurd hmeta hb
          · exact ⟨e1, r1, e2, r2, ha, hb, hc⟩
    · obtain ⟨_, h2, h3⟩ := updateEntry_of_content de ev hmeta (Or.inl hext)
      have hev : ev.ext ≠ "" := hnonempty ev (List.mem_cons_self _ _)
      obtain ⟨_, i⟩ := updateEntries_recorded rest (updateEntry de ev) (by rw [h2]; exact hev)
      rw [h2, h3] at i
      refine i.trans (or_congr Iff.rfl ?_)
      constructor
      · rintro ⟨e, he, ha, hb⟩
        exact ⟨ev, List.mem_cons_self _ _, e, List.mem_cons_of_mem _ he, hmeta, ha,
          fun h => hb h.symm⟩
      · rintro ⟨e1, h1, e2, hm2, ha, hb, hc⟩
        by_cases hx : e1.ext = ev.ext
        · have hy : e2.ext ≠ ev.ext := fun h => hc (hx.trans h.symm)
          rcases List.mem_cons.mp hm2 with r2 | r2
          · rw [r2] at hy
            exact absurd rfl hy
          · exact ⟨e2, r2, hb, hy⟩
        · rcases List.mem_cons.mp h1 with r1 | r1
          · rw [r1] at hx
            exact absurd rfl hx
          · exact ⟨e1, r1, ha, hx⟩

/-- Update events for one id that is a key: the index afterwards holds, under that
id, the entry updated by every event in order, and every other id as before. -/
theorem applyEvents_one_id (X : ZettelID) (evs : List fileEvent) :
    ∀ (m : dirMap) (de : Entry), m.lookup X = some de →
      (∀ ev ∈ evs, ev.status = fileStatusUpdate ∧ ev.zid = X) →
      ∃ m1 : dirMap, applyEvents (some m) evs = .ok (some m1) ∧
        m1.lookup X = some (updateEntries de evs) ∧
        ∀ zid, zid ≠ X → m1.lookup zid = m.lookup zid := by
  induction evs with
  | nil => exact fun m de h _ => ⟨m, rfl, h, fun _ _ => rfl⟩
  | cons ev rest ih =>
    intro m de hde hevs
    obtain ⟨hst, hz⟩ := hevs ev (List.mem_cons_self _ _)
    have hl : m.lookup ev.zid = some de := by rw [hz]; exact hde
    obtain ⟨m1, h1, h2, h3⟩ := ih (m.insert ev.zid (updateEntry de ev)) (updateEntry de ev)
      (by rw [← hz]; exact AList.lookup_insert _)
      (fun e he => hevs e (List.mem_cons_of_mem _ he))
    refine ⟨m1, ?_, h2, ?_⟩
    · simp only [applyEvents, hst, dirMapUpdate_some, hl, Option.elim]
      exact h1
    · intro zid hzid
      rw [h3 zid hzid]
      exact AList.lookup_insert_ne (by rw [hz]; exact hzid)

/-- Update events for one id that is not a key: the first one creates the entry by
`newEntry`, so the entry afterwards is the zero entry of the id updated by
every event in order. -/
theorem applyEvents_fresh_id (X : ZettelID) (evs : List fileEvent) (m : dirMap)
    (hX : X ∉ m) (hne : evs ≠ [])
    (hevs : ∀ ev ∈ evs, ev.status = fileStatusUpdate ∧ ev.zid = X) :
    ∃ m1 : dirMap, applyEvents (some m) evs = .ok (some m1) ∧
      m1.lookup X = some (updateEntries (Entry.zero X) evs) ∧
      ∀ zid, zid ≠ X → m1.lookup zid = m.lookup zid := by
  cases evs with
  | nil => exact absurd rfl hne
  | cons ev rest =>
    obtain ⟨hst, hz⟩ := hevs ev (List.mem_cons_self _ _)
    have hl : m.lookup ev.zid = none := by rw [hz]; exact AList.lookup_eq_none.mpr hX
    obtain ⟨m1, h1, h2, h3⟩ := applyEvents_one_id X rest (m.insert ev.zid (newEntry ev))
      (newEntry ev) (by rw [← hz]; exact AList.lookup_insert _)
      (fun e he => hevs e (List.mem_cons_of_mem _ he))
    refine ⟨m1, ?_, ?_, ?_⟩
    · simp only [applyEvents, hst, dirMapUpdate_some, hl, Option.elim]
      exact h1
    · rw [h2, updateEntries_cons]
      simp only [newEntry, hz]
    · intro zid hzid
      rw [h3 zid hzid]
      exact AList.lookup_insert_ne (by rw [hz]; exact hzid)

/-! ## Duplicates -/

/-- C11 as stated fails for the empty extension: after the events `1.` and `1.md` for
the id 1 on an empty index, which carry two different extensions that are not
`meta`, the entry of the id 1 has `Duplicates = false`. -/
theorem C11_empty_extension_counterexample :
    (applyEvents (some dirMap.make) exampleEmptyExt).map (fun m1 => m1.get 1)
      = .ok (some (Entry.mk 1 MetaSpecNone "" "1.md" "md" false)) ∧
    (∀ ev ∈ exampleEmptyExt, ev.status = fileStatusUpdate ∧ ev.zid = 1) ∧
    (∃ e1 ∈ exampleEmptyExt, ∃ e2 ∈ exampleEmptyExt,
      e1.ext ≠ "meta" ∧ e2.ext ≠ "meta" ∧ e1.ext ≠ e2.ext) := by
  refine ⟨rfl, by decide, ?_⟩
  exact ⟨exampleUpdate 1 "1." "", by simp [exampleEmptyExt],
    exampleUpdate 1 "1.md" "md", by simp [exampleEmptyExt], by decide, by decide, by decide⟩

/-- C11 (amended): for an id `X` that is not a key of the index and a non-empty
sequence of update events for `X`, none with the empty extension, applied in
order by `dirMapUpdate`: the entry of `X` afterwards has `Duplicates = true`
exactly when two events of the sequence carry different extensions that are
not `meta`. -/
theorem C11_duplicates_iff_two_extensions (m : dirMap) (X : ZettelID)
    (evs : List fileEvent) (hX : X ∉ m) (hne : evs ≠ [])
    (hevs : ∀ ev ∈ evs, ev.status = fileStatusUpdate ∧ ev.zid = X)
    (hext : ∀ ev ∈ evs, ev.ext ≠ "") :
    ∃ (m1 : dirMap) (e : Entry), applyEvents (some m) evs = .ok (some m1) ∧
      m1.lookup X = some e ∧
      (e.Duplicates = true ↔
        ∃ e1 ∈ evs, ∃ e2 ∈ evs, e1.ext ≠ "meta" ∧ e2.ext ≠ "meta" ∧ e1.ext ≠ e2.ext) := by
  obtain ⟨m1, h1, h2, _⟩ := applyEvents_fresh_id X evs m hX hne hevs
  refine ⟨m1, _, h1, h2, ?_⟩
  have h := updateEntries_unrecorded evs (Entry.zero X) rfl hext
  simpa [Entry.zero] using h

/-- C11 witness: the events `1.meta`, `1.md`, `1.txt`, `1.md` on an empty index leave
an entry with `Duplicates = true`. -/
theorem C11_duplicates_witness :
    ∃ (m1 : dirMap) (e : Entry),
      applyEvents (some dirMap.make) exampleMetaMdTxt = .ok (some m1) ∧
      m1.lookup 1 = some e ∧ e.Duplicates = true := by
  obtain ⟨m1, e, h1, h2, h3⟩ := C11_duplicates_iff_two_extensions dirMap.make 1
    exampleMetaMdTxt (by decide) (by decide) (by decide) (by decide)
  refine ⟨m1, e, h1, h2, h3.mpr ?_⟩
  exact ⟨exampleUpdate 1 "1.md" "md", by simp [exampleMetaMdTxt],
    exampleUpdate 1 "1.txt" "txt", by simp [exampleMetaMdTxt], by decide, by decide,
    by decide⟩

/-! ## MetaSpec -/

theorem updateEntry_keeps_file (de : Entry) (ev : fileEvent)
    (h : de.MetaSpec = MetaSpecFile) : (updateEntry de ev).MetaSpec = MetaSpecFile := by
  unfold updateEntry
  split_ifs <;> simp_all

theorem updateEntries_keeps_file (evs : List fileEvent) :
    ∀ de : Entry, de.MetaSpec = MetaSpecFile →
      (updateEntries de evs).MetaSpec = MetaSpecFile := by
  induction evs with
  | nil => exact fun de h => h
  | cons ev rest ih =>
    intro de h
    rw [updateEntries_cons]
    exact ih _ (updateEntry_keeps_file de ev h)

/-- A `meta` event anywhere in the sequence makes the result `MetaSpecFile`. -/
theorem updateEntries_with_meta (evs : List fileEvent) :
    ∀ de : Entry, (∃ ev ∈ evs, ev.ext = "meta") →
      (updateEntries de evs).MetaSpec = MetaSpecFile := by
  induction evs with
  | nil =>
    rintro de ⟨ev, hev, _⟩
    exact absurd hev (List.not_mem_nil ev)
  | cons ev rest ih =>
    rintro de ⟨e, he, hmeta⟩
    rw [updateEntries_cons]
    rcases List.mem_cons.mp he with r | r
    · rw [r] at hmeta
      exact updateEntries_keeps_file rest _ (updateEntry_of_meta de ev hmeta).1
    · exact ih _ ⟨e, r, hmeta⟩

/-- After a content extension is recorded, without `meta` events the `MetaSpec` that
this extension gave stays. -/
theorem updateEntries_recorded_metaSpec (evs : List fileEvent) :
    ∀ de : Entry, de.ContentExt ≠ "" →
      de.MetaSpec = (if de.ContentExt = "zettel" then MetaSpecHeader else MetaSpecNone) →
      (∀ ev ∈ evs, ev.ext ≠ "meta") →
      (updateEntries de evs).MetaSpec
        = (if de.ContentExt = "zettel" then MetaSpecHeader else MetaSpecNone) := by
  induction evs with
  | nil => exact fun de _ h _ => h
  | cons ev rest ih =>
    intro de hext hms hmeta
    have hm : ev.ext ≠ "meta" := hmeta ev (List.mem_cons_self _ _)
    have hrest : ∀ e ∈ rest, e.ext ≠ "meta" := fun e he => hmeta e (List.mem_cons_of_mem _ he)
    rw [updateEntries_cons]
    by_cases hne : ev.ext = de.ContentExt
    · obtain ⟨h1, h2, _⟩ := updateEntry_of_content de ev hm (Or.inr hne.symm)
      have hnf : de.MetaSpec ≠ MetaSpecFile := by
        rw [hms]
        split_ifs <;> decide
      rw [if_neg hnf] at h1
      have h2b : (updateEntry de ev).ContentExt = de.ContentExt := by rw [h2, hne]
      have := ih (updateEntry de ev) (by rw [h2b]; exact hext)
        (by rw [h1, h2]) hrest
      rw [h2b] at this
      exact this
    · obtain ⟨h1, h2, _⟩ := updateEntry_of_other de ev hm hext hne
      have := ih (updateEntry de ev) (by rw [h2]; exact hext) (by rw [h1, h2]; exact hms) hrest
      rw [h2] at this
      exact this

/-- Before a content extension is recorded, without `meta` events: the first
extension that is not empty decides the `MetaSpec`; when every event has the
empty extension the result is `MetaSpecNone`. -/
theorem updateEntries_unrecorded_metaSpec (evs : List fileEvent) :
    ∀ de : Entry, de.ContentExt = "" → de.MetaSpec ≠ MetaSpecFile →
      (∀ ev ∈ evs, ev.ext ≠ "meta") →
      (∀ c, firstContentExt evs = some c →
        (updateEntries de evs).MetaSpec
          = (if c = "zettel" then MetaSpecHeader else MetaSpecNone)) ∧
      (firstContentExt evs = none → evs ≠ [] →
        (updateEntries de evs).MetaSpec = MetaSpecNone) := by
  induction evs with
  | nil =>
    intro de _ _ _
    exact ⟨fun c h => by simp [firstContentExt] at h, fun _ h => absurd rfl h⟩
  | cons ev rest ih =>
    intro de hext hnf hmeta
    have hm : ev.ext ≠ "meta" := hmeta ev (List.mem_cons_self _ _)
    have hrest : ∀ e ∈ rest, e.ext ≠ "meta" := fun e he => hmeta e (List.mem_cons_of_mem _ he)
    obtain ⟨h1, h2, _⟩ := updateEntry_of_content de ev hm (Or.inl hext)
    rw [if_neg hnf] at h1
    rw [updateEntries_cons]
    by_cases hempty : ev.ext = ""
    · have hfc : firstContentExt (ev :: rest) = firstContentExt rest := by
        simp [firstContentExt, hempty]
      have h1b : (updateEntry de ev).MetaSpec = MetaSpecNone := by
        rw [h1, hempty]
        decide
      obtain ⟨i1, i2⟩ := ih (updateEntry de ev) (by rw [h2, hempty])
        (by rw [h1b]; decide) hrest
      rw [hfc]
      refine ⟨i1, ?_⟩
      intro hnone _
      cases rest with
      | nil => exact h1b
      | cons e r => exact i2 hnone (List.cons_ne_nil _ _)
    · have hfc : firstContentExt (ev :: rest) = some ev.ext := by
        simp [firstContentExt, hm, hempty]
      have := updateEntries_recorded_metaSpec rest (updateEntry de ev)
        (by rw [h2]; exact hempty) (by rw [h1, h2]) hrest
      rw [h2] at this
      rw [hfc]
      refine ⟨?_, fun h => by simp at h⟩
      intro c hc
      injection hc with hc
      rw [← hc]
      exact this

/-- C12 as stated fails: the events `1.zettel`, `1.md` and the events `1.md`,
`1.zettel` carry the same set of extensions, and the fresh entry of the id 1
ends with `MetaSpecHeader` under the first and `MetaSpecNone` under the second. -/
theorem C12_order_counterexample :
    (∀ x, (∃ ev ∈ exampleZettelMd, ev.ext = x) ↔ (∃ ev ∈ exampleMdZettel, ev.ext = x)) ∧
    (updateEntries (Entry.zero 1) exampleZettelMd).MetaSpec = MetaSpecHeader ∧
    (updateEntries (Entry.zero 1) exampleMdZettel).MetaSpec = MetaSpecNone := by
  refine ⟨?_, by decide, by decide⟩
  intro x
  simp only [exampleZettelMd, exampleMdZettel, exampleUpdate, List.mem_cons,
    List.mem_singleton, List.not_mem_nil, or_false, exists_eq_or_imp, exists_eq_left]
  exact Or.comm

/-- C12 (amended): two sequences of update events that carry the same set of
extensions and the same first extension that is neither `meta` nor empty, in
any other order and with any paths, give a fresh entry the same `MetaSpec`. -/
theorem C12_metaSpec_by_extensions (X : ZettelID) (evs1 evs2 : List fileEvent)
    (hset : ∀ x, (∃ ev ∈ evs1, ev.ext = x) ↔ (∃ ev ∈ evs2, ev.ext = x))
    (hfirst : firstContentExt evs1 = firstContentExt evs2) :
    (updateEntries (Entry.zero X) evs1).MetaSpec
      = (updateEntries (Entry.zero X) evs2).MetaSpec := by
  by_cases hmeta : ∃ ev ∈ evs1, ev.ext = "meta"
  · rw [updateEntries_with_meta evs1 _ hmeta,
      updateEntries_with_meta evs2 _ ((hset "meta").mp hmeta)]
  · have hm1 : ∀ ev ∈ evs1, ev.ext ≠ "meta" := fun ev he h => hmeta ⟨ev, he, h⟩
    have hm2 : ∀ ev ∈ evs2, ev.ext ≠ "meta" :=
      fun ev he h => hmeta ((hset "meta").mpr ⟨ev, he, h⟩)
    have hz : (Entry.zero X).MetaSpec ≠ MetaSpecFile := by
      simp [Entry.zero]
    obtain ⟨a1, a2⟩ := updateEntries_unrecorded_metaSpec evs1 (Entry.zero X) rfl hz hm1
    obtain ⟨b1, b2⟩ := updateEntries_unrecorded_metaSpec evs2 (Entry.zero X) rfl hz hm2
    cases hf : firstContentExt evs1 with
    | some c => rw [a1 c hf, b1 c (hfirst ▸ hf)]
    | none =>
      have hf2 : firstContentExt evs2 = none := hfirst ▸ hf
      cases evs1 with
      | nil =>
        cases evs2 with
        | nil => rfl
        | cons e r =>
          obtain ⟨ev, hev, _⟩ := (hset e.ext).mpr ⟨e, List.mem_cons_self _ _, rfl⟩
          exact absurd hev (List.not_mem_nil ev)
      | cons e r =>
        cases evs2 with
        | nil =>
          obtain ⟨ev, hev, _⟩ := (hset e.ext).mp ⟨e, List.mem_cons_self _ _, rfl⟩
          exact absurd hev (List.not_mem_nil ev)
        | cons e2 r2 =>
          rw [a2 hf (List.cons_ne_nil _ _), b2 hf2 (List.cons_ne_nil _ _)]

/-- C12 witness: `1.meta`, `1.md`, `1.txt`, `1.md` and the same events with the
`meta` file last but one carry the same extensions with `md` first among the
content extensions, and give the same `MetaSpec`. -/
theorem C12_metaSpec_witness :
    (updateEntries (Entry.zero 1) exampleMetaMdTxt).MetaSpec
      = (updateEntries (Entry.zero 1)
          [exampleUpdate 1 "a/1.md" "md", exampleUpdate 1 "a/1.txt" "txt",
           exampleUpdate 1 "a/1.meta" "meta", exampleUpdate 1 "a/1.md" "md"]).MetaSpec :=
  C12_metaSpec_by_extensions 1 exampleMetaMdTxt
    [exampleUpdate 1 "a/1.md" "md", exampleUpdate 1 "a/1.txt" "txt",
     exampleUpdate 1 "a/1.meta" "meta", exampleUpdate 1 "a/1.md" "md"]
    (by
      intro x
      simp only [exampleMetaMdTxt, exampleUpdate, List.mem_cons, List.mem_singleton,
        List.not_mem_nil, or_false, exists_eq_or_imp, exists_eq_left]
      tauto)
    (by decide)

/-! ## The read and write commands on the index -/

/-- C13: `GetEntry` sends the entry stored under the id when the id is a key, and
otherwise the sentinel with the invalid id, `MetaSpecUnknown`, empty paths and
extension and no duplicates; the map it returns is the map it was given. -/
theorem C13_get_entry (m : dirMapVar) (zid : ZettelID) :
    (∀ e, m.get zid = some e → cmdGetEntry.run zid m = .ok (m, e)) ∧
    (m.get zid = none →
      cmdGetEntry.run zid m
        = .ok (m, Entry.mk InvalidZettelID MetaSpecUnknown "" "" "" false)) ∧
    (∀ dm : dirMap, m = some dm → (zid ∈ dm ↔ ∃ e, m.get zid = some e)) := by
  refine ⟨?_, ?_, ?_⟩
  · intro e he
    simp only [cmdGetEntry.run, he]
  · intro he
    simp only [cmdGetEntry.run, he]
    rfl
  · intro dm hdm
    subst hdm
    rw [dirMapVar.get_some, ← AList.lookup_isSome, Option.isSome_iff_exists]

/-- C14: `UpdateEntry(e)` on an index returns, and afterwards `GetEntry(e.Zid)` sends
exactly `e`, whether the id was a key or not, and every other id maps as before. -/
theorem C14_update_entry_upsert (m : dirMap) (e : Entry) :
    ∃ m1 : dirMap, cmdUpdateEntry.run e (some m) = .ok (some m1, ()) ∧
      cmdGetEntry.run e.Zid (some m1) = .ok (some m1, e) ∧
      ∀ zid, zid ≠ e.Zid → m1.lookup zid = m.lookup zid := by
  refine ⟨m.insert e.Zid e, rfl, ?_, fun zid h => AList.lookup_insert_ne h⟩
  simp only [cmdGetEntry.run, dirMapVar.get_some, AList.lookup_insert]

/-- C13 witness: in the index that holds `1.md` under the id 1, `GetEntry(1)` sends
that entry and `GetEntry(2)` the sentinel. -/
theorem C13_get_entry_witness :
    cmdGetEntry.run 1 (some (dirMap.make.insert 1 (newEntry (exampleUpdate 1 "1.md" "md"))))
      = .ok (some (dirMap.make.insert 1 (newEntry (exampleUpdate 1 "1.md" "md"))),
          Entry.mk 1 MetaSpecNone "" "1.md" "md" false) ∧
    cmdGetEntry.run 2 (some (dirMap.make.insert 1 (newEntry (exampleUpdate 1 "1.md" "md"))))
      = .ok (some (dirMap.make.insert 1 (newEntry (exampleUpdate 1 "1.md" "md"))),
          Entry.mk InvalidZettelID MetaSpecUnknown "" "" "" false) :=
  ⟨(C13_get_entry (some (dirMap.make.insert 1 (newEntry (exampleUpdate 1 "1.md" "md"))))
      1).1 (Entry.mk 1 MetaSpecNone "" "1.md" "md" false) (by rfl),
   (C13_get_entry (some (dirMap.make.insert 1 (newEntry (exampleUpdate 1 "1.md" "md"))))
      2).2.1 (by rfl)⟩

/-- C14 witness: `UpdateEntry` replaces the placeholder of the id 1 by the entry of
`1.md`. -/
theorem C14_update_entry_witness :
    ∃ m1 : dirMap,
      cmdUpdateEntry.run (Entry.mk 1 MetaSpecNone "" "1.md" "md" false)
        (some ((dirMap.make.insert 1 (Entry.zero 1)).insert 2 (Entry.zero 2)))
        = .ok (some m1, ()) ∧
      cmdGetEntry.run 1 (some m1)
        = .ok (some m1, Entry.mk 1 MetaSpecNone "" "1.md" "md" false) ∧
      m1.lookup 2 = some (Entry.zero 2) := by
  obtain ⟨m1, h1, h2, h3⟩ := C14_update_entry_upsert
    ((dirMap.make.insert 1 (Entry.zero 1)).insert 2 (Entry.zero 2))
    (Entry.mk 1 MetaSpecNone "" "1.md" "md" false)
  exact ⟨m1, h1, h2, by rw [h3 2 (by decide)]; rfl⟩

theorem dirMap.erase_of_not_mem (m : dirMap) (zid : ZettelID) (h : m.lookup zid = none) :
    m.erase zid = m := by
  apply AList.ext
  have hk : zid ∉ m.entries.keys := fun hmem =>
    AList.lookup_eq_none.mp h (AList.mem_keys.mpr hmem)
  simp only [AList.erase]
  exact List.kerase_of_not_mem_keys hk

/-- What `delete(m, X)` does to a map variable. -/
theorem dirMapVar.delete_spec (m : dirMapVar) (X : ZettelID) :
    cmdGetEntry.run X (m.delete X) = .ok (m.delete X, Entry.zero InvalidZettelID) ∧
    (∀ zid, zid ≠ X → (m.delete X).get zid = m.get zid) ∧
    (m.get X = none → m.delete X = m) := by
  cases m with
  | none => exact ⟨rfl, fun _ _ => rfl, fun _ => rfl⟩
  | some dm =>
    refine ⟨?_, ?_, ?_⟩
    · simp only [cmdGetEntry.run, dirMapVar.delete_some, dirMapVar.get_some,
        AList.lookup_erase]
    · intro zid h
      exact AList.lookup_erase_ne h
    · intro h
      rw [dirMapVar.delete_some, dirMap.erase_of_not_mem dm X h]

/-- C15: a `DeleteEntry(X)` command, and a delete event for `X` while no reload is
in progress, remove the entry of `X`: afterwards `GetEntry(X)` sends the
sentinel, every other id maps as before, and when `X` was not a key the index
is the same as before. -/
theorem C15_delete_removes_entry :
    (∀ (m : dirMapVar) (X : ZettelID), ∃ m1,
      cmdDeleteEntry.run X m = .ok (m1, ()) ∧
      cmdGetEntry.run X m1 = .ok (m1, Entry.zero InvalidZettelID) ∧
      (∀ zid, zid ≠ X → m1.get zid = m.get zid) ∧
      (m.get X = none → m1 = m)) ∧
    (∀ (srv : Service) (fuel : Nat) (s : ActorState) (ev : fileEvent),
      s.newMap = none → ev.status = fileStatusDelete →
      ∃ s1 out, directoryService.step srv fuel s (.event ev) = .ok (s1, out) ∧
        s1.newMap = none ∧
        cmdGetEntry.run ev.zid s1.curMap = .ok (s1.curMap, Entry.zero InvalidZettelID) ∧
        (∀ zid, zid ≠ ev.zid → s1.curMap.get zid = s.curMap.get zid) ∧
        (s.curMap.get ev.zid = none → s1.curMap = s.curMap)) := by
  constructor
  · intro m X
    obtain ⟨h1, h2, h3⟩ := dirMapVar.delete_spec m X
    exact ⟨m.delete X, rfl, h1, h2, h3⟩
  · intro srv fuel s ev hnew hst
    obtain ⟨cm, nm, rdy⟩ := s
    simp only at hnew
    subst hnew
    obtain ⟨h1, h2, h3⟩ := dirMapVar.delete_spec cm ev.zid
    refine ⟨ActorState.mk (cm.delete ev.zid) none rdy, srv.notifyChange false ev.zid,
      ?_, rfl, h1, h2, h3⟩
    simp only [directoryService.step, directoryService.onEvent, hst]

/-- C15 witness: the index holds the ids 1 and 2; `DeleteEntry(1)` and a delete event
for the id 1 both leave the id 2 alone and make `GetEntry(1)` send the sentinel. -/
theorem C15_delete_witness :
    (∃ m1, cmdDeleteEntry.run 1
        (some ((dirMap.make.insert 1 (Entry.zero 1)).insert 2 (Entry.zero 2))) = .ok (m1, ()) ∧
      cmdGetEntry.run 1 m1 = .ok (m1, Entry.zero InvalidZettelID) ∧
      m1.get 2 = some (Entry.zero 2)) ∧
    (∃ s1 out, directoryService.step { changeFuncs := [0] } 0
        (ActorState.mk (some ((dirMap.make.insert 1 (Entry.zero 1)).insert 2 (Entry.zero 2)))
          none false)
        (.event (exampleEvent fileStatusDelete 1)) = .ok (s1, out) ∧
      cmdGetEntry.run 1 s1.curMap = .ok (s1.curMap, Entry.zero InvalidZettelID) ∧
      s1.curMap.get 2 = some (Entry.zero 2)) := by
  constructor
  · obtain ⟨m1, h1, h2, h3, _⟩ := C15_delete_removes_entry.1
      (some ((dirMap.make.insert 1 (Entry.zero 1)).insert 2 (Entry.zero 2))) 1
    exact ⟨m1, h1, h2, by rw [h3 2 (by decide)]; rfl⟩
  · obtain ⟨s1, out, h1, _, h3, h4, _⟩ := C15_delete_removes_entry.2 { changeFuncs := [0] } 0
      (ActorState.mk (some ((dirMap.make.insert 1 (Entry.zero 1)).insert 2 (Entry.zero 2)))
        none false)
      (exampleEvent fileStatusDelete 1) rfl rfl
    exact ⟨s1, out, h1, h3, by rw [h4 2 (by decide)]; rfl⟩

/-- C16: `GetEntries` returns the map it was given and sends a list that runs once
through the keys: there is a list `ks` of the keys of the index, each key once,
such that the entries sent are, position by position, the entries stored under
the keys of `ks`; its length is `len(m)`. -/
theorem C16_get_entries (m : dirMapVar) :
    ∃ (es : List Entry) (ks : List ZettelID), cmdGetEntries.run m = .ok (m, es) ∧
      ks.Nodup ∧ (∀ k, k ∈ ks ↔ (m.get k).isSome) ∧
      es.map some = ks.map (fun k => m.get k) ∧
      es.length = ks.length ∧ es.length = m.len := by
  cases m with
  | none =>
    exact ⟨[], [], rfl, List.nodup_nil, fun k => by simp [dirMapVar.get], rfl, rfl, rfl⟩
  | some dm =>
    refine ⟨dm.entries.map (fun p : Sigma (fun _ : ZettelID => Entry) => p.2), dm.keys, rfl,
      dm.keys_nodup, ?_, ?_, ?_, ?_⟩
    · intro k
      rw [dirMapVar.get_some, AList.lookup_isSome, AList.mem_keys]
    · simp only [AList.keys, List.keys, List.map_map]
      apply List.map_congr_left
      intro p hp
      simp only [Function.comp, dirMapVar.get_some]
      exact (Option.mem_def.mp (AList.mem_lookup_iff.mpr hp)).symm
    · simp [AList.keys, List.keys]
    · simp [dirMapVar.len]

/-- C16 witness: the index with the ids 1 and 2 gives a list of two entries. -/
theorem C16_get_entries_witness :
    ∃ (es : List Entry),
      cmdGetEntries.run (some ((dirMap.make.insert 1 (Entry.zero 1)).insert 2 (Entry.zero 2)))
        = .ok (some ((dirMap.make.insert 1 (Entry.zero 1)).insert 2 (Entry.zero 2)), es) ∧
      es.length = 2 := by
  obtain ⟨es, ks, h1, _, _, _, _, h6⟩ := C16_get_entries
    (some ((dirMap.make.insert 1 (Entry.zero 1)).insert 2 (Entry.zero 2)))
  exact ⟨es, h1, by rw [h6]; rfl⟩

/-! ## Subscriber callbacks -/

theorem Service.notifyChange_calls (srv : Service) (all : Bool) (zid : ZettelID) :
    (srv.notifyChange all zid).filter Effect.isCall = srv.notifyChange all zid := by
  unfold Service.notifyChange
  induction srv.changeFuncs with
  | nil => rfl
  | cons f rest ih => simp [Effect.isCall]

/-- C17 as stated fails: with one subscriber registered, `UpdateEntry` for the id 1
on the empty index changes the index and the only effect is the value sent on
the result channel; no callback is called. -/
theorem C17_command_without_callback_counterexample :
    directoryService.step { changeFuncs := [0] } 0 ActorState.init
        (.command (.cmdUpdateEntry (Entry.zero 1)))
      = .ok (ActorState.mk (some (dirMap.make.insert 1 (Entry.zero 1))) none true,
          [Effect.result Reply.resUpdateEntry]) ∧
    [Effect.result Reply.resUpdateEntry].filter Effect.isCall = [] ∧
    Effect.call 0 false 1 ∉ [Effect.result Reply.resUpdateEntry] :=
  ⟨rfl, rfl, by simp⟩

/-- C17 (amended): no command applied by the actor calls a subscriber callback: the
only effect of a command, state-changing or not, is the value it sends on its
result channel. -/
theorem C17_commands_call_no_subscriber (srv : Service) (fuel : Nat) (s s1 : ActorState)
    (cmd : dirCmd) (out : List Effect)
    (h : directoryService.step srv fuel s (.command cmd) = .ok (s1, out)) :
    (∃ r, out = [Effect.result r]) ∧ out.filter Effect.isCall = [] ∧
    ∀ f all zid, Effect.call f all zid ∉ out := by
  obtain ⟨cm, r, _, _, hout⟩ := directoryService.step_command srv fuel s s1 cmd out h
  subst hout
  exact ⟨⟨r, rfl⟩, rfl, by simp⟩

/-- C17 witness: a `DeleteEntry` for a key of the index, with two subscribers. -/
theorem C17_commands_witness :
    (∃ r, [Effect.result Reply.resDeleteEntry] = [Effect.result r]) ∧
    [Effect.result Reply.resDeleteEntry].filter Effect.isCall = [] ∧
    ∀ f all zid, Effect.call f all zid ∉ [Effect.result Reply.resDeleteEntry] :=
  C17_commands_call_no_subscriber { changeFuncs := [0, 1] } 0
    (ActorState.mk (some (dirMap.make.insert 1 (Entry.zero 1))) none false)
    (ActorState.mk (some ((dirMap.make.insert 1 (Entry.zero 1)).erase 1)) none false)
    (.cmdDeleteEntry 1) [Effect.result Reply.resDeleteEntry] (by rfl)

/-- C18 as stated fails on a nil current index: a reload-end that no reload-start
precedes leaves the actor with no reload in progress and the current index
nil, and an update event then panics before any callback is called. -/
theorem C18_nil_index_counterexample :
    directoryService.step { changeFuncs := [0] } 0 ActorState.init
        (.event (exampleEvent fileStatusReloadEnd 0))
      = .ok (ActorState.mk none none false,
          [Effect.ready 0, Effect.call 0 true InvalidZettelID]) ∧
    directoryService.step { changeFuncs := [0] } 0 (ActorState.mk none none false)
        (.event (exampleUpdate 1 "1.md" "md"))
      = .error Fault.nilMapWrite :=
  ⟨rfl, rfl⟩

/-- C18 (amended): while no reload is in progress, a delete event, and an update
event when the current index is not nil, is applied without fault and calls
every registered callback once, in the order of registration, with
`all = false` and the id of the event; nothing else happens to the outside. -/
theorem C18_event_notifies_once (srv : Service) (fuel : Nat) (s : ActorState)
    (ev : fileEvent) (hnew : s.newMap = none)
    (hev : (ev.status = fileStatusUpdate ∧ s.curMap ≠ none) ∨ ev.status = fileStatusDelete) :
    ∃ s1, directoryService.step srv fuel s (.event ev)
      = .ok (s1, srv.changeFuncs.map (fun changeF => Effect.call changeF false ev.zid)) := by
  obtain ⟨cm, nm, rdy⟩ := s
  simp only at hnew
  subst hnew
  rcases hev with ⟨hst, hcur⟩ | hst
  · cases cm with
    | none => exact absurd rfl hcur
    | some dm =>
      refine ⟨ActorState.mk (some (dm.insert ev.zid
        ((dm.lookup ev.zid).elim (newEntry ev) (fun de => updateEntry de ev)))) none rdy, ?_⟩
      simp only [directoryService.step, directoryService.onEvent, hst, dirMapUpdate_some,
        Service.notifyChange]
  · refine ⟨ActorState.mk (cm.delete ev.zid) none rdy, ?_⟩
    simp only [directoryService.step, directoryService.onEvent, hst, Service.notifyChange]

/-- C18 witness: an update event for `1.md` with the subscribers 0 and 1. -/
theorem C18_event_notifies_witness :
    ∃ s1, directoryService.step { changeFuncs := [0, 1] } 0 ActorState.init
        (.event (exampleUpdate 1 "1.md" "md"))
      = .ok (s1, [Effect.call 0 false 1, Effect.call 1 false 1]) :=
  C18_event_notifies_once { changeFuncs := [0, 1] } 0 ActorState.init
    (exampleUpdate 1 "1.md" "md") rfl (Or.inl ⟨rfl, by simp [ActorState.init]⟩)

/-- During a reload an update, delete or error event is applied without fault, leaves
the reload in progress and calls no callback. -/
theorem directoryService.step_reloading_quiet (srv : Service) (fuel : Nat) (s : ActorState)
    (ev : fileEvent) (hnm : s.newMap ≠ none)
    (hst : ev.status = fileStatusUpdate ∨ ev.status = fileStatusDelete ∨
      ev.status = fileStatusError) :
    ∃ s1 out, directoryService.step srv fuel s (.event ev) = .ok (s1, out) ∧
      s1.newMap ≠ none ∧ out.filter Effect.isCall = [] := by
  obtain ⟨cm, nm0, rdy⟩ := s
  cases nm0 with
  | none => exact absurd rfl hnm
  | some nm =>
    rcases hst with h | h | h
    · refine ⟨ActorState.mk cm (some (nm.insert ev.zid
        ((nm.lookup ev.zid).elim (newEntry ev) (fun de => updateEntry de ev)))) rdy, [],
        ?_, by simp, rfl⟩
      simp only [directoryService.step, directoryService.onEvent, h, dirMapUpdate_some]
    · refine ⟨ActorState.mk cm (some (nm.erase ev.zid)) rdy, [], ?_, by simp, rfl⟩
      simp only [directoryService.step, directoryService.onEvent, h, dirMapVar.delete]
    · refine ⟨ActorState.mk cm (some nm) rdy, [Effect.log ev.err], ?_, by simp, rfl⟩
      simp only [directoryService.step, directoryService.onEvent, h]

/-- The file events of a reload are got through and call no callback. -/
theorem directoryService.reloading_quiet (srv : Service) (fuel : Nat)
    (evs : List fileEvent) :
    ∀ s : ActorState, s.newMap ≠ none →
      (∀ ev ∈ evs, ev.status = fileStatusUpdate ∨ ev.status = fileStatusDelete ∨
        ev.status = fileStatusError) →
      ∃ s1 out, directoryService srv fuel s (evs.map Item.event) = .ok (s1, out) ∧
        s1.newMap ≠ none ∧ out.filter Effect.isCall = [] := by
  induction evs with
  | nil => exact fun s h _ => ⟨s, [], rfl, h, rfl⟩
  | cons ev rest ih =>
    intro s hnm hevs
    obtain ⟨sa, outa, h1, h2, h3⟩ := directoryService.step_reloading_quiet srv fuel s ev hnm
      (hevs ev (List.mem_cons_self _ _))
    obtain ⟨s1, out1, h4, h5, h6⟩ := ih sa h2 (fun e he => hevs e (List.mem_cons_of_mem _ he))
    refine ⟨s1, outa ++ out1, ?_, h5, ?_⟩
    · exact directoryService.cons_ok srv fuel s sa s1 (.event ev) (rest.map Item.event)
        outa out1 h1 h4
    · rw [List.filter_append, h3, h6]
      rfl

/-- The calls of a reload-end: every registered callback once, with `all = true` and
the invalid id. -/
theorem directoryService.step_reloadEnd_calls (srv : Service) (fuel : Nat) (s : ActorState)
    (ev : fileEvent) (h : ev.status = fileStatusReloadEnd) :
    ∃ out, directoryService.step srv fuel s (.event ev)
        = .ok (ActorState.mk s.newMap none false, out) ∧
      out.filter Effect.isCall
        = srv.changeFuncs.map (fun changeF => Effect.call changeF true InvalidZettelID) := by
  obtain ⟨cm, nm, rdy⟩ := s
  have hc := Service.notifyChange_calls srv true InvalidZettelID
  cases rdy with
  | true =>
    refine ⟨Effect.ready (dirMapVar.len nm) :: srv.notifyChange true InvalidZettelID,
      by simp [directoryService.step, directoryService.onEvent, h], ?_⟩
    rw [List.filter_cons_of_neg (by simp [Effect.isCall]), hc]
    rfl
  | false =>
    refine ⟨srv.notifyChange true InvalidZettelID,
      by simp [directoryService.step, directoryService.onEvent, h], ?_⟩
    rw [hc]
    rfl

/-- C19: a reload (a reload-start, then update, delete and error events, then the
reload-end) is got through from every state; up to the reload-end no callback
is called, the reload-end calls every registered callback once, with
`all = true` and the invalid id, and these are all the calls of the reload. -/
theorem C19_reload_notifies_once (srv : Service) (fuel : Nat) (s : ActorState)
    (evStart evEnd : fileEvent) (evs : List fileEvent)
    (hStart : evStart.status = fileStatusReloadStart)
    (hEnd : evEnd.status = fileStatusReloadEnd)
    (hevs : ∀ ev ∈ evs, ev.status = fileStatusUpdate ∨ ev.status = fileStatusDelete ∨
      ev.status = fileStatusError) :
    ∃ sa out0 s1 outEnd,
      directoryService srv fuel s (.event evStart :: evs.map Item.event) = .ok (sa, out0) ∧
      out0.filter Effect.isCall = [] ∧
      directoryService.step srv fuel sa (.event evEnd) = .ok (s1, outEnd) ∧
      outEnd.filter Effect.isCall
        = srv.changeFuncs.map (fun changeF => Effect.call changeF true InvalidZettelID) ∧
      directoryService srv fuel s (.event evStart :: evs.map Item.event ++ [.event evEnd])
        = .ok (s1, out0 ++ outEnd) ∧
      (out0 ++ outEnd).filter Effect.isCall
        = srv.changeFuncs.map (fun changeF => Effect.call changeF true InvalidZettelID) := by
  have hs0 := directoryService.step_reloadStart srv fuel s evStart hStart
  obtain ⟨sa, out0, h1, _, h3⟩ := directoryService.reloading_quiet srv fuel evs
    (ActorState.mk s.curMap (some dirMap.make) s.ready) (by simp) hevs
  obtain ⟨outEnd, h4, h5⟩ := directoryService.step_reloadEnd_calls srv fuel sa evEnd hEnd
  have hrun0 : directoryService srv fuel s (.event evStart :: evs.map Item.event)
      = .ok (sa, [] ++ out0) :=
    directoryService.cons_ok srv fuel s _ sa _ _ [] out0 hs0 h1
  have hlast : directoryService srv fuel sa [.event evEnd]
      = .ok (ActorState.mk sa.newMap none false, outEnd ++ []) :=
    directoryService.cons_ok srv fuel sa _ _ _ [] outEnd [] h4 rfl
  rw [List.nil_append] at hrun0
  rw [List.append_nil] at hlast
  refine ⟨sa, out0, ActorState.mk sa.newMap none false, outEnd, hrun0, h3, h4, h5, ?_, ?_⟩
  · exact directoryService.append_ok srv fuel (.event evStart :: evs.map Item.event)
      [.event evEnd] s sa _ out0 outEnd hrun0 hlast
  · rw [List.filter_append, h3, h5]
    rfl

/-- C19 witness: the reload `1.md`, error, `2.txt`, error with the subscribers 0 and
1, from the start state: the whole trace holds exactly two calls. -/
theorem C19_reload_notifies_witness :
    ∃ s1 out, directoryService { changeFuncs := [0, 1] } 0 ActorState.init
        exampleReloadWithErrors = .ok (s1, out) ∧
      out.filter Effect.isCall
        = [Effect.call 0 true InvalidZettelID, Effect.call 1 true InvalidZettelID] := by
  obtain ⟨sa, out0, s1, outEnd, _, _, _, _, h5, h6⟩ := C19_reload_notifies_once
    { changeFuncs := [0, 1] } 0 ActorState.init
    (exampleEvent fileStatusReloadStart 0) (exampleEvent fileStatusReloadEnd 0)
    [exampleUpdate 1 "1.md" "md", fileEvent.mk fileStatusError "" 0 "" "read error",
     exampleUpdate 2 "2.txt" "txt", fileEvent.mk fileStatusError "" 0 "" "read error"]
    rfl rfl (by decide)
  exact ⟨s1, out0 ++ outEnd, h5, h6⟩

/-! ## Error events -/

theorem directoryService.cons_step_error (srv : Service) (fuel : Nat) (s : ActorState)
    (item : Item) (rest : List Item) (f : Fault)
    (h : directoryService.step srv fuel s item = .error f) :
    directoryService srv fuel s (item :: rest) = .error f := by
  simp only [directoryService, h]

theorem directoryService.cons_rest_error (srv : Service) (fuel : Nat) (s s1 : ActorState)
    (item : Item) (rest : List Item) (out1 : List Effect) (f : Fault)
    (h1 : directoryService.step srv fuel s item = .ok (s1, out1))
    (h2 : directoryService srv fuel s1 rest = .error f) :
    directoryService srv fuel s (item :: rest) = .error f := by
  simp only [directoryService, h1, h2]

/-- An error event is logged and nothing else: the state is the same afterwards. -/
theorem directoryService.step_error (srv : Service) (fuel : Nat) (s : ActorState)
    (ev : fileEvent) (h : ev.status = fileStatusError) :
    directoryService.step srv fuel s (.event ev) = .ok (s, [Effect.log ev.err]) := by
  simp only [directoryService.step, directoryService.onEvent, h]

/-- Leaving the error events out of the items changes neither the outcome of the
loop, state or fault, nor the calls of callbacks. -/
theorem directoryService.without_errors (srv : Service) (fuel : Nat) (items : List Item) :
    ∀ s : ActorState,
      (directoryService srv fuel s items).map (fun r => (r.1, r.2.filter Effect.isCall))
      = (directoryService srv fuel s (items.filter (fun it => !it.isErrorEvent))).map
          (fun r => (r.1, r.2.filter Effect.isCall)) := by
  induction items with
  | nil => exact fun s => rfl
  | cons item rest ih =>
    intro s
    by_cases herr : item.isErrorEvent = true
    · rw [List.filter_cons_of_neg (by simp [herr]), ← ih s]
      cases item with
      | command cmd => simp [Item.isErrorEvent] at herr
      | event ev =>
        have hst : ev.status = fileStatusError := by
          cases h : ev.status <;> simp [Item.isErrorEvent, h] at herr
          rfl
        have hstep := directoryService.step_error srv fuel s ev hst
        cases hr : directoryService srv fuel s rest with
        | error f =>
          rw [directoryService.cons_rest_error srv fuel s s _ rest _ f hstep hr]
        | ok r =>
          obtain ⟨s2, out2⟩ := r
          rw [directoryService.cons_ok srv fuel s s s2 _ rest _ out2 hstep hr]
          rfl
    · rw [List.filter_cons_of_pos (by simp [herr])]
      cases h1 : directoryService.step srv fuel s item with
      | error f =>
        rw [directoryService.cons_step_error srv fuel s item rest f h1,
          directoryService.cons_step_error srv fuel s item _ f h1]
      | ok r1 =>
        obtain ⟨s1, out1⟩ := r1
        have hi := ih s1
        cases h2 : directoryService srv fuel s1 rest with
        | error f =>
          cases h3 : directoryService srv fuel s1
              (rest.filter (fun it => !it.isErrorEvent)) with
          | error f3 =>
            rw [h2, h3] at hi
            rw [directoryService.cons_rest_error srv fuel s s1 item rest out1 f h1 h2,
              directoryService.cons_rest_error srv fuel s s1 item _ out1 f3 h1 h3]
            exact hi
          | ok r3 =>
            rw [h2, h3] at hi
            cases hi
        | ok r2 =>
          obtain ⟨s2, out2⟩ := r2
          cases h3 : directoryService srv fuel s1
              (rest.filter (fun it => !it.isErrorEvent)) with
          | error f3 =>
            rw [h2, h3] at hi
            cases hi
          | ok r3 =>
            obtain ⟨s3, out3⟩ := r3
            rw [h2, h3] at hi
            rw [directoryService.cons_ok srv fuel s s1 s2 item rest out1 out2 h1 h2,
              directoryService.cons_ok srv fuel s s1 s3 item _ out1 out3 h1 h3]
            simp only [Except.map, Except.ok.injEq, Prod.mk.injEq] at hi ⊢
            rw [List.filter_append, List.filter_append, hi.1, hi.2]
            exact ⟨rfl, rfl⟩

/-- C20: an error event is applied without fault from every state, leaves the
current index, the shadow index and the ready flag as they are, and its only
effect is the log line: no callback is called.  A run of the actor over any
items, a reload with error events in particular, ends in the same state, or
with the same fault, and with the same calls as the run over the items without
the error events. -/
theorem C20_error_event_ignored :
    (∀ (srv : Service) (fuel : Nat) (s : ActorState) (ev : fileEvent),
      ev.status = fileStatusError →
      directoryService.step srv fuel s (.event ev) = .ok (s, [Effect.log ev.err]) ∧
      [Effect.log ev.err].filter Effect.isCall = []) ∧
    (∀ (srv : Service) (fuel : Nat) (s : ActorState) (items : List Item),
      (directoryService srv fuel s items).map (fun r => (r.1, r.2.filter Effect.isCall))
      = (directoryService srv fuel s (items.filter (fun it => !it.isErrorEvent))).map
          (fun r => (r.1, r.2.filter Effect.isCall))) :=
  ⟨fun srv fuel s ev h => ⟨directoryService.step_error srv fuel s ev h, rfl⟩,
   fun srv fuel s items => directoryService.without_errors srv fuel items s⟩

/-- C20 witness: the reload `1.md`, error, `2.txt`, error ends as the reload `1.md`,
`2.txt` does: with the two entries as the current index and the same calls. -/
theorem C20_error_event_witness :
    (directoryService { changeFuncs := [0] } 0 ActorState.init exampleReloadWithErrors).map
        (fun r => (r.1, r.2.filter Effect.isCall))
      = .ok (ActorState.mk
          (some ((dirMap.make.insert 1 (newEntry (exampleUpdate 1 "1.md" "md"))).insert 2
            (newEntry (exampleUpdate 2 "2.txt" "txt")))) none false,
          [Effect.call 0 true InvalidZettelID]) := by
  rw [C20_error_event_ignored.2 { changeFuncs := [0] } 0 ActorState.init
    exampleReloadWithErrors]
  rfl

/-! ## A repeated file event -/

/-- C28: applying `updateEntry` twice with the same event gives the same entry as
applying it once. -/
theorem C28_updateEntry_idempotent (de : Entry) (ev : fileEvent) :
    updateEntry (updateEntry de ev) ev = updateEntry de ev := by
  obtain ⟨zid, ms, mp, cp, ce, dup⟩ := de
  by_cases hmeta : ev.ext = "meta"
  · simp [updateEntry, hmeta]
  · by_cases hdup : ce.length ≠ 0 ∧ ce ≠ ev.ext
    · simp [updateEntry, hmeta, hdup]
    · have hsame : ¬ ((ev.ext).length ≠ 0 ∧ ev.ext ≠ ev.ext) := fun h => h.2 rfl
      by_cases hfile : ms = MetaSpecFile
      · simp only [updateEntry, if_neg hmeta, if_neg hdup, if_neg hsame, hfile]
        simp
      · by_cases hz : ev.ext = "zettel"
        · simp only [updateEntry, if_neg hmeta, if_neg hdup, if_neg hsame, if_pos hz]
          simp [hfile]
        · simp only [updateEntry, if_neg hmeta, if_neg hdup, if_neg hsame, if_neg hz]
          simp [hfile]

/-! ## Every entry carries the id it is stored under -/

theorem dirMapVar.Keyed_none : dirMapVar.Keyed none := by
  intro zid e h
  simp [dirMapVar.get] at h

theorem dirMapVar.Keyed_make : dirMapVar.Keyed (some dirMap.make) := by
  intro zid e h
  simp [dirMapVar.get, dirMap.make] at h

theorem dirMapVar.Keyed_insert (m : dirMap) (k : ZettelID) (v : Entry)
    (hm : dirMapVar.Keyed (some m)) (hv : v.Zid = k) :
    dirMapVar.Keyed (some (m.insert k v)) := by
  intro zid e h
  rw [dirMapVar.get_some] at h
  by_cases hz : zid = k
  · subst hz
    rw [AList.lookup_insert] at h
    injection h with h
    rw [← h]
    exact hv
  · rw [AList.lookup_insert_ne hz] at h
    exact hm zid e h

theorem dirMapVar.Keyed_delete (m : dirMapVar) (k : ZettelID) (hm : dirMapVar.Keyed m) :
    dirMapVar.Keyed (m.delete k) := by
  cases m with
  | none => exact hm
  | some dm =>
    intro zid e h
    rw [dirMapVar.delete_some, dirMapVar.get_some] at h
    by_cases hz : zid = k
    · subst hz
      rw [AList.lookup_erase] at h
      cases h
    · rw [AList.lookup_erase_ne hz] at h
      exact hm zid e h

theorem dirMapUpdate_Keyed (m m1 : dirMapVar) (ev : fileEvent) (hm : dirMapVar.Keyed m)
    (h : dirMapUpdate m ev = .ok m1) : dirMapVar.Keyed m1 := by
  cases m with
  | none => simp [dirMapUpdate, dirMapVar.get, dirMapVar.set] at h
  | some dm =>
    rw [dirMapUpdate_some] at h
    injection h with h
    rw [← h]
    apply dirMapVar.Keyed_insert dm _ _ hm
    cases hl : dm.lookup ev.zid with
    | none => exact updateEntry_Zid _ _
    | some de =>
      simp only [Option.elim, updateEntry_Zid]
      exact hm ev.zid de hl

theorem dirCmd_run_Keyed (fuel : Nat) (m m1 : dirMapVar) (cmd : dirCmd) (r : Reply)
    (hm : dirMapVar.Keyed m) (h : cmd.run fuel m = .ok (m1, r)) : dirMapVar.Keyed m1 := by
  cases cmd with
  | cmdGetEntries =>
    have : m1 = m := by
      cases m <;>
        · simp only [dirCmd.run, cmdGetEntries.run, Except.map] at h
          injection h with h
          injection h with h1 _
          exact h1.symm
    rw [this]
    exact hm
  | cmdGetEntry zid =>
    have : m1 = m := by
      simp only [dirCmd.run, cmdGetEntry.run] at h
      cases hg : dirMapVar.get m zid <;>
        · simp only [hg, Except.map] at h
          injection h with h
          injection h with h1 _
          exact h1.symm
    rw [this]
    exact hm
  | cmdNewEntry gen =>
    cases m with
    | none =>
      simp [dirCmd.run, cmdNewEntry.run, dirMapVar.get, dirMapVar.set, Except.map] at h
    | some dm =>
      simp only [dirCmd.run] at h
      rcases cmdNewEntry.run_cases gen fuel dm with ⟨j, _, _, _, hj⟩ | ⟨_, hf⟩
      · rw [hj] at h
        simp only [Except.map] at h
        injection h with h
        injection h with h1 _
        rw [← h1]
        exact dirMapVar.Keyed_insert dm _ _ hm rfl
      · rw [hf] at h
        simp [Except.map] at h
  | cmdUpdateEntry entry =>
    cases m with
    | none => simp [dirCmd.run, cmdUpdateEntry.run, dirMapVar.set, Except.map] at h
    | some dm =>
      simp only [dirCmd.run, cmdUpdateEntry.run, dirMapVar.set, Except.map] at h
      injection h with h
      injection h with h1 _
      rw [← h1]
      exact dirMapVar.Keyed_insert dm _ _ hm rfl
  | cmdRenameEntry curEntry newEntry =>
    cases m with
    | none =>
      simp [dirCmd.run, cmdRenameEntry.run, dirMapVar.get, dirMapVar.set, dirMapVar.delete,
        Except.map] at h
    | some dm =>
      cases hl : dm.lookup newEntry.Zid with
      | some e =>
        simp only [dirCmd.run, cmdRenameEntry.run, dirMapVar.get, hl, Except.map] at h
        injection h with h
        injection h with h1 _
        rw [← h1]
        exact hm
      | none =>
        simp only [dirCmd.run, cmdRenameEntry.run, dirMapVar.get, dirMapVar.set,
          dirMapVar.delete, hl, Except.map] at h
        injection h with h
        injection h with h1 _
        rw [← h1]
        exact dirMapVar.Keyed_insert _ _ _
          (dirMapVar.Keyed_delete (some dm) curEntry.Zid hm) rfl
  | cmdDeleteEntry zid =>
    simp only [dirCmd.run, cmdDeleteEntry.run, Except.map] at h
    injection h with h
    injection h with h1 _
    rw [← h1]
    exact dirMapVar.Keyed_delete m zid hm

theorem directoryService.step_Keyed (srv : Service) (fuel : Nat) (s s1 : ActorState)
    (item : Item) (out : List Effect)
    (hc : dirMapVar.Keyed s.curMap) (hn : dirMapVar.Keyed s.newMap)
    (h : directoryService.step srv fuel s item = .ok (s1, out)) :
    dirMapVar.Keyed s1.curMap ∧ dirMapVar.Keyed s1.newMap := by
  cases item with
  | command cmd =>
    obtain ⟨cm, r, hrun, hs, _⟩ := directoryService.step_command srv fuel s s1 cmd out h
    rw [hs]
    exact ⟨dirCmd_run_Keyed fuel s.curMap cm cmd r hc hrun, hn⟩
  | event ev =>
    obtain ⟨cm, nm, rdy⟩ := s
    simp only at hc hn
    cases hst : ev.status with
    | fileStatusReloadStart =>
      rw [directoryService.step_reloadStart srv fuel _ ev hst] at h
      injection h with h
      injection h with h1 _
      rw [← h1]
      exact ⟨hc, dirMapVar.Keyed_make⟩
    | fileStatusReloadEnd =>
      obtain ⟨o, ho⟩ := directoryService.step_reloadEnd srv fuel
        (ActorState.mk cm nm rdy) ev hst
      rw [ho] at h
      injection h with h
      injection h with h1 _
      rw [← h1]
      exact ⟨hn, dirMapVar.Keyed_none⟩
    | fileStatusError =>
      rw [directoryService.step_error srv fuel _ ev hst] at h
      injection h with h
      injection h with h1 _
      rw [← h1]
      exact ⟨hc, hn⟩
    | fileStatusUpdate =>
      cases nm with
      | some dm =>
        simp only [directoryService.step, directoryService.onEvent, hst] at h
        cases hu : dirMapUpdate (some dm) ev with
        | error f => simp [hu] at h
        | ok m1 =>
          simp only [hu] at h
          injection h with h
          injection h with h1 _
          rw [← h1]
          exact ⟨hc, dirMapUpdate_Keyed _ _ ev hn hu⟩
      | none =>
        simp only [directoryService.step, directoryService.onEvent, hst] at h
        cases hu : dirMapUpdate cm ev with
        | error f => simp [hu] at h
        | ok m1 =>
          simp only [hu] at h
          injection h with h
          injection h with h1 _
          rw [← h1]
          exact ⟨dirMapUpdate_Keyed _ _ ev hc hu, hn⟩
    | fileStatusDelete =>
      cases nm with
      | some dm =>
        simp only [directoryService.step, directoryService.onEvent, hst] at h
        injection h with h
        injection h with h1 _
        rw [← h1]
        exact ⟨hc, dirMapVar.Keyed_delete _ _ hn⟩
      | none =>
        simp only [directoryService.step, directoryService.onEvent, hst] at h
        injection h with h
        injection h with h1 _
        rw [← h1]
        exact ⟨dirMapVar.Keyed_delete _ _ hc, hn⟩

theorem directoryService.run_Keyed (srv : Service) (fuel : Nat) (items : List Item) :
    ∀ (s s1 : ActorState) (out : List Effect),
      dirMapVar.Keyed s.curMap → dirMapVar.Keyed s.newMap →
      directoryService srv fuel s items = .ok (s1, out) →
      dirMapVar.Keyed s1.curMap ∧ dirMapVar.Keyed s1.newMap := by
  induction items with
  | nil =>
    intro s s1 out hc hn h
    simp only [directoryService] at h
    injection h with h
    injection h with h1 _
    rw [← h1]
    exact ⟨hc, hn⟩
  | cons item rest ih =>
    intro s s1 out hc hn h
    obtain ⟨sa, outa, outb, ha, hb, _⟩ :=
      directoryService.cons_inv srv fuel s s1 item rest out h
    obtain ⟨h1, h2⟩ := directoryService.step_Keyed srv fuel s sa item outa hc hn ha
    exact ih sa s1 outb h1 h2 hb

/-- C26: in every state that the actor reaches from its start state (empty current
index, no shadow index) over any items, every entry of the current index and
of the shadow index carries the id it is stored under. -/
theorem C26_entries_carry_their_key (srv : Service) (fuel : Nat) (items : List Item)
    (s : ActorState) (out : List Effect)
    (h : directoryService srv fuel ActorState.init items = .ok (s, out)) :
    (∀ zid e, s.curMap.get zid = some e → e.Zid = zid) ∧
    (∀ zid e, s.newMap.get zid = some e → e.Zid = zid) :=
  directoryService.run_Keyed srv fuel items ActorState.init s out
    dirMapVar.Keyed_make dirMapVar.Keyed_none h

/-- C26 witness: after an update event for `1.md` and the rename of the id 1 to the
id 3, the index holds one entry, stored under its own id 3. -/
theorem C26_entries_carry_their_key_witness :
    directoryService { changeFuncs := [] } 0 ActorState.init exampleUpdateRename
      = .ok (ActorState.mk
          (some (dirMap.make.insert 3 (Entry.mk 3 MetaSpecNone "" "3.md" "md" false)))
          none true, [Effect.result (Reply.resRenameEntry none)]) ∧
    (∀ zid e,
      dirMapVar.get
        (some (dirMap.make.insert 3 (Entry.mk 3 MetaSpecNone "" "3.md" "md" false))) zid
        = some e → e.Zid = zid) :=
  ⟨rfl, (C26_entries_carry_their_key { changeFuncs := [] } 0 exampleUpdateRename
    (ActorState.mk
      (some (dirMap.make.insert 3 (Entry.mk 3 MetaSpecNone "" "3.md" "md" false)))
      none true) [Effect.result (Reply.resRenameEntry none)] (by rfl)).1⟩

/-! ## The current index is not nil -/

/-- On an allocated map no command writes to a nil map, and the map stays allocated. -/
theorem dirCmd_run_allocated (fuel : Nat) (cm : dirMap) (cmd : dirCmd) :
    cmd.run fuel (some cm) ≠ .error Fault.nilMapWrite ∧
    ∀ m1 r, cmd.run fuel (some cm) = .ok (m1, r) → m1 ≠ none := by
  cases cmd with
  | cmdGetEntries =>
    simp [dirCmd.run, cmdGetEntries.run, Except.map]
  | cmdGetEntry zid =>
    cases h : cm.lookup zid <;> simp [dirCmd.run, cmdGetEntry.run, dirMapVar.get, h, Except.map]
  | cmdNewEntry gen =>
    rcases cmdNewEntry.run_cases gen fuel cm with ⟨j, _, _, _, hj⟩ | ⟨_, hf⟩
    · simp [dirCmd.run, hj, Except.map]
    · simp [dirCmd.run, hf, Except.map]
  | cmdUpdateEntry entry =>
    simp [dirCmd.run, cmdUpdateEntry.run, dirMapVar.set, Except.map]
  | cmdRenameEntry curEntry newEntry =>
    cases h : cm.lookup newEntry.Zid <;>
      simp [dirCmd.run, cmdRenameEntry.run, dirMapVar.get, dirMapVar.set, dirMapVar.delete, h,
        Except.map]
  | cmdDeleteEntry zid =>
    simp [dirCmd.run, cmdDeleteEntry.run, dirMapVar.delete, Except.map]

theorem reloadProtocol_cons (isOpen b2 : Bool) (item : Item) (rest : List Item)
    (h : reloadProtocol isOpen (item :: rest) = some b2) :
    ∃ b1, reloadProtocol isOpen [item] = some b1 ∧ reloadProtocol b1 rest = some b2 := by
  cases item with
  | command cmd => exact ⟨isOpen, rfl, h⟩
  | event ev =>
    cases hst : ev.status with
    | fileStatusReloadStart =>
      simp only [reloadProtocol, hst] at h ⊢
      exact ⟨true, rfl, h⟩
    | fileStatusReloadEnd =>
      cases isOpen with
      | true =>
        simp only [reloadProtocol, hst, if_true] at h ⊢
        exact ⟨false, rfl, h⟩
      | false => simp [reloadProtocol, hst] at h
    | fileStatusError =>
      simp only [reloadProtocol, hst] at h ⊢
      exact ⟨isOpen, rfl, h⟩
    | fileStatusUpdate =>
      simp only [reloadProtocol, hst] at h ⊢
      exact ⟨isOpen, rfl, h⟩
    | fileStatusDelete =>
      simp only [reloadProtocol, hst] at h ⊢
      exact ⟨isOpen, rfl, h⟩

/-- A prefix of items that keep the reload protocol keeps it. -/
theorem reloadProtocol_prefix (pre post : List Item) :
    ∀ (isOpen b2 : Bool), reloadProtocol isOpen (pre ++ post) = some b2 →
      ∃ b1, reloadProtocol isOpen pre = some b1 := by
  induction pre with
  | nil => exact fun isOpen _ _ => ⟨isOpen, rfl⟩
  | cons item rest ih =>
    intro isOpen b2 h
    cases item with
    | command cmd => exact ih isOpen b2 h
    | event ev =>
      cases hst : ev.status with
      | fileStatusReloadStart =>
        simp only [List.cons_append, reloadProtocol, hst] at h ⊢
        exact ih true b2 h
      | fileStatusReloadEnd =>
        cases isOpen with
        | true =>
          simp only [List.cons_append, reloadProtocol, hst, if_true] at h ⊢
          exact ih false b2 h
        | false => simp [reloadProtocol, hst] at h
      | fileStatusError =>
        simp only [List.cons_append, reloadProtocol, hst] at h ⊢
        exact ih isOpen b2 h
      | fileStatusUpdate =>
        simp only [List.cons_append, reloadProtocol, hst] at h ⊢
        exact ih isOpen b2 h
      | fileStatusDelete =>
        simp only [List.cons_append, reloadProtocol, hst] at h ⊢
        exact ih isOpen b2 h

/-- One iteration under the reload protocol: with an allocated current index, and a
shadow index exactly while a reload is open, the iteration does not write to a
nil map and the same holds afterwards. -/
theorem directoryService.step_protocol (srv : Service) (fuel : Nat) (s : ActorState)
    (item : Item) (isOpen b1 : Bool) (hcur : s.curMap ≠ none)
    (hnew : s.newMap ≠ none ↔ isOpen = true)
    (hp : reloadProtocol isOpen [item] = some b1) :
    directoryService.step srv fuel s item ≠ .error Fault.nilMapWrite ∧
    ∀ s1 out, directoryService.step srv fuel s item = .ok (s1, out) →
      s1.curMap ≠ none ∧ (s1.newMap ≠ none ↔ b1 = true) := by
  obtain ⟨cm0, nm, rdy⟩ := s
  cases cm0 with
  | none => exact absurd rfl hcur
  | some cm =>
    cases item with
    | command cmd =>
      have hb : b1 = isOpen := by
        simp only [reloadProtocol] at hp
        injection hp with hp
        exact hp.symm
      obtain ⟨h1, h2⟩ := dirCmd_run_allocated fuel cm cmd
      constructor
      · intro herr
        simp only [directoryService.step] at herr
        cases hr : cmd.run fuel (some cm) with
        | error f =>
          rw [hr] at herr
          injection herr with herr
          rw [herr] at hr
          exact h1 hr
        | ok r =>
          rw [hr] at herr
          cases herr
      · intro s1 out hstep
        obtain ⟨m1, r, hrun, hs, _⟩ := directoryService.step_command srv fuel _ s1 cmd out hstep
        rw [hs, hb]
        exact ⟨h2 m1 r hrun, hnew⟩
    | event ev =>
      cases hst : ev.status with
      | fileStatusReloadStart =>
        simp only [reloadProtocol, hst] at hp
        injection hp with hp
        rw [directoryService.step_reloadStart srv fuel _ ev hst]
        refine ⟨by simp, ?_⟩
        intro s1 out h
        injection h with h
        injection h with h1 _
        rw [← h1, ← hp]
        simp
      | fileStatusReloadEnd =>
        cases isOpen with
        | false => simp [reloadProtocol, hst] at hp
        | true =>
          simp only [reloadProtocol, hst, if_true] at hp
          injection hp with hp
          obtain ⟨o, ho⟩ := directoryService.step_reloadEnd srv fuel
            (ActorState.mk (some cm) nm rdy) ev hst
          rw [ho]
          refine ⟨by simp, ?_⟩
          intro s1 out h
          injection h with h
          injection h with h1 _
          rw [← h1, ← hp]
          exact ⟨hnew.mpr rfl, by simp⟩
      | fileStatusError =>
        simp only [reloadProtocol, hst] at hp
        injection hp with hp
        rw [directoryService.step_error srv fuel _ ev hst]
        refine ⟨by simp, ?_⟩
        intro s1 out h
        injection h with h
        injection h with h1 _
        rw [← h1, ← hp]
        exact ⟨by simp, hnew⟩
      | fileStatusUpdate =>
        simp only [reloadProtocol, hst] at hp
        injection hp with hp
        cases nm with
        | some dm =>
          simp only [directoryService.step, directoryService.onEvent, hst, dirMapUpdate_some]
          refine ⟨by simp, ?_⟩
          intro s1 out h
          injection h with h
          injection h with h1 _
          rw [← h1, ← hp]
          exact ⟨by simp, ⟨fun _ => hnew.mp (by simp), fun _ => by simp⟩⟩
        | none =>
          simp only [directoryService.step, directoryService.onEvent, hst, dirMapUpdate_some]
          refine ⟨by simp, ?_⟩
          intro s1 out h
          injection h with h
          injection h with h1 _
          rw [← h1, ← hp]
          exact ⟨by simp, hnew⟩
      | fileStatusDelete =>
        simp only [reloadProtocol, hst] at hp
        injection hp with hp
        cases nm with
        | some dm =>
          simp only [directoryService.step, directoryService.onEvent, hst, dirMapVar.delete]
          refine ⟨by simp, ?_⟩
          intro s1 out h
          injection h with h
          injection h with h1 _
          rw [← h1, ← hp]
          exact ⟨by simp, ⟨fun _ => hnew.mp (by simp), fun _ => by simp⟩⟩
        | none =>
          simp only [directoryService.step, directoryService.onEvent, hst, dirMapVar.delete]
          refine ⟨by simp, ?_⟩
          intro s1 out h
          injection h with h
          injection h with h1 _
          rw [← h1, ← hp]
          exact ⟨by simp, hnew⟩

/-- Over items that keep the reload protocol the loop does not write to a nil map,
and at its end the current index is allocated and the shadow index exists
exactly when a reload is open. -/
theorem directoryService.run_protocol (srv : Service) (fuel : Nat) (items : List Item) :
    ∀ (s : ActorState) (isOpen b2 : Bool), s.curMap ≠ none →
      (s.newMap ≠ none ↔ isOpen = true) → reloadProtocol isOpen items = some b2 →
      directoryService srv fuel s items ≠ .error Fault.nilMapWrite ∧
      ∀ s1 out, directoryService srv fuel s items = .ok (s1, out) →
        s1.curMap ≠ none ∧ (s1.newMap ≠ none ↔ b2 = true) := by
  induction items with
  | nil =>
    intro s isOpen b2 hcur hnew hp
    simp only [reloadProtocol] at hp
    injection hp with hp
    refine ⟨by simp [directoryService], ?_⟩
    intro s1 out h
    simp only [directoryService] at h
    injection h with h
    injection h with h1 _
    rw [← h1, ← hp]
    exact ⟨hcur, hnew⟩
  | cons item rest ih =>
    intro s isOpen b2 hcur hnew hp
    obtain ⟨b1, hp1, hp2⟩ := reloadProtocol_cons isOpen b2 item rest hp
    obtain ⟨hs1, hs2⟩ := directoryService.step_protocol srv fuel s item isOpen b1 hcur hnew hp1
    cases hstep : directoryService.step srv fuel s item with
    | error f =>
      rw [directoryService.cons_step_error srv fuel s item rest f hstep]
      refine ⟨?_, fun s1 out h => by cases h⟩
      intro h
      injection h with h
      rw [h] at hstep
      exact hs1 hstep
    | ok r =>
      obtain ⟨sa, outa⟩ := r
      obtain ⟨ha1, ha2⟩ := hs2 sa outa hstep
      obtain ⟨i1, i2⟩ := ih sa b1 b2 ha1 ha2 hp2
      constructor
      · intro h
        cases hr : directoryService srv fuel sa rest with
        | error f =>
          rw [directoryService.cons_rest_error srv fuel s sa item rest outa f hstep hr] at h
          injection h with h
          rw [h] at hr
          exact i1 hr
        | ok r2 =>
          obtain ⟨s2, out2⟩ := r2
          rw [directoryService.cons_ok srv fuel s sa s2 item rest outa out2 hstep hr] at h
          cases h
      · intro s1 out h
        obtain ⟨sb, outb, outc, hb, hc, _⟩ :=
          directoryService.cons_inv srv fuel s s1 item rest out h
        rw [hstep] at hb
        injection hb with hb
        injection hb with hb1 _
        rw [← hb1] at hc
        exact i2 s1 outc hc

/-- C27: over items in which every reload-end comes after a reload-start that no
earlier reload-end has closed, the actor, started in its start state, never
writes to a nil map, and after every prefix of the items that it gets through
the current index is not nil.  When no reload is open after the items, the
shadow index is nil, and a reload-end then makes the current index nil. -/
theorem C27_current_index_never_nil (srv : Service) (fuel : Nat) (items : List Item)
    (isOpen : Bool) (hp : reloadProtocol false items = some isOpen) :
    directoryService srv fuel ActorState.init items ≠ .error Fault.nilMapWrite ∧
    (∀ pre post s out, items = pre ++ post →
      directoryService srv fuel ActorState.init pre = .ok (s, out) → s.curMap ≠ none) ∧
    (∀ s out, directoryService srv fuel ActorState.init items = .ok (s, out) →
      (s.newMap ≠ none ↔ isOpen = true) ∧
      (isOpen = false → ∀ evEnd : fileEvent, evEnd.status = fileStatusReloadEnd →
        ∃ s1 out1, directoryService.step srv fuel s (.event evEnd) = .ok (s1, out1) ∧
          s1.curMap = none)) := by
  have hinit : ActorState.init.curMap ≠ none := by simp [ActorState.init]
  have hinit2 : ActorState.init.newMap ≠ none ↔ false = true := by simp [ActorState.init]
  obtain ⟨h1, h2⟩ := directoryService.run_protocol srv fuel items ActorState.init false
    isOpen hinit hinit2 hp
  refine ⟨h1, ?_, ?_⟩
  · intro pre post s out hitems hrun
    rw [hitems] at hp
    obtain ⟨b1, hb1⟩ := reloadProtocol_prefix pre post false isOpen hp
    exact ((directoryService.run_protocol srv fuel pre ActorState.init false b1 hinit hinit2
      hb1).2 s out hrun).1
  · intro s out hrun
    obtain ⟨_, hn⟩ := h2 s out hrun
    refine ⟨hn, ?_⟩
    intro hclosed evEnd hEnd
    obtain ⟨o, ho⟩ := directoryService.step_reloadEnd srv fuel s evEnd hEnd
    refine ⟨_, o, ho, ?_⟩
    simp only
    by_contra hne
    have := hn.mp hne
    rw [hclosed] at this
    cases this

/-- C27 witness: the reload `1.md`, error, `2.txt`, error keeps the protocol and is
got through with an allocated current index; a further reload-end, which no
reload-start precedes, makes the current index nil. -/
theorem C27_current_index_witness :
    directoryService { changeFuncs := [] } 0 ActorState.init exampleReloadWithErrors
      ≠ .error Fault.nilMapWrite ∧
    ∃ s out,
      directoryService { changeFuncs := [] } 0 ActorState.init exampleReloadWithErrors
        = .ok (s, out) ∧
      s.curMap ≠ none ∧
      ∃ s1 out1, directoryService.step { changeFuncs := [] } 0 s
          (.event (exampleEvent fileStatusReloadEnd 0)) = .ok (s1, out1) ∧
        s1.curMap = none := by
  obtain ⟨h1, h2, h3⟩ := C27_current_index_never_nil { changeFuncs := [] } 0
    exampleReloadWithErrors false (by rfl)
  have hrun : directoryService { changeFuncs := [] } 0 ActorState.init exampleReloadWithErrors
      = .ok (ActorState.mk
          (some ((dirMap.make.insert 1 (newEntry (exampleUpdate 1 "1.md" "md"))).insert 2
            (newEntry (exampleUpdate 2 "2.txt" "txt")))) none false,
          [Effect.log "read error", Effect.log "read error", Effect.ready 2]) := rfl
  refine ⟨h1, _, _, hrun, ?_, ?_⟩
  · exact h2 exampleReloadWithErrors [] _ _ (List.append_nil _).symm hrun
  · exact (h3 _ _ hrun).2 rfl (exampleEvent fileStatusReloadEnd 0) rfl

end directory

/-! # Package `config` -/

namespace config

/-- While the minutes fit into a signed 64-bit number of nanoseconds, `getDuration`
returns the minutes clamped to the bounds. -/
theorem getDuration_in_range (s : String) (d : Nat) (defDur minDur maxDur : Duration)
    (hs : ParseUint s = some d) (hd : d ≤ 153722867) :
    getDuration (some s) defDur minDur maxDur
      = (if (d : Int) * Minute < minDur then minDur
         else if (d : Int) * Minute > maxDur then maxDur else (d : Int) * Minute) := by
  have hlen : s.length > 0 := by
    have : s.data ≠ [] := by
      intro h
      simp [ParseUint, h] at hs
    exact List.length_pos.mpr this
  have h1 : wrapInt64 d = d := by
    simp only [wrapInt64]
    omega
  have h2 : wrapInt64 ((d : Int) * Minute) = (d : Int) * Minute := by
    simp only [wrapInt64, Minute]
    omega
  simp only [getDuration, hlen, if_true, hs, h1, h2]

/-- A missing, empty or non-numeric value gives the default. -/
theorem getDuration_default (defDur minDur maxDur : Duration) :
    getDuration none defDur minDur maxDur = defDur ∧
    getDuration (some "") defDur minDur maxDur = defDur ∧
    ∀ s, ParseUint s = none → getDuration (some s) defDur minDur maxDur = defDur := by
  refine ⟨rfl, rfl, ?_⟩
  intro s hs
  simp only [getDuration, hs]
  split_ifs <;> rfl

/-- C29 at the failing input: for `token-lifetime-html` the value `153722867` gives
the upper bound of 30 days, and the larger value `153722868` gives the lower
bound of one minute, because the product with `time.Minute` no longer fits
into 64 bits and wraps to a negative number. -/
theorem C29_getDuration_overflow :
    htmlLifetime (some "153722867") = 30 * 24 * Hour ∧
    htmlLifetime (some "153722868") = 1 * Minute ∧
    ParseUint "153722868" = some 153722868 ∧
    (153722868 : Int) * Minute > 30 * 24 * Hour ∧
    wrapInt64 (153722868 * Minute) < 0 := by
  decide

end config

/-! # Package `domain` -/

namespace domain

theorem isDigit_iff (c : Char) : isDigit c = true ↔ 48 ≤ c.toNat ∧ c.toNat ≤ 57 := by
  simp [isDigit]

theorem digitsValue_append (cs : List Char) (c : Char) :
    digitsValue (cs ++ [c]) = 10 * digitsValue cs + (c.toNat - 48) := by
  simp [digitsValue, List.foldl_append]

/-- Rendering the value of a sequence of digits with as many digits as the sequence
has gives the sequence back. -/
theorem formatDigits_digitsValue (cs : List Char) :
    (∀ c ∈ cs, isDigit c = true) → formatDigits cs.length (digitsValue cs) = cs := by
  induction cs using List.reverseRecOn with
  | nil => exact fun _ => rfl
  | append_singleton cs c ih =>
    intro h
    have hc := (isDigit_iff c).mp (h c (by simp))
    have hcs : ∀ x ∈ cs, isDigit x = true := fun x hx => h x (by simp [hx])
    rw [List.length_append, List.length_singleton, digitsValue_append, formatDigits]
    have h1 : (10 * digitsValue cs + (c.toNat - 48)) / 10 = digitsValue cs := by omega
    have h2 : 48 + (10 * digitsValue cs + (c.toNat - 48)) % 10 = c.toNat := by omega
    rw [h1, h2, ih hcs, Char.ofNat_toNat]

/-- C21: when `ParseZettelID` accepts a string, `Format` of the identifier it returns
is that string. -/
theorem C21_parse_then_format (s : String) (zid : directory.ZettelID)
    (h : ParseZettelID s = some zid) : Format zid = s := by
  unfold ParseZettelID at h
  split_ifs at h with h1 h2
  injection h with h
  obtain ⟨hlen, hall⟩ := h1
  have hd : ∀ c ∈ s.data, isDigit c = true := List.all_eq_true.mp hall
  have hf := formatDigits_digitsValue s.data hd
  have hl : s.data.length = 14 := hlen
  rw [hl] at hf
  rw [← h, Format, hf]

/-- C21 witness: every string of `validIDs` in `id_test.go` is accepted and rendered
back, the one with thirteen leading zeros among them. -/
theorem C21_parse_then_format_witness :
    Format 1 = "00000000000001" ∧
    ∀ s ∈ validIDs, ∃ zid, ParseZettelID s = some zid ∧ Format zid = s := by
  refine ⟨C21_parse_then_format "00000000000001" 1 (by decide), ?_⟩
  decide

/-- C22: `ParseZettelID` rejects every string that is not 14 characters long, or has
a character that is not an ASCII digit, or is the string of 14 zeros; and it
accepts every other string. -/
theorem C22_parse_rejects (s : String) :
    ((s.length ≠ 14 ∨ (∃ c ∈ s.data, isDigit c = false) ∨ s = "00000000000000") →
      ParseZettelID s = none) ∧
    (ParseZettelID s = none →
      (s.length ≠ 14 ∨ (∃ c ∈ s.data, isDigit c = false) ∨ s = "00000000000000")) := by
  constructor
  · rintro (h | ⟨c, hc, hd⟩ | h)
    · simp [ParseZettelID, h]
    · have : ¬ (s.data.all isDigit = true) := by
        intro hall
        have := List.all_eq_true.mp hall c hc
        rw [hd] at this
        cases this
      simp [ParseZettelID, this]
    · subst h
      decide
  · intro h
    by_cases hlen : s.length = 14
    · by_cases hall : s.data.all isDigit = true
      · right
        right
        have hz : digitsValue s.data = 0 := by
          by_contra hne
          simp [ParseZettelID, hlen, hall, hne] at h
        have hd : ∀ c ∈ s.data, isDigit c = true := List.all_eq_true.mp hall
        have hf := formatDigits_digitsValue s.data hd
        have hl : s.data.length = 14 := hlen
        rw [hl, hz] at hf
        have : s = String.mk (formatDigits 14 0) := by
          rw [hf]
        rw [this]
        decide
      · right
        left
        simp only [List.all_eq_true, not_forall] at hall
        obtain ⟨c, hc, hd⟩ := hall
        exact ⟨c, hc, by simpa using hd⟩
    · exact Or.inl hlen

/-- C22 witness: the empty string, the string of 14 zeros and a string with a letter
are rejected, as is every string of `invalidIDs` in `id_test.go`. -/
theorem C22_parse_rejects_witness :
    ParseZettelID "" = none ∧ ParseZettelID "00000000000000" = none ∧
    ParseZettelID "20200310T195100" = none ∧ ∀ s ∈ invalidIDs, ParseZettelID s = none :=
  ⟨(C22_parse_rejects "").1 (Or.inl (by decide)),
   (C22_parse_rejects "00000000000000").1 (Or.inr (Or.inr rfl)),
   (C22_parse_rejects "20200310T195100").1
     (Or.inr (Or.inl ⟨Char.ofNat 84, by decide, by decide⟩)),
   by decide⟩

end domain

/-! # Package `input` -/

namespace input

theorem RuneSelf_le_iff (n : Nat) : RuneSelf ≤ (n : Int) ↔ 0x80 ≤ n := by
  show (128 : Int) ≤ (n : Int) ↔ 128 ≤ n
  omega

theorem Input.Next_of_ascii (inp : Input) (b : Byte)
    (h : inp.Src[inp.readPos]? = some b) (hb : b.val < 0x80) :
    inp.Next = { inp with Pos := inp.readPos, readPos := inp.readPos + 1,
                          Ch := (b.val : Int) } := by
  have hlt : ¬ (RuneSelf ≤ (b.val : Int)) := by
    rw [RuneSelf_le_iff]
    omega
  simp only [Input.Next, h, if_neg hlt]

theorem Input.Next_of_none (inp : Input) (h : inp.Src[inp.readPos]? = none) :
    inp.Next = { inp with Pos := inp.Src.length, Ch := EOS } := by
  simp only [Input.Next, h]

/-- What `Next` gives depends on the source and the reading position only. -/
theorem Input.Next_congr (a b : Input) (hs : a.Src = b.Src) (hr : a.readPos = b.readPos) :
    a.Next = b.Next := by
  obtain ⟨s1, c1, p1, r1⟩ := a
  obtain ⟨s2, c2, p2, r2⟩ := b
  simp only at hs hr
  subst hs
  subst hr
  simp only [Input.Next]

theorem Input.Next_Src (inp : Input) : inp.Next.Src = inp.Src := by
  simp only [Input.Next]
  cases inp.Src[inp.readPos]? <;> rfl

/-- The rune that `PeekN` finds at the byte offset `n`, before a tab is replaced. -/
theorem Input.iterate_Next_Ch (n : Nat) :
    ∀ inp : Input,
      (∀ i, i < n → ∀ b, inp.Src[inp.readPos + i]? = some b → b.val < 0x80) →
      (Input.Next^[n + 1] inp).Ch
        = (match inp.Src[inp.readPos + n]? with
           | some b =>
             if RuneSelf ≤ (b.val : Int) then
               (DecodeRuneInString (inp.Src.drop (inp.readPos + n))).1
             else (b.val : Int)
           | none => EOS) := by
  induction n with
  | zero =>
    intro inp _
    simp only [Function.iterate_succ, Function.iterate_zero, Function.comp, id,
      Nat.add_zero, Input.Next]
    cases inp.Src[inp.readPos]? with
    | none => rfl
    | some b =>
      dsimp only
      split_ifs <;> rfl
  | succ n ih =>
    intro inp hascii
    rw [Function.iterate_succ_apply]
    cases hb : inp.Src[inp.readPos]? with
    | some b =>
      have hb80 : b.val < 0x80 := hascii 0 (Nat.succ_pos n) b hb
      have hnext := Input.Next_of_ascii inp b hb hb80
      have := ih inp.Next (by
        intro i hi c hc
        rw [hnext] at hc
        simp only at hc
        exact hascii (i + 1) (by omega) c (by rw [← hc]; congr 1; omega))
      rw [this, hnext]
      simp only
      have e : inp.readPos + 1 + n = inp.readPos + (n + 1) := by omega
      rw [e]
    | none =>
      have hnext := Input.Next_of_none inp hb
      have hlen : inp.Src.length ≤ inp.readPos := List.getElem?_eq_none_iff.mp hb
      have := ih inp.Next (by
        intro i hi c hc
        rw [hnext] at hc
        simp only at hc
        have : inp.Src[inp.readPos + i]? = none :=
          List.getElem?_eq_none_iff.mpr (by omega)
        rw [this] at hc
        cases hc)
      rw [this, hnext]
      simp only
      have h1 : inp.Src[inp.readPos + n]? = none :=
        List.getElem?_eq_none_iff.mpr (by omega)
      have h2 : inp.Src[inp.readPos + (n + 1)]? = none :=
        List.getElem?_eq_none_iff.mpr (by omega)
      rw [h1, h2]

/-- In a source of ASCII bytes every byte that `PeekN` passes over is ASCII. -/
theorem Input.ascii_source (inp : Input) (n : Nat) (h : ∀ b ∈ inp.Src, b.val < 0x80) :
    ∀ i, i < n → ∀ b, inp.Src[inp.readPos + i]? = some b → b.val < 0x80 := by
  intro i _ b hb
  exact h b (List.getElem?_mem hb)

/-- C23 as stated fails for a tab: in the source `a`, tab, `b`, after `NewInput`,
`PeekN(0)` and `Peek()` return a space, and the next call of `Next` places the
tab in `Ch`. -/
theorem C23_tab_counterexample :
    ((NewInput (ascii "a\tb")).PeekN 0).2 = rune ' ' ∧
    (NewInput (ascii "a\tb")).Peek.2 = rune ' ' ∧
    (Input.Next^[0 + 1] (NewInput (ascii "a\tb"))).Ch = rune '\t' ∧
    rune ' ' ≠ rune '\t' := by
  decide

/-- C23 (amended): for every input and every `n` such that the `n` bytes from the
reading position on are ASCII, as far as the source reaches, `PeekN(n)` returns
the rune that `n + 1` further calls of `Next` would place in `Ch` (`EOS` when
the source ends first), with a space in place of a tab; the input is the same
afterwards, and `Peek()` is `PeekN(0)`. -/
theorem C23_peekN (inp : Input) (n : Nat)
    (hascii : ∀ i, i < n → ∀ b, inp.Src[inp.readPos + i]? = some b → b.val < 0x80) :
    (inp.PeekN n).1 = inp ∧
    (inp.PeekN n).2
      = (if (Input.Next^[n + 1] inp).Ch = rune '\t' then rune ' '
         else (Input.Next^[n + 1] inp).Ch) ∧
    inp.Peek = inp.PeekN 0 := by
  rw [Input.iterate_Next_Ch n inp hascii]
  refine ⟨?_, ?_, rfl⟩
  · simp only [Input.PeekN]
    cases inp.Src[inp.readPos + n]? with
    | none => rfl
    | some b =>
      dsimp only
      split_ifs <;> rfl
  · simp only [Input.PeekN]
    cases inp.Src[inp.readPos + n]? with
    | none =>
      dsimp only
      rw [if_neg (by decide)]
    | some b =>
      dsimp only
      split_ifs <;> rfl

set_option maxRecDepth 8192 in
/-- C23 witness: in the source `ab`, tab, `c`, after `NewInput`, `PeekN(1)` returns
a space for the tab that two calls of `Next` place in `Ch`, and `PeekN(2)`
returns `c`. -/
theorem C23_peekN_witness :
    ((NewInput (ascii "ab\tc")).PeekN 1).2 = rune ' ' ∧
    (Input.Next^[1 + 1] (NewInput (ascii "ab\tc"))).Ch = rune '\t' ∧
    ((NewInput (ascii "ab\tc")).PeekN 2).2 = rune 'c' ∧
    ((NewInput (ascii "ab\tc")).PeekN 9).2 = EOS := by
  have h1 := C23_peekN (NewInput (ascii "ab\tc")) 1 (Input.ascii_source _ _ (by decide))
  have h2 := C23_peekN (NewInput (ascii "ab\tc")) 2 (Input.ascii_source _ _ (by decide))
  have h9 := C23_peekN (NewInput (ascii "ab\tc")) 9 (Input.ascii_source _ _ (by decide))
  refine ⟨?_, by decide, ?_, ?_⟩
  · rw [h1.2.1]
    decide
  · rw [h2.2.1]
    decide
  · rw [h9.2.1]
    decide

/-! ## Line ends -/

theorem ite_fst_ge {c : Prop} [Decidable c] (a b : Rune × Nat)
    (ha : c → (128 : Int) ≤ a.1) (hb : (128 : Int) ≤ b.1) :
    (128 : Int) ≤ (if c then a else b).1 := by
  split_ifs with h
  · exact ha h
  · exact hb

/-- A rune that `DecodeRuneInString` finds behind a byte that is not ASCII is not an
ASCII rune. -/
theorem DecodeRuneInString_ge (s0 : Byte) (rest : List Byte) (h : 0x80 ≤ s0.val) :
    (128 : Int) ≤ (DecodeRuneInString (s0 :: rest)).1 := by
  have hlt : ¬ s0.val < 0x80 := by omega
  have herr : (128 : Int) ≤ ((RuneError, 1) : Rune × Nat).1 := by decide
  simp only [DecodeRuneInString, if_neg hlt]
  by_cases h1 : s0.val < 0xC2
  · rw [if_pos h1]
    exact herr
  rw [if_neg h1]
  by_cases h2 : s0.val < 0xE0
  · rw [if_pos h2]
    cases rest with
    | nil => exact herr
    | cons s1 r1 =>
      refine ite_fst_ge _ _ ?_ herr
      intro _
      show (128 : Int) ≤ ((s0.val % 32 * 64 + s1.val % 64 : Nat) : Int)
      omega
  rw [if_neg h2]
  by_cases h3 : s0.val < 0xF0
  · rw [if_pos h3]
    cases rest with
    | nil => exact herr
    | cons s1 r1 =>
      cases r1 with
      | nil => exact herr
      | cons s2 r2 =>
        refine ite_fst_ge _ _ ?_ herr
        intro hc
        show (128 : Int) ≤ ((s0.val % 16 * 4096 + s1.val % 64 * 64 + s2.val % 64 : Nat) : Int)
        by_cases h224 : s0.val = 0xE0
        · have h237 : ¬ s0.val = 0xED := by omega
          rw [if_pos h224, if_neg h237] at hc
          omega
        · omega
  rw [if_neg h3]
  by_cases h4 : s0.val < 0xF5
  · rw [if_pos h4]
    cases rest with
    | nil => exact herr
    | cons s1 r1 =>
      cases r1 with
      | nil => exact herr
      | cons s2 r2 =>
        cases r2 with
        | nil => exact herr
        | cons s3 r3 =>
          refine ite_fst_ge _ _ ?_ herr
          intro hc
          show (128 : Int) ≤ ((s0.val % 8 * 262144 + s1.val % 64 * 4096 + s2.val % 64 * 64
            + s3.val % 64 : Nat) : Int)
          by_cases h240 : s0.val = 0xF0
          · have h244 : ¬ s0.val = 0xF4 := by omega
            rw [if_pos h240, if_neg h244] at hc
            omega
          · omega
  rw [if_neg h4]
  exact herr

theorem List.drop_of_getElem? (l : List Byte) (i : Nat) (b : Byte) (h : l[i]? = some b) :
    l.drop i = b :: l.drop (i + 1) := by
  obtain ⟨hlt, hget⟩ := List.getElem?_eq_some.mp h
  rw [← hget]
  exact List.drop_eq_getElem_cons hlt

/-- After a call of `Next`, a carriage return or line feed in `Ch` is the byte at
`Pos`, and the reading position is one byte further. -/
theorem Input.line_end_after_Next (inp t : Input) (ht : inp = t.Next)
    (hch : inp.Ch = rune '\r' ∨ inp.Ch = rune '\n') :
    inp.readPos = inp.Pos + 1 ∧ ∃ b : Byte, inp.Src[inp.Pos]? = some b ∧ (b.val : Int) = inp.Ch := by
  subst ht
  cases hb : t.Src[t.readPos]? with
  | none =>
    rw [Input.Next_of_none t hb] at hch
    simp only at hch
    rcases hch with h | h <;> exact absurd h (by decide)
  | some b =>
    by_cases h80 : b.val < 0x80
    · rw [Input.Next_of_ascii t b hb h80]
      exact ⟨rfl, b, hb, rfl⟩
    · exfalso
      have hge : RuneSelf ≤ (b.val : Int) := (RuneSelf_le_iff _).mpr (by omega)
      have hCh : t.Next.Ch = (DecodeRuneInString (t.Src.drop t.readPos)).1 := by
        simp only [Input.Next, hb, if_pos hge]
      rw [hCh, List.drop_of_getElem? t.Src t.readPos b hb] at hch
      have := DecodeRuneInString_ge b (t.Src.drop (t.readPos + 1)) (by omega)
      rcases hch with h | h
      · rw [h] at this
        exact absurd this (by decide)
      · rw [h] at this
        exact absurd this (by decide)

/-- `Peek` finds a line feed exactly when the byte at the reading position is one. -/
theorem Input.Peek_line_feed (inp : Input) :
    inp.Peek.2 = rune '\n' ↔ inp.Src[inp.readPos]? = some 10 := by
  have hval : ∀ r : Rune,
      (if r = rune '\t' then (inp, rune ' ') else (inp, r)).2 = rune '\n' ↔ r = rune '\n' := by
    intro r
    by_cases ht : r = rune '\t'
    · rw [if_pos ht, ht]
      show rune ' ' = rune '\n' ↔ rune '\t' = rune '\n'
      decide
    · rw [if_neg ht]
  simp only [Input.Peek, Input.PeekN, Nat.add_zero]
  cases hb : inp.Src[inp.readPos]? with
  | none =>
    dsimp only
    constructor
    · intro h
      exact absurd h (by decide)
    · intro h
      cases h
  | some b =>
    dsimp only
    rw [hval]
    by_cases h80 : b.val < 0x80
    · have hlt : ¬ (RuneSelf ≤ (b.val : Int)) := by
        rw [RuneSelf_le_iff]
        omega
      rw [if_neg hlt]
      constructor
      · intro h
        have hv : b.val = 10 := by
          have : (b.val : Int) = 10 := h
          omega
        have : b = 10 := Fin.ext hv
        rw [this]
      · intro h
        injection h with h
        rw [h]
        decide
    · have hge : RuneSelf ≤ (b.val : Int) := (RuneSelf_le_iff _).mpr (by omega)
      rw [if_pos hge, List.drop_of_getElem? inp.Src inp.readPos b hb]
      have hd := DecodeRuneInString_ge b (inp.Src.drop (inp.readPos + 1)) (by omega)
      constructor
      · intro h
        rw [h] at hd
        exact absurd hd (by decide)
      · intro h
        injection h with h
        rw [h] at h80
        exact absurd (by decide) h80

theorem Input.SetPos_Pos (inp : Input) (pos : Nat) (h : pos ≤ inp.Src.length) :
    (inp.SetPos pos).Pos = pos := by
  simp only [Input.SetPos, Input.Next]
  cases hb : inp.Src[pos]? with
  | some b => rfl
  | none =>
    have := List.getElem?_eq_none_iff.mp hb
    dsimp only
    omega

/-- C24: for an input as a call of `Next` leaves it.  When `Ch` is a carriage return
and the next byte is a line feed, `EatEOL` leaves the input positioned two
bytes further; when `Ch` is a carriage return without a line feed behind it,
or a line feed, one byte further; positioned at `pos` means that `Ch` is the
rune read at `pos`, or `EOS` at the end of the source, as `SetPos(pos)` gives
it.  When `Ch` is neither, the input is the same afterwards. -/
theorem C24_eatEOL (inp : Input) (hread : ∃ t : Input, inp = t.Next) :
    (inp.Ch = rune '\r' → inp.Src[inp.Pos + 1]? = some 10 →
      inp.EatEOL = inp.SetPos (inp.Pos + 2) ∧ inp.EatEOL.Pos = inp.Pos + 2) ∧
    (inp.Ch = rune '\r' → inp.Src[inp.Pos + 1]? ≠ some 10 →
      inp.EatEOL = inp.SetPos (inp.Pos + 1) ∧ inp.EatEOL.Pos = inp.Pos + 1) ∧
    (inp.Ch = rune '\n' →
      inp.EatEOL = inp.SetPos (inp.Pos + 1) ∧ inp.EatEOL.Pos = inp.Pos + 1) ∧
    (inp.Ch ≠ rune '\r' → inp.Ch ≠ rune '\n' → inp.EatEOL = inp) := by
  obtain ⟨t, ht⟩ := hread
  refine ⟨?_, ?_, ?_, ?_⟩
  · intro hcr hlf
    obtain ⟨hrp, b, hb, _⟩ := Input.line_end_after_Next inp t ht (Or.inl hcr)
    have hlf2 : inp.Src[inp.readPos]? = some 10 := by rw [hrp]; exact hlf
    have hpeek : inp.Peek.2 = rune '\n' := (Input.Peek_line_feed inp).mpr hlf2
    have hp1 : inp.Peek.1 = inp := by
      simp only [Input.Peek, Input.PeekN, Nat.add_zero, hlf2]
      split_ifs <;> rfl
    have hn := Input.Next_of_ascii inp 10 hlf2 (by decide)
    have hE : inp.EatEOL = inp.SetPos (inp.Pos + 2) := by
      simp only [Input.EatEOL, if_pos hcr, if_pos hpeek, Input.SetPos, hp1]
      apply Input.Next_congr
      · show inp.Next.Src = inp.Src
        exact Input.Next_Src inp
      · show inp.Next.readPos = inp.Pos + 2
        rw [hn]
        show inp.readPos + 1 = inp.Pos + 2
        omega
    refine ⟨hE, ?_⟩
    rw [hE]
    apply Input.SetPos_Pos
    have := (List.getElem?_eq_some.mp hlf).1
    omega
  · intro hcr hlf
    obtain ⟨hrp, b, hb, _⟩ := Input.line_end_after_Next inp t ht (Or.inl hcr)
    have hlf2 : ¬ inp.Src[inp.readPos]? = some 10 := by rw [hrp]; exact hlf
    have hpeek : ¬ inp.Peek.2 = rune '\n' := fun h => hlf2 ((Input.Peek_line_feed inp).mp h)
    have hp1 : inp.Peek.1 = inp := by
      simp only [Input.Peek, Input.PeekN, Nat.add_zero]
      cases inp.Src[inp.readPos]? with
      | none => rfl
      | some c =>
        dsimp only
        split_ifs <;> rfl
    have hE : inp.EatEOL = inp.SetPos (inp.Pos + 1) := by
      simp only [Input.EatEOL, if_pos hcr, if_neg hpeek, Input.SetPos, hp1]
      apply Input.Next_congr
      · rfl
      · exact hrp
    refine ⟨hE, ?_⟩
    rw [hE]
    apply Input.SetPos_Pos
    have := (List.getElem?_eq_some.mp hb).1
    omega
  · intro hlf
    obtain ⟨hrp, b, hb, _⟩ := Input.line_end_after_Next inp t ht (Or.inr hlf)
    have hncr : ¬ inp.Ch = rune '\r' := by
      rw [hlf]
      decide
    have hE : inp.EatEOL = inp.SetPos (inp.Pos + 1) := by
      simp only [Input.EatEOL, if_neg hncr, if_pos hlf, Input.SetPos]
      apply Input.Next_congr
      · rfl
      · exact hrp
    refine ⟨hE, ?_⟩
    rw [hE]
    apply Input.SetPos_Pos
    have := (List.getElem?_eq_some.mp hb).1
    omega
  · intro h1 h2
    simp only [Input.EatEOL, if_neg h1, if_neg h2]

set_option maxRecDepth 8192 in
/-- C24 witness: in the source `a`, CR, LF, `b`, CR, `c`, the input on the first
carriage return is moved from position 1 to position 3 with `Ch = b`, and the
input on the second one from position 4 to position 5 with `Ch = c`. -/
theorem C24_eatEOL_witness :
    ((NewInput (ascii "a\r\nb\rc")).Next.EatEOL.Pos = 3 ∧
      (NewInput (ascii "a\r\nb\rc")).Next.EatEOL.Ch = rune 'b') ∧
    ((NewInput (ascii "a\r\nb\rc")).Next.EatEOL.Next.EatEOL.Pos = 5 ∧
      (NewInput (ascii "a\r\nb\rc")).Next.EatEOL.Next.EatEOL.Ch = rune 'c') := by
  have h1 := (C24_eatEOL (NewInput (ascii "a\r\nb\rc")).Next ⟨_, rfl⟩).1
    (by decide) (by decide)
  have h2 := (C24_eatEOL (NewInput (ascii "a\r\nb\rc")).Next.EatEOL.Next ⟨_, rfl⟩).2.1
    (by decide) (by decide)
  refine ⟨⟨?_, by decide⟩, ⟨?_, by decide⟩⟩
  · rw [h1.2]
    decide
  · rw [h2.2]
    decide

/-! ## Numbered entities -/

theorem Fin.ofNat_val_byte (i : Nat) : (Fin.ofNat i : Byte).val = i % 256 := rfl

/-- The string that `string(rune(v))` gives for a character `v` is the UTF-8
encoding of `v`: it decodes to `v`, over its whole length. -/
theorem runeToString_decodes (v : Int) (h0 : 0 ≤ v) (hmax : v ≤ 0x10FFFF)
    (hs : ¬ isSurrogate v) :
    DecodeRuneInString (runeToString v) = (v, (runeToString v).length) := by
  obtain ⟨i, rfl⟩ := Int.eq_ofNat_of_zero_le h0
  have hmax2 : i ≤ 0x10FFFF := by omega
  have hs2 : ¬ (0xD800 ≤ i ∧ i ≤ 0xDFFF) := by
    intro h
    apply hs
    unfold isSurrogate
    omega
  have hcond : ¬ ((i : Int) < 0 ∨ MaxRune < (i : Int) ∨ (0xD800 ≤ (i : Int) ∧ (i : Int) ≤ 0xDFFF)) := by
    show ¬ ((i : Int) < 0 ∨ (0x10FFFF : Int) < (i : Int) ∨ (0xD800 ≤ (i : Int) ∧ (i : Int) ≤ 0xDFFF))
    omega
  simp only [runeToString, if_neg hcond, Int.toNat_ofNat, encodeRune]
  by_cases h1 : i ≤ 0x7F
  · rw [if_pos h1]
    have : (Fin.ofNat i : Byte).val = i := by rw [Fin.ofNat_val_byte]; omega
    simp only [DecodeRuneInString, this, List.length_singleton]
    rw [if_pos (by omega)]
  rw [if_neg h1]
  by_cases h2 : i ≤ 0x7FF
  · rw [if_pos h2]
    have e0 : (Fin.ofNat (0xC0 + i / 64) : Byte).val = 0xC0 + i / 64 := by
      rw [Fin.ofNat_val_byte]; omega
    have e1 : (Fin.ofNat (0x80 + i % 64) : Byte).val = 0x80 + i % 64 := by
      rw [Fin.ofNat_val_byte]; omega
    simp only [DecodeRuneInString, e0, e1, List.length_cons, List.length_nil]
    rw [if_neg (by omega), if_neg (by omega), if_pos (by omega), if_pos (by omega)]
    congr 1
    have : (0xC0 + i / 64) % 32 * 64 + (0x80 + i % 64) % 64 = i := by omega
    rw [this]
  rw [if_neg h2]
  by_cases h3 : i ≤ 0xFFFF
  · rw [if_pos h3]
    have e0 : (Fin.ofNat (0xE0 + i / 4096) : Byte).val = 0xE0 + i / 4096 := by
      rw [Fin.ofNat_val_byte]; omega
    have e1 : (Fin.ofNat (0x80 + i / 64 % 64) : Byte).val = 0x80 + i / 64 % 64 := by
      rw [Fin.ofNat_val_byte]; omega
    have e2 : (Fin.ofNat (0x80 + i % 64) : Byte).val = 0x80 + i % 64 := by
      rw [Fin.ofNat_val_byte]; omega
    simp only [DecodeRuneInString, e0, e1, e2, List.length_cons, List.length_nil]
    rw [if_neg (by omega), if_neg (by omega), if_neg (by omega), if_pos (by omega)]
    have hc : (if 0xE0 + i / 4096 = 0xE0 then 0xA0 else 0x80) ≤ 0x80 + i / 64 % 64 ∧
        0x80 + i / 64 % 64 ≤ (if 0xE0 + i / 4096 = 0xED then 0x9F else 0xBF) ∧
        0x80 ≤ 0x80 + i % 64 ∧ 0x80 + i % 64 ≤ 0xBF := by
      refine ⟨?_, ?_, by omega, by omega⟩
      · split_ifs with h <;> omega
      · split_ifs with h <;> omega
    rw [if_pos hc]
    congr 1
    have : (0xE0 + i / 4096) % 16 * 4096 + (0x80 + i / 64 % 64) % 64 * 64
        + (0x80 + i % 64) % 64 = i := by omega
    rw [this]
  rw [if_neg h3]
  have e0 : (Fin.ofNat (0xF0 + i / 262144) : Byte).val = 0xF0 + i / 262144 := by
    rw [Fin.ofNat_val_byte]; omega
  have e1 : (Fin.ofNat (0x80 + i / 4096 % 64) : Byte).val = 0x80 + i / 4096 % 64 := by
    rw [Fin.ofNat_val_byte]; omega
  have e2 : (Fin.ofNat (0x80 + i / 64 % 64) : Byte).val = 0x80 + i / 64 % 64 := by
    rw [Fin.ofNat_val_byte]; omega
  have e3 : (Fin.ofNat (0x80 + i % 64) : Byte).val = 0x80 + i % 64 := by
    rw [Fin.ofNat_val_byte]; omega
  simp only [DecodeRuneInString, e0, e1, e2, e3, List.length_cons, List.length_nil]
  rw [if_neg (by omega), if_neg (by omega), if_neg (by omega), if_neg (by omega),
    if_pos (by omega)]
  have hc : (if 0xF0 + i / 262144 = 0xF0 then 0x90 else 0x80) ≤ 0x80 + i / 4096 % 64 ∧
      0x80 + i / 4096 % 64 ≤ (if 0xF0 + i / 262144 = 0xF4 then 0x8F else 0xBF) ∧
      0x80 ≤ 0x80 + i / 64 % 64 ∧ 0x80 + i / 64 % 64 ≤ 0xBF ∧
      0x80 ≤ 0x80 + i % 64 ∧ 0x80 + i % 64 ≤ 0xBF := by
    refine ⟨?_, ?_, by omega, by omega, by omega, by omega⟩
    · split_ifs with h <;> omega
    · split_ifs with h <;> omega
  rw [if_pos hc]
  congr 1
  have : (0xF0 + i / 262144) % 8 * 262144 + (0x80 + i / 4096 % 64) % 64 * 4096
      + (0x80 + i / 64 % 64) % 64 * 64 + (0x80 + i % 64) % 64 = i := by omega
  rw [this]

theorem digitVal_nonneg (b : Byte) : 0 ≤ digitVal b := by
  unfold digitVal
  split_ifs <;> omega

theorem digitsFrom_ge (base : Int) (hbase : 1 ≤ base) (ds : List Byte) :
    ∀ code : Int, 0 ≤ code → code ≤ digitsFrom base code ds := by
  induction ds with
  | nil =>
    intro code _
    exact le_refl _
  | cons b ds ih =>
    intro code hcode
    have hb := digitVal_nonneg b
    have h1 : code ≤ base * code + digitVal b := by nlinarith
    have h2 := ih (base * code + digitVal b) (by omega)
    show code ≤ digitsFrom base (base * code + digitVal b) ds
    omega

/-- What `Next` reads when a byte is left: an ASCII byte itself, and otherwise a
rune that is not ASCII. -/
theorem Input.Next_of_cons (s : Input) (c : Byte) (rest : List Byte)
    (h : s.Src.drop s.readPos = c :: rest) :
    s.Next.Src = s.Src ∧
    ((c.val < 0x80 ∧ s.Next.Ch = (c.val : Int) ∧ s.Next.readPos = s.readPos + 1 ∧
        s.Next.Src.drop s.Next.readPos = rest) ∨
      (0x80 ≤ c.val ∧ (128 : Int) ≤ s.Next.Ch)) := by
  have hget : s.Src[s.readPos]? = some c := by
    have h0 : (s.Src.drop s.readPos)[0]? = s.Src[s.readPos + 0]? :=
      List.getElem?_drop s.Src s.readPos 0
    rw [h] at h0
    simpa using h0.symm
  refine ⟨Input.Next_Src s, ?_⟩
  by_cases hc : c.val < 0x80
  · left
    rw [Input.Next_of_ascii s c hget hc]
    refine ⟨hc, rfl, rfl, ?_⟩
    show s.Src.drop (s.readPos + 1) = rest
    have := List.drop_of_getElem? s.Src s.readPos c hget
    rw [this] at h
    exact (List.cons.inj h).2
  · right
    refine ⟨by omega, ?_⟩
    have hge : RuneSelf ≤ (c.val : Int) := by
      rw [RuneSelf_le_iff]
      omega
    simp only [Input.Next, hget, if_pos hge, h]
    exact DecodeRuneInString_ge c rest (by omega)

/-- What `Next` reads at the end of the source. -/
theorem Input.Next_of_nil (s : Input) (h : s.Src.drop s.readPos = []) :
    s.Next.Ch = EOS := by
  have hget : s.Src[s.readPos]? = none := by
    rw [List.getElem?_eq_none_iff]
    exact List.drop_eq_nil_iff.mp h
  rw [Input.Next_of_none s hget]

/-- The loop of `scanCode` over the digits `ds`: it fails when their number is
above `MaxRune`, and otherwise goes on behind them with their number. -/
theorem scanCode_digits (base : Int) (digit : Rune → Option Int) (isD : Byte → Prop)
    (hbase : 1 ≤ base)
    (hdig : ∀ b, isD b →
      b.val < 0x80 ∧ (b.val : Int) ≠ rune ';' ∧ digit (b.val : Int) = some (digitVal b))
    (rest : List Byte) :
    ∀ (ds : List Byte) (fuel : Nat) (s : Input) (code : Int),
      (∀ b ∈ ds, isD b) → s.Src.drop s.readPos = ds ++ rest → 0 ≤ code →
      ds.length < fuel →
      (digitsFrom base code ds ≤ MaxRune →
        scanCode base digit fuel s.Next code
          = scanCode base digit (fuel - ds.length)
              (Input.Next { s with readPos := s.readPos + ds.length })
              (digitsFrom base code ds)) ∧
      (MaxRune < digitsFrom base code ds → code ≤ MaxRune →
        ∃ i, scanCode base digit fuel s.Next code = some (i, [], false)) := by
  intro ds
  induction ds with
  | nil =>
    intro fuel s code _ _ _ _
    refine ⟨?_, ?_⟩
    · intro _
      rfl
    · intro h1 h2
      exact absurd h1 (not_lt.mpr h2)
  | cons b ds ih =>
    intro fuel s code hall hdrop hcode hfuel
    obtain ⟨hb80, hbsemi, hbdig⟩ := hdig b (hall b (List.mem_cons_self b ds))
    obtain ⟨hsrc, hnext⟩ := Input.Next_of_cons s b (ds ++ rest) hdrop
    rcases hnext with ⟨_, hch, hrp, hdrop2⟩ | ⟨hge, _⟩
    swap
    · omega
    have hall2 : ∀ c ∈ ds, isD c := fun c hc => hall c (List.mem_cons_of_mem b hc)
    have hcode2 : 0 ≤ base * code + digitVal b := by
      have := digitVal_nonneg b
      nlinarith
    obtain ⟨fuel2, rfl⟩ : ∃ k, fuel = k + 1 := ⟨fuel - 1, by
      simp only [List.length_cons] at hfuel
      omega⟩
    have hfuel2 : ds.length < fuel2 := by
      simp only [List.length_cons] at hfuel
      omega
    have hsemi : ¬ s.Next.Ch = rune ';' := by
      rw [hch]
      exact hbsemi
    have hstep : ¬ MaxRune < base * code + digitVal b →
        scanCode base digit (fuel2 + 1) s.Next code
          = scanCode base digit fuel2 s.Next.Next (base * code + digitVal b) := by
      intro hno
      rw [scanCode, if_neg hsemi, hch, hbdig]
      dsimp only
      rw [if_neg hno]
    have hfail : MaxRune < base * code + digitVal b →
        scanCode base digit (fuel2 + 1) s.Next code = some (s.Next, [], false) := by
      intro hyes
      rw [scanCode, if_neg hsemi, hch, hbdig]
      dsimp only
      rw [if_pos hyes]
    obtain ⟨ih1, ih2⟩ := ih fuel2 s.Next (base * code + digitVal b) hall2 hdrop2 hcode2 hfuel2
    have hmono := digitsFrom_ge base hbase ds (base * code + digitVal b) hcode2
    have hval : digitsFrom base code (b :: ds) = digitsFrom base (base * code + digitVal b) ds :=
      rfl
    refine ⟨?_, ?_⟩
    · intro hle
      rw [hval] at hle
      rw [hstep (not_lt.mpr (le_trans hmono hle)), ih1 hle, hval]
      have hf : fuel2 + 1 - (b :: ds).length = fuel2 - ds.length := by
        simp only [List.length_cons]
        omega
      rw [hf]
      congr 1
      apply Input.Next_congr
      · exact hsrc
      · show s.Next.readPos + ds.length = s.readPos + (b :: ds).length
        rw [hrp]
        simp only [List.length_cons]
        omega
    · intro hgt _
      rw [hval] at hgt
      by_cases hov : MaxRune < base * code + digitVal b
      · exact ⟨s.Next, hfail hov⟩
      · rw [hstep hov]
        exact ih2 hgt (not_lt.mp hov)

theorem decDigit_of_isDecDigit (b : Byte) (h : isDecDigit b) :
    b.val < 0x80 ∧ (b.val : Int) ≠ rune ';' ∧ decDigit (b.val : Int) = some (digitVal b) := by
  unfold isDecDigit at h
  have h1 : rune '0' ≤ (b.val : Int) ∧ (b.val : Int) ≤ rune '9' := by
    show (48 : Int) ≤ (b.val : Int) ∧ (b.val : Int) ≤ (57 : Int)
    omega
  refine ⟨by omega, ?_, ?_⟩
  · show (b.val : Int) ≠ (59 : Int)
    omega
  · rw [decDigit, if_pos h1, digitVal, if_pos h]
    rfl

theorem hexDigit_of_isHexDigit (b : Byte) (h : isHexDigit b) :
    b.val < 0x80 ∧ (b.val : Int) ≠ rune ';' ∧ hexDigit (b.val : Int) = some (digitVal b) := by
  unfold isHexDigit at h
  refine ⟨by omega, ?_, ?_⟩
  · show (b.val : Int) ≠ (59 : Int)
    omega
  · by_cases h1 : 48 ≤ b.val ∧ b.val ≤ 57
    · have h1r : rune '0' ≤ (b.val : Int) ∧ (b.val : Int) ≤ rune '9' := by
        show (48 : Int) ≤ (b.val : Int) ∧ (b.val : Int) ≤ (57 : Int)
        omega
      rw [hexDigit, if_pos h1r, digitVal, if_pos h1]
      rfl
    · have h1r : ¬ (rune '0' ≤ (b.val : Int) ∧ (b.val : Int) ≤ rune '9') := by
        show ¬ ((48 : Int) ≤ (b.val : Int) ∧ (b.val : Int) ≤ (57 : Int))
        omega
      by_cases h2 : 97 ≤ b.val ∧ b.val ≤ 102
      · have h2r : rune 'a' ≤ (b.val : Int) ∧ (b.val : Int) ≤ rune 'f' := by
          show (97 : Int) ≤ (b.val : Int) ∧ (b.val : Int) ≤ (102 : Int)
          omega
        rw [hexDigit, if_neg h1r, if_pos h2r, digitVal, if_neg h1, if_pos h2]
        show some ((b.val : Int) - 97 + 10) = some ((b.val : Int) - 87)
        congr 1
        omega
      · have h2r : ¬ (rune 'a' ≤ (b.val : Int) ∧ (b.val : Int) ≤ rune 'f') := by
          show ¬ ((97 : Int) ≤ (b.val : Int) ∧ (b.val : Int) ≤ (102 : Int))
          omega
        have h3 : 65 ≤ b.val ∧ b.val ≤ 70 := by omega
        have h3r : rune 'A' ≤ (b.val : Int) ∧ (b.val : Int) ≤ rune 'F' := by
          show (65 : Int) ≤ (b.val : Int) ∧ (b.val : Int) ≤ (70 : Int)
          omega
        rw [hexDigit, if_neg h1r, if_neg h2r, if_pos h3r, digitVal, if_neg h1, if_neg h2,
          if_pos h3]
        show some ((b.val : Int) - 65 + 10) = some ((b.val : Int) - 55)
        congr 1
        omega

/-- A rune that is not ASCII is no digit. -/
theorem hexDigit_of_ge (r : Int) (h : (128 : Int) ≤ r) : hexDigit r = none := by
  have h1 : ¬ (rune '0' ≤ r ∧ r ≤ rune '9') := by
    show ¬ ((48 : Int) ≤ r ∧ r ≤ (57 : Int))
    omega
  have h2 : ¬ (rune 'a' ≤ r ∧ r ≤ rune 'f') := by
    show ¬ ((97 : Int) ≤ r ∧ r ≤ (102 : Int))
    omega
  have h3 : ¬ (rune 'A' ≤ r ∧ r ≤ rune 'F') := by
    show ¬ ((65 : Int) ≤ r ∧ r ≤ (70 : Int))
    omega
  rw [hexDigit, if_neg h1, if_neg h2, if_neg h3]

theorem decDigit_of_ge (r : Int) (h : (128 : Int) ≤ r) : decDigit r = none := by
  have h1 : ¬ (rune '0' ≤ r ∧ r ≤ rune '9') := by
    show ¬ ((48 : Int) ≤ r ∧ r ≤ (57 : Int))
    omega
  rw [decDigit, if_neg h1]

theorem decDigit_of_not (c : Byte) (h : ¬ isDecDigit c) : decDigit (c.val : Int) = none := by
  unfold isDecDigit at h
  have h1 : ¬ (rune '0' ≤ (c.val : Int) ∧ (c.val : Int) ≤ rune '9') := by
    show ¬ ((48 : Int) ≤ (c.val : Int) ∧ (c.val : Int) ≤ (57 : Int))
    omega
  rw [decDigit, if_neg h1]

theorem hexDigit_of_not (c : Byte) (h : ¬ isHexDigit c) : hexDigit (c.val : Int) = none := by
  unfold isHexDigit at h
  have h1 : ¬ (rune '0' ≤ (c.val : Int) ∧ (c.val : Int) ≤ rune '9') := by
    show ¬ ((48 : Int) ≤ (c.val : Int) ∧ (c.val : Int) ≤ (57 : Int))
    omega
  have h2 : ¬ (rune 'a' ≤ (c.val : Int) ∧ (c.val : Int) ≤ rune 'f') := by
    show ¬ ((97 : Int) ≤ (c.val : Int) ∧ (c.val : Int) ≤ (102 : Int))
    omega
  have h3 : ¬ (rune 'A' ≤ (c.val : Int) ∧ (c.val : Int) ≤ rune 'F') := by
    show ¬ ((65 : Int) ≤ (c.val : Int) ∧ (c.val : Int) ≤ (70 : Int))
    omega
  rw [hexDigit, if_neg h1, if_neg h2, if_neg h3]

theorem Input.Next_of_cons_ascii (s : Input) (c : Byte) (rest : List Byte)
    (h : s.Src.drop s.readPos = c :: rest) (hc : c.val < 0x80) :
    s.Next.Src = s.Src ∧ s.Next.Ch = (c.val : Int) ∧ s.Next.readPos = s.readPos + 1 ∧
      s.Next.Src.drop s.Next.readPos = rest := by
  obtain ⟨hsrc, hnext⟩ := Input.Next_of_cons s c rest h
  rcases hnext with ⟨_, h1, h2, h3⟩ | ⟨hge, _⟩
  · exact ⟨hsrc, h1, h2, h3⟩
  · omega

theorem List.drop_add_of_append (l ds rest : List Byte) (p : Nat)
    (h : l.drop p = ds ++ rest) : l.drop (p + ds.length) = rest := by
  rw [← List.drop_drop, h, List.drop_left]

theorem List.length_of_drop (l tl : List Byte) (p : Nat) (h : l.drop p = tl) (hne : tl ≠ []) :
    p + tl.length = l.length := by
  have h1 : (l.drop p).length = tl.length := by rw [h]
  rw [List.length_drop] at h1
  have h2 : 0 < tl.length := List.length_pos.mpr hne
  omega

/-- The string that `string(rune(v))` gives for a character `v` is `encodeRune v`. -/
theorem runeToString_scalar (v : Int) (h0 : 0 ≤ v) (hmax : v ≤ 0x10FFFF)
    (hs : ¬ isSurrogate v) : runeToString v = encodeRune v.toNat := by
  unfold isSurrogate at hs
  have hcond : ¬ (v < 0 ∨ MaxRune < v ∨ (0xD800 ≤ v ∧ v ≤ 0xDFFF)) := by
    show ¬ (v < 0 ∨ (0x10FFFF : Int) < v ∨ (0xD800 ≤ v ∧ v ≤ 0xDFFF))
    omega
  rw [runeToString, if_neg hcond]

/-- The string that `string(rune(v))` gives for a surrogate is the encoding of
U+FFFD. -/
theorem runeToString_surrogate (v : Int) (h : isSurrogate v) :
    runeToString v = [0xEF, 0xBF, 0xBD] := by
  unfold isSurrogate at h
  rw [runeToString, if_pos (Or.inr (Or.inr h))]
  decide

/-- The loop of `scanCode` over digits that end in `;`. -/
theorem scanCode_number (base : Int) (digit : Rune → Option Int) (isD : Byte → Prop)
    (hbase : 1 ≤ base)
    (hdig : ∀ b, isD b →
      b.val < 0x80 ∧ (b.val : Int) ≠ rune ';' ∧ digit (b.val : Int) = some (digitVal b))
    (ds rest : List Byte) (fuel : Nat) (s : Input)
    (hall : ∀ b ∈ ds, isD b) (hdrop : s.Src.drop s.readPos = ds ++ 59 :: rest)
    (hfuel : ds.length < fuel) :
    (MaxRune < numberValue base ds →
      ∃ i, scanCode base digit fuel s.Next 0 = some (i, [], false)) ∧
    (numberValue base ds ≤ MaxRune →
      scanCode base digit fuel s.Next 0
        = some (s.SetPos (s.readPos + ds.length + 1), runeToString (numberValue base ds),
            true)) := by
  obtain ⟨h1, h2⟩ := scanCode_digits base digit isD hbase hdig (59 :: rest) ds fuel s 0
    hall hdrop (le_refl 0) hfuel
  refine ⟨fun hgt => h2 hgt (by decide), ?_⟩
  intro hle
  rw [h1 hle]
  obtain ⟨k, hk⟩ : ∃ k, fuel - ds.length = k + 1 := ⟨fuel - ds.length - 1, by omega⟩
  have hd2 : List.drop (s.readPos + ds.length) s.Src = 59 :: rest :=
    List.drop_add_of_append s.Src ds (59 :: rest) s.readPos hdrop
  obtain ⟨hsrc, hch, hrp, _⟩ := Input.Next_of_cons_ascii
    { s with readPos := s.readPos + ds.length } 59 rest hd2 (by decide)
  have hsemi : (Input.Next { s with readPos := s.readPos + ds.length }).Ch = rune ';' := by
    rw [hch]
    rfl
  rw [hk, scanCode, if_pos hsemi]
  have hnext : (Input.Next { s with readPos := s.readPos + ds.length }).Next
      = s.SetPos (s.readPos + ds.length + 1) := by
    rw [Input.SetPos]
    apply Input.Next_congr
    · exact hsrc
    · exact hrp
  rw [hnext]
  rfl

/-- The loop of `scanCode` over digits with a byte behind them that is neither a
digit nor `;`. -/
theorem scanCode_nondigit (base : Int) (digit : Rune → Option Int) (isD : Byte → Prop)
    (hbase : 1 ≤ base)
    (hdig : ∀ b, isD b →
      b.val < 0x80 ∧ (b.val : Int) ≠ rune ';' ∧ digit (b.val : Int) = some (digitVal b))
    (hnot : ∀ c : Byte, ¬ isD c → digit (c.val : Int) = none)
    (hge : ∀ r : Int, (128 : Int) ≤ r → digit r = none)
    (ds rest : List Byte) (c : Byte) (fuel : Nat) (s : Input)
    (hall : ∀ b ∈ ds, isD b) (hdrop : s.Src.drop s.readPos = ds ++ c :: rest)
    (hc : ¬ isD c) (hc2 : c ≠ 59) (hfuel : ds.length < fuel) :
    ∃ i, scanCode base digit fuel s.Next 0 = some (i, [], false) := by
  obtain ⟨h1, h2⟩ := scanCode_digits base digit isD hbase hdig (c :: rest) ds fuel s 0
    hall hdrop (le_refl 0) hfuel
  by_cases hle : digitsFrom base 0 ds ≤ MaxRune
  swap
  · exact h2 (not_le.mp hle) (by decide)
  rw [h1 hle]
  obtain ⟨k, hk⟩ : ∃ k, fuel - ds.length = k + 1 := ⟨fuel - ds.length - 1, by omega⟩
  have hd2 : List.drop (s.readPos + ds.length) s.Src = c :: rest :=
    List.drop_add_of_append s.Src ds (c :: rest) s.readPos hdrop
  obtain ⟨_, hcases⟩ := Input.Next_of_cons { s with readPos := s.readPos + ds.length } c rest hd2
  have hsemi : ¬ (Input.Next { s with readPos := s.readPos + ds.length }).Ch = rune ';' := by
    rcases hcases with ⟨_, hch, _⟩ | ⟨_, hbig⟩
    · rw [hch]
      show ¬ ((c.val : Int) = (59 : Int))
      intro h
      apply hc2
      apply Fin.ext
      show c.val = 59
      omega
    · intro h
      rw [h] at hbig
      exact absurd hbig (by decide)
  have hnone : digit (Input.Next { s with readPos := s.readPos + ds.length }).Ch = none := by
    rcases hcases with ⟨_, hch, _⟩ | ⟨_, hbig⟩
    · rw [hch]
      exact hnot c hc
    · exact hge _ hbig
  refine ⟨Input.Next { s with readPos := s.readPos + ds.length }, ?_⟩
  rw [hk, scanCode, if_neg hsemi, hnone]

theorem numberValue_nonneg (base : Int) (hbase : 1 ≤ base) (ds : List Byte) :
    0 ≤ numberValue base ds :=
  digitsFrom_ge base hbase ds 0 (le_refl 0)

theorem numberedOutcome_of_scan (inp s : Input) (out : Option (Input × List Byte × Bool))
    (v : Int) (pos : Nat) (hv : 0 ≤ v) (hpos : pos ≤ inp.Src.length) (hsrc : s.Src = inp.Src)
    (hfail : MaxRune < v → ∃ i, out = some (i, [], false))
    (hok : v ≤ MaxRune → out = some (s.SetPos pos, runeToString v, true)) :
    numberedOutcome inp out v pos := by
  refine ⟨hfail, ?_⟩
  intro hle
  have hset : s.SetPos pos = inp.SetPos pos := by
    rw [Input.SetPos, Input.SetPos]
    apply Input.Next_congr
    · exact hsrc
    · rfl
  refine ⟨runeToString v, ?_, Input.SetPos_Pos inp pos hpos, ?_, ?_⟩
  · rw [hok hle, hset]
  · intro hs
    exact ⟨runeToString_scalar v hv hle hs, runeToString_decodes v hv hle hs⟩
  · intro hs
    exact runeToString_surrogate v hs

/-- The way of `ScanEntity` into the loop for base 10. -/
theorem Input.ScanEntity_decimal (unescape : List Byte → List Byte) (inp : Input)
    (body : List Byte) (hch : inp.Ch = rune '&')
    (hdrop : inp.Src.drop inp.readPos = 35 :: body)
    (hx : ¬ (inp.Next.Next.Ch = rune 'x' ∨ inp.Next.Next.Ch = rune 'X'))
    (hsemi : ¬ inp.Next.Next.Ch = rune ';') :
    inp.ScanEntity unescape = scanCode 10 decDigit (inp.Src.length + 1) inp.Next.Next 0 := by
  obtain ⟨_, h1, _, _⟩ := Input.Next_of_cons_ascii inp 35 body hdrop (by decide)
  have hhash : inp.Next.Ch = rune '#' := by
    rw [h1]
    rfl
  rw [Input.ScanEntity, if_neg (not_not.mpr hch)]
  dsimp only
  rw [if_pos hhash, if_neg hx, if_neg hsemi]

/-- The way of `ScanEntity` into the loop for base 16. -/
theorem Input.ScanEntity_hex (unescape : List Byte → List Byte) (inp : Input)
    (x : Byte) (body : List Byte) (hch : inp.Ch = rune '&') (hxx : x = 120 ∨ x = 88)
    (hdrop : inp.Src.drop inp.readPos = 35 :: x :: body)
    (hsemi : ¬ inp.Next.Next.Next.Ch = rune ';') :
    inp.ScanEntity unescape
      = scanCode 16 hexDigit (inp.Src.length + 1) inp.Next.Next.Next 0 := by
  obtain ⟨_, h1, _, hd1⟩ := Input.Next_of_cons_ascii inp 35 (x :: body) hdrop (by decide)
  have hhash : inp.Next.Ch = rune '#' := by
    rw [h1]
    rfl
  have hx80 : x.val < 0x80 := by
    rcases hxx with h | h <;> rw [h] <;> decide
  obtain ⟨_, h2, _, _⟩ := Input.Next_of_cons_ascii inp.Next x body hd1 hx80
  have hx : inp.Next.Next.Ch = rune 'x' ∨ inp.Next.Next.Ch = rune 'X' := by
    rw [h2]
    rcases hxx with h | h
    · left
      rw [h]
      rfl
    · right
      rw [h]
      rfl
  rw [Input.ScanEntity, if_neg (not_not.mpr hch)]
  dsimp only
  rw [if_pos hhash, if_pos hx, if_neg hsemi]

/-- C25 (amended): for every input whose `Ch` is `&`, by the bytes from the reading
position on.  A numbered entity, `#` with one or more decimal digits and `;`,
or `#x` or `#X` with one or more hexadecimal digits and `;`, with the number
`v`: for `v` at most 0x10FFFF and no surrogate, `ScanEntity` returns `true`
with the UTF-8 encoding of the character `v` and leaves the input positioned
on the byte after the `;`; for a surrogate `v` it does the same with the
encoding of U+FFFD; for `v` above 0x10FFFF it returns the empty string and
`false`.  It returns the empty string and `false` as well for `#;`, for `#x;`
and `#X;`, and for a byte that is neither a digit nor `;` behind the digits. -/
theorem C25_scanEntity (unescape : List Byte → List Byte) (inp : Input)
    (ds rest : List Byte) (hch : inp.Ch = rune '&') :
    (inp.Src.drop inp.readPos = 35 :: (ds ++ 59 :: rest) → ds ≠ [] →
      (∀ b ∈ ds, isDecDigit b) →
      numberedOutcome inp (inp.ScanEntity unescape) (numberValue 10 ds)
        (inp.readPos + ds.length + 2)) ∧
    (∀ x : Byte, x = 120 ∨ x = 88 →
      inp.Src.drop inp.readPos = 35 :: x :: (ds ++ 59 :: rest) → ds ≠ [] →
      (∀ b ∈ ds, isHexDigit b) →
      numberedOutcome inp (inp.ScanEntity unescape) (numberValue 16 ds)
        (inp.readPos + ds.length + 3)) ∧
    (inp.Src.drop inp.readPos = 35 :: 59 :: rest →
      ∃ i, inp.ScanEntity unescape = some (i, [], false)) ∧
    (∀ x : Byte, x = 120 ∨ x = 88 →
      inp.Src.drop inp.readPos = 35 :: x :: 59 :: rest →
      ∃ i, inp.ScanEntity unescape = some (i, [], false)) ∧
    (∀ c : Byte, inp.Src.drop inp.readPos = 35 :: (ds ++ c :: rest) →
      (∀ b ∈ ds, isDecDigit b) → ¬ isDecDigit c → c ≠ 59 →
      (ds = [] → c ≠ 120 ∧ c ≠ 88) →
      ∃ i, inp.ScanEntity unescape = some (i, [], false)) ∧
    (∀ x c : Byte, x = 120 ∨ x = 88 →
      inp.Src.drop inp.readPos = 35 :: x :: (ds ++ c :: rest) →
      (∀ b ∈ ds, isHexDigit b) → ¬ isHexDigit c → c ≠ 59 →
      ∃ i, inp.ScanEntity unescape = some (i, [], false)) := by
  have hnotsemi : ∀ c : Byte, c ≠ 59 → ¬ ((c.val : Int) = rune ';') := by
    intro c hc h
    apply hc
    apply Fin.ext
    show c.val = 59
    have h2 : (c.val : Int) = (59 : Int) := h
    omega
  have hbig : ∀ r : Int, (128 : Int) ≤ r →
      ¬ (r = rune 'x' ∨ r = rune 'X') ∧ ¬ r = rune ';' := by
    intro r hr
    refine ⟨?_, ?_⟩
    · show ¬ (r = (120 : Int) ∨ r = (88 : Int))
      omega
    · show ¬ r = (59 : Int)
      omega
  refine ⟨?_, ?_, ?_, ?_, ?_, ?_⟩
  · intro hdrop hne hall
    obtain ⟨hsrc1, _, hrp1, hd1⟩ := Input.Next_of_cons_ascii inp 35 _ hdrop (by decide)
    obtain ⟨b, ds2, hds⟩ := List.exists_cons_of_ne_nil hne
    have hb : isDecDigit b := hall b (by rw [hds]; exact List.mem_cons_self b ds2)
    have hd1b : inp.Next.Src.drop inp.Next.readPos = b :: (ds2 ++ 59 :: rest) := by
      rw [hd1, hds]
      rfl
    obtain ⟨hb80, _, _⟩ := decDigit_of_isDecDigit b hb
    obtain ⟨_, h2ch, _, _⟩ := Input.Next_of_cons_ascii inp.Next b _ hd1b hb80
    unfold isDecDigit at hb
    have hx : ¬ (inp.Next.Next.Ch = rune 'x' ∨ inp.Next.Next.Ch = rune 'X') := by
      rw [h2ch]
      show ¬ ((b.val : Int) = (120 : Int) ∨ (b.val : Int) = (88 : Int))
      omega
    have hsemi : ¬ inp.Next.Next.Ch = rune ';' := by
      rw [h2ch]
      show ¬ (b.val : Int) = (59 : Int)
      omega
    rw [Input.ScanEntity_decimal unescape inp _ hch hdrop hx hsemi]
    have hlen := List.length_of_drop inp.Src _ inp.readPos hdrop (List.cons_ne_nil _ _)
    simp only [List.length_cons, List.length_append] at hlen
    obtain ⟨hf, hok⟩ := scanCode_number 10 decDigit isDecDigit (by decide)
      decDigit_of_isDecDigit ds rest (inp.Src.length + 1) inp.Next hall hd1 (by omega)
    have hp : inp.Next.readPos + ds.length + 1 = inp.readPos + ds.length + 2 := by
      rw [hrp1]
      omega
    rw [hp] at hok
    exact numberedOutcome_of_scan inp inp.Next _ _ _
      (numberValue_nonneg 10 (by decide) ds) (by omega) hsrc1 hf hok
  · intro x hxx hdrop hne hall
    have hx80 : x.val < 0x80 := by
      rcases hxx with h | h <;> rw [h] <;> decide
    obtain ⟨hsrc1, _, hrp1, hd1⟩ := Input.Next_of_cons_ascii inp 35 _ hdrop (by decide)
    obtain ⟨hsrc2, _, hrp2, hd2⟩ := Input.Next_of_cons_ascii inp.Next x _ hd1 hx80
    obtain ⟨b, ds2, hds⟩ := List.exists_cons_of_ne_nil hne
    have hb : isHexDigit b := hall b (by rw [hds]; exact List.mem_cons_self b ds2)
    have hd2b : inp.Next.Next.Src.drop inp.Next.Next.readPos = b :: (ds2 ++ 59 :: rest) := by
      rw [hd2, hds]
      rfl
    obtain ⟨hb80, hbsemi, _⟩ := hexDigit_of_isHexDigit b hb
    obtain ⟨_, h3ch, _, _⟩ := Input.Next_of_cons_ascii inp.Next.Next b _ hd2b hb80
    have hsemi : ¬ inp.Next.Next.Next.Ch = rune ';' := by
      rw [h3ch]
      exact hbsemi
    rw [Input.ScanEntity_hex unescape inp x _ hch hxx hdrop hsemi]
    have hlen := List.length_of_drop inp.Src _ inp.readPos hdrop (List.cons_ne_nil _ _)
    simp only [List.length_cons, List.length_append] at hlen
    obtain ⟨hf, hok⟩ := scanCode_number 16 hexDigit isHexDigit (by decide)
      hexDigit_of_isHexDigit ds rest (inp.Src.length + 1) inp.Next.Next hall hd2 (by omega)
    have hp : inp.Next.Next.readPos + ds.length + 1 = inp.readPos + ds.length + 3 := by
      rw [hrp2, hrp1]
      omega
    rw [hp] at hok
    exact numberedOutcome_of_scan inp inp.Next.Next _ _ _
      (numberValue_nonneg 16 (by decide) ds) (by omega) (hsrc2.trans hsrc1) hf hok
  · intro hdrop
    obtain ⟨_, h1, _, hd1⟩ := Input.Next_of_cons_ascii inp 35 _ hdrop (by decide)
    obtain ⟨_, h2, _, _⟩ := Input.Next_of_cons_ascii inp.Next 59 _ hd1 (by decide)
    have hhash : inp.Next.Ch = rune '#' := by
      rw [h1]
      rfl
    have hx : ¬ (inp.Next.Next.Ch = rune 'x' ∨ inp.Next.Next.Ch = rune 'X') := by
      rw [h2]
      decide
    have hsemi : inp.Next.Next.Ch = rune ';' := by
      rw [h2]
      rfl
    refine ⟨inp.Next.Next, ?_⟩
    rw [Input.ScanEntity, if_neg (not_not.mpr hch)]
    dsimp only
    rw [if_pos hhash, if_neg hx, if_pos hsemi]
  · intro x hxx hdrop
    have hx80 : x.val < 0x80 := by
      rcases hxx with h | h <;> rw [h] <;> decide
    obtain ⟨_, h1, _, hd1⟩ := Input.Next_of_cons_ascii inp 35 _ hdrop (by decide)
    obtain ⟨_, h2, _, hd2⟩ := Input.Next_of_cons_ascii inp.Next x _ hd1 hx80
    obtain ⟨_, h3, _, _⟩ := Input.Next_of_cons_ascii inp.Next.Next 59 _ hd2 (by decide)
    have hhash : inp.Next.Ch = rune '#' := by
      rw [h1]
      rfl
    have hx : inp.Next.Next.Ch = rune 'x' ∨ inp.Next.Next.Ch = rune 'X' := by
      rw [h2]
      rcases hxx with h | h
      · left
        rw [h]
        rfl
      · right
        rw [h]
        rfl
    have hsemi : inp.Next.Next.Next.Ch = rune ';' := by
      rw [h3]
      rfl
    refine ⟨inp.Next.Next.Next, ?_⟩
    rw [Input.ScanEntity, if_neg (not_not.mpr hch)]
    dsimp only
    rw [if_pos hhash, if_pos hx, if_pos hsemi]
  · intro c hdrop hall hc hc59 hcx
    obtain ⟨hsrc1, _, hrp1, hd1⟩ := Input.Next_of_cons_ascii inp 35 _ hdrop (by decide)
    have hlen := List.length_of_drop inp.Src _ inp.readPos hdrop (List.cons_ne_nil _ _)
    simp only [List.length_cons, List.length_append] at hlen
    have hfirst : ¬ (inp.Next.Next.Ch = rune 'x' ∨ inp.Next.Next.Ch = rune 'X') ∧
        ¬ inp.Next.Next.Ch = rune ';' := by
      cases ds with
      | nil =>
        obtain ⟨hc120, hc88⟩ := hcx rfl
        obtain ⟨_, hcases⟩ := Input.Next_of_cons inp.Next c rest hd1
        rcases hcases with ⟨_, h2, _⟩ | ⟨_, h2⟩
        · rw [h2]
          refine ⟨?_, hnotsemi c hc59⟩
          intro h
          rcases h with h | h
          · apply hc120
            apply Fin.ext
            show c.val = 120
            have h3 : (c.val : Int) = (120 : Int) := h
            omega
          · apply hc88
            apply Fin.ext
            show c.val = 88
            have h3 : (c.val : Int) = (88 : Int) := h
            omega
        · exact hbig _ h2
      | cons b ds2 =>
        have hb : isDecDigit b := hall b (List.mem_cons_self b ds2)
        obtain ⟨hb80, _, _⟩ := decDigit_of_isDecDigit b hb
        obtain ⟨_, h2ch, _, _⟩ := Input.Next_of_cons_ascii inp.Next b _ hd1 hb80
        unfold isDecDigit at hb
        rw [h2ch]
        refine ⟨?_, ?_⟩
        · show ¬ ((b.val : Int) = (120 : Int) ∨ (b.val : Int) = (88 : Int))
          omega
        · show ¬ (b.val : Int) = (59 : Int)
          omega
    rw [Input.ScanEntity_decimal unescape inp _ hch hdrop hfirst.1 hfirst.2]
    exact scanCode_nondigit 10 decDigit isDecDigit (by decide) decDigit_of_isDecDigit
      decDigit_of_not decDigit_of_ge ds rest c (inp.Src.length + 1) inp.Next hall hd1 hc hc59
      (by omega)
  · intro x c hxx hdrop hall hc hc59
    have hx80 : x.val < 0x80 := by
      rcases hxx with h | h <;> rw [h] <;> decide
    obtain ⟨hsrc1, _, hrp1, hd1⟩ := Input.Next_of_cons_ascii inp 35 _ hdrop (by decide)
    obtain ⟨hsrc2, _, hrp2, hd2⟩ := Input.Next_of_cons_ascii inp.Next x _ hd1 hx80
    have hlen := List.length_of_drop inp.Src _ inp.readPos hdrop (List.cons_ne_nil _ _)
    simp only [List.length_cons, List.length_append] at hlen
    have hsemi : ¬ inp.Next.Next.Next.Ch = rune ';' := by
      cases ds with
      | nil =>
        obtain ⟨_, hcases⟩ := Input.Next_of_cons inp.Next.Next c rest hd2
        rcases hcases with ⟨_, h3, _⟩ | ⟨_, h3⟩
        · rw [h3]
          exact hnotsemi c hc59
        · exact (hbig _ h3).2
      | cons b ds2 =>
        have hb : isHexDigit b := hall b (List.mem_cons_self b ds2)
        obtain ⟨hb80, hbsemi, _⟩ := hexDigit_of_isHexDigit b hb
        obtain ⟨_, h3ch, _, _⟩ := Input.Next_of_cons_ascii inp.Next.Next b _ hd2 hb80
        rw [h3ch]
        exact hbsemi
    rw [Input.ScanEntity_hex unescape inp x _ hch hxx hdrop hsemi]
    exact scanCode_nondigit 16 hexDigit isHexDigit (by decide) hexDigit_of_isHexDigit
      hexDigit_of_not hexDigit_of_ge ds rest c (inp.Src.length + 1) inp.Next.Next hall hd2 hc
      hc59 (by omega)

/-- C25 as stated fails for a surrogate: `&#xD800;` and `&#55296;` are well-formed
numbered entities with the value 0xD800, which is at most 0x10FFFF, and
`ScanEntity` returns `true` with the encoding of U+FFFD, not of U+D800. -/
theorem C25_surrogate_counterexample :
    (NewInput (ascii "&#xD800;z")).Ch = rune '&' ∧
    numberValue 16 (ascii "D800") = 0xD800 ∧
    numberValue 10 (ascii "55296") = 0xD800 ∧
    (0xD800 : Int) ≤ MaxRune ∧
    Input.ScanEntity (fun bs => bs) (NewInput (ascii "&#xD800;z"))
      = some ((NewInput (ascii "&#xD800;z")).SetPos 8, [0xEF, 0xBF, 0xBD], true) ∧
    Input.ScanEntity (fun bs => bs) (NewInput (ascii "&#55296;z"))
      = some ((NewInput (ascii "&#55296;z")).SetPos 8, [0xEF, 0xBF, 0xBD], true) ∧
    DecodeRuneInString [0xEF, 0xBF, 0xBD] = (0xFFFD, 3) := by
  decide

set_option maxRecDepth 16384 in
/-- C25 witness: on `&#8364;x` the outcome is that of the number 8364 with the
input positioned on byte 7, the `x`, and the string is the encoding of U+20AC;
on `&#x20aC;` it is the same string, with the input at the end of the source;
`&#;`, `&#X;`, `&#12a;`, `&#xfg;` and `&#1114112;` give the empty string and
`false`; `&#xFFFD;` gives the three bytes of U+FFFD. -/
theorem C25_scanEntity_witness :
    numberedOutcome (NewInput (ascii "&#8364;x"))
      (Input.ScanEntity (fun bs => bs) (NewInput (ascii "&#8364;x")))
      (numberValue 10 (ascii "8364")) 7 ∧
    Input.ScanEntity (fun bs => bs) (NewInput (ascii "&#8364;x"))
      = some ((NewInput (ascii "&#8364;x")).SetPos 7, [0xE2, 0x82, 0xAC], true) ∧
    numberedOutcome (NewInput (ascii "&#x20aC;"))
      (Input.ScanEntity (fun bs => bs) (NewInput (ascii "&#x20aC;")))
      (numberValue 16 (ascii "20aC")) 8 ∧
    Input.ScanEntity (fun bs => bs) (NewInput (ascii "&#x20aC;"))
      = some ((NewInput (ascii "&#x20aC;")).SetPos 8, [0xE2, 0x82, 0xAC], true) ∧
    (∃ i, Input.ScanEntity (fun bs => bs) (NewInput (ascii "&#;")) = some (i, [], false)) ∧
    (∃ i, Input.ScanEntity (fun bs => bs) (NewInput (ascii "&#X;")) = some (i, [], false)) ∧
    (∃ i, Input.ScanEntity (fun bs => bs) (NewInput (ascii "&#12a;")) = some (i, [], false)) ∧
    (∃ i, Input.ScanEntity (fun bs => bs) (NewInput (ascii "&#xfg;")) = some (i, [], false)) ∧
    (∃ i, Input.ScanEntity (fun bs => bs) (NewInput (ascii "&#1114112;"))
      = some (i, [], false)) ∧
    numberedOutcome (NewInput (ascii "&#xFFFD;"))
      (Input.ScanEntity (fun bs => bs) (NewInput (ascii "&#xFFFD;")))
      (numberValue 16 (ascii "FFFD")) 8 ∧
    Input.ScanEntity (fun bs => bs) (NewInput (ascii "&#xFFFD;"))
      = some ((NewInput (ascii "&#xFFFD;")).SetPos 8, [0xEF, 0xBF, 0xBD], true) :=
  ⟨(C25_scanEntity (fun bs => bs) (NewInput (ascii "&#8364;x")) (ascii "8364") (ascii "x")
      (by decide)).1 (by decide) (by decide) (by decide),
    by decide,
    (C25_scanEntity (fun bs => bs) (NewInput (ascii "&#x20aC;")) (ascii "20aC") []
      (by decide)).2.1 120 (by decide) (by decide) (by decide) (by decide),
    by decide,
    (C25_scanEntity (fun bs => bs) (NewInput (ascii "&#;")) [] []
      (by decide)).2.2.1 (by decide),
    (C25_scanEntity (fun bs => bs) (NewInput (ascii "&#X;")) [] []
      (by decide)).2.2.2.1 88 (by decide) (by decide),
    (C25_scanEntity (fun bs => bs) (NewInput (ascii "&#12a;")) (ascii "12") (ascii ";")
      (by decide)).2.2.2.2.1 97 (by decide) (by decide) (by decide) (by decide) (by decide),
    (C25_scanEntity (fun bs => bs) (NewInput (ascii "&#xfg;")) (ascii "f") (ascii ";")
      (by decide)).2.2.2.2.2 120 103 (by decide) (by decide) (by decide) (by decide)
      (by decide),
    ((C25_scanEntity (fun bs => bs) (NewInput (ascii "&#1114112;")) (ascii "1114112") []
      (by decide)).1 (by decide) (by decide) (by decide)).1 (by decide),
    (C25_scanEntity (fun bs => bs) (NewInput (ascii "&#xFFFD;")) (ascii "FFFD") []
      (by decide)).2.1 120 (by decide) (by decide) (by decide) (by decide),
    by decide⟩

end input
